import Mathlib

/-!
# subdivided_pill.h: a shallow embedding and its verification

The embedding follows `src/subdivided_pill.h`.

* `float` values are elements of a field `F`; the square root is a parameter `sqrtf`, so the
  generator is an executable function for every `F`. Statements "in exact real arithmetic" take
  `F := ℝ` and `sqrtf := Real.sqrt`.
* `uint16_t next_vertex_index` is a natural number reduced modulo `2 ^ 16` at every increment.
* the `int` variables (`triangle`, `edge`, `triangle_count`, `next_triangle_index`, the pointer
  offsets) are natural numbers; they stay below `2 ^ 31` for every level up to 29.
* the two output buffers are total maps with arbitrary initial contents; the vertex buffer is
  indexed by `Int` because the index `next_vertex_index - triangle_count * 2` is computed in `int`.
  Every access is appended to a trace, in program order; an access outside the buffers is not a
  failure of the model, it shows in the trace (`accessInBounds`).
* the unconditional `for (;;)` loop takes fuel, one unit per pass; running out of fuel is `none`.
* `sp_get_optimum_subdivision_count` takes the constant `pi` and the functions `acosf`, `logf`
  as parameters; statements "in exact real arithmetic" take `Real.pi`, `Real.arccos`, `Real.log`.
-/

namespace SubdividedPill

/-! ## Data model -/

/-- The C struct `sp__Vertex`. -/
structure sp__Vertex (F : Type) where
  x : F
  y : F

/-- The C struct `sp__Triangle`: the three entries of `uint16_t i[3]`. -/
structure sp__Triangle where
  i0 : Nat
  i1 : Nat
  i2 : Nat
deriving DecidableEq

/-- The C struct `sp__PackedVertex` (two `int16_t`). -/
structure sp__PackedVertex where
  x : Int
  y : Int
deriving DecidableEq

/-- Array access `t.i[k]` for `k = 0, 1, 2`. -/
def sp__Triangle.i (t : sp__Triangle) : Nat → Nat
  | 0 => t.i0
  | 1 => t.i1
  | _ => t.i2

/-- One memory access to one of the two output buffers. -/
inductive Access where
  | readVertex (slot : Int)
  | writeVertex (slot : Int)
  | readTriangle (slot : Nat)
  | writeTriangle (slot : Nat)
deriving DecidableEq

/-- The two caller-owned buffers `_out_vertices`, `_out_triangles` and the accesses so far. -/
structure Buffers (F : Type) where
  vertices : Int → sp__Vertex F
  triangles : Nat → sp__Triangle
  trace : List Access

/-- Record an access. -/
def Buffers.note {F : Type} (m : Buffers F) (a : Access) : Buffers F :=
  { m with trace := m.trace ++ [a] }

/-- The store `_out_vertices[slot] = v`. -/
def Buffers.writeVertex {F : Type} (m : Buffers F) (slot : Int) (v : sp__Vertex F) : Buffers F :=
  { m with
    vertices := fun j => if j = slot then v else m.vertices j
    trace := m.trace ++ [Access.writeVertex slot] }

/-- The store `_out_triangles[slot] = t`. -/
def Buffers.writeTriangle {F : Type} (m : Buffers F) (slot : Nat) (t : sp__Triangle) : Buffers F :=
  { m with
    triangles := fun j => if j = slot then t else m.triangles j
    trace := m.trace ++ [Access.writeTriangle slot] }

/-- The C loop `for (int i = 0; i < n; i++) body`. -/
def forLoop {σ : Type} (n : Nat) (body : Nat → σ → σ) (s : σ) : σ :=
  match n with
  | 0 => s
  | k + 1 => body k (forLoop k body s)

/-! ## Sizing -/

/-- The function `sp_get_vertex_count`: `powf(2, n)` is exact. -/
def sp_get_vertex_count (_subdivision_count : Nat) : Nat :=
  2 + 2 * 2 ^ _subdivision_count

/-- The function `sp_get_triangle_count`. -/
def sp_get_triangle_count (_subdivision_count : Nat) : Nat :=
  2 ^ (_subdivision_count + 1)

/-! ## Mesh generator -/

section Generator

variable {F : Type} [Field F]

/-- The function `sp__subdivide_chord`. -/
def sp__subdivide_chord (sqrtf : F → F) (_v0 _v1 : sp__Vertex F) : sp__Vertex F :=
  let mx := (_v0.x + _v1.x) * 0.5
  let my := (_v0.y + _v1.y) * 0.5
  let ms := 0.5 / sqrtf (mx * mx + my * my)
  let x := ms * mx
  let y := ms * my
  ⟨x, y⟩

/-- The local variables of `sp__create_geometry` that are live in the subdivision loop, with the
buffers. `prev_triangles` and `next_triangles` are offsets into `_out_triangles`. -/
structure State (F : Type) where
  mem : Buffers F
  next_vertex_index : Nat
  next_triangle_index : Nat
  prev_triangles : Nat
  next_triangles : Nat
  subdivision : Nat
  triangle_count : Nat

/-- The body of the innermost loop of the left half-circle (lines 120-129). -/
def leftStep (sqrtf : F → F) (triangle edge : Nat) (s : State F) : State F :=
  let i0 := (s.mem.triangles (s.prev_triangles + triangle)).i (edge + 0)
  let m1 := s.mem.note (Access.readTriangle (s.prev_triangles + triangle))
  let i1 := (m1.triangles (s.prev_triangles + triangle)).i (edge + 1)
  let m2 := m1.note (Access.readTriangle (s.prev_triangles + triangle))
  let triangle_index := triangle * 2 + edge
  let m3 := m2.writeTriangle (s.next_triangles + triangle_index) ⟨i0, s.next_vertex_index, i1⟩
  let next_vertex := sp__subdivide_chord sqrtf (m3.vertices i0) (m3.vertices i1)
  let m4 := (m3.note (Access.readVertex i0)).note (Access.readVertex i1)
  let m5 := m4.writeVertex s.next_vertex_index next_vertex
  { s with mem := m5, next_vertex_index := (s.next_vertex_index + 1) % 2 ^ 16 }

/-- The body of the innermost loop of the right half-circle (lines 136-145). -/
def rightStep (triangle edge : Nat) (s : State F) : State F :=
  let i0 := (s.mem.triangles (s.prev_triangles + (s.triangle_count + triangle))).i (edge + 0)
  let m1 := s.mem.note (Access.readTriangle (s.prev_triangles + (s.triangle_count + triangle)))
  let i1 := (m1.triangles (s.prev_triangles + (s.triangle_count + triangle))).i (edge + 1)
  let m2 := m1.note (Access.readTriangle (s.prev_triangles + (s.triangle_count + triangle)))
  let triangle_index := (s.triangle_count + triangle) * 2 + edge
  let m3 := m2.writeTriangle (s.next_triangles + triangle_index) ⟨i0, s.next_vertex_index, i1⟩
  let src : Int := (s.next_vertex_index : Int) - (s.triangle_count : Int) * 2
  let left_half_vertex := m3.vertices src
  let m4 := m3.note (Access.readVertex src)
  let m5 := m4.writeVertex s.next_vertex_index ⟨-left_half_vertex.x + 1.0, -left_half_vertex.y⟩
  { s with mem := m5, next_vertex_index := (s.next_vertex_index + 1) % 2 ^ 16 }

/-- The left half-circle loop nest (lines 118-131). -/
def leftLoop (sqrtf : F → F) (s : State F) : State F :=
  forLoop s.triangle_count (fun triangle s1 =>
    forLoop 2 (fun edge s2 => leftStep sqrtf triangle edge s2) s1) s

/-- The right half-circle loop nest (lines 134-147). -/
def rightLoop (s : State F) : State F :=
  forLoop s.triangle_count (fun triangle s1 =>
    forLoop 2 (fun edge s2 => rightStep triangle edge s2) s1) s

/-- The end of one pass of the subdivision loop (lines 153-157 and the `subdivision++`). -/
def advance (s : State F) : State F :=
  { s with
    next_triangle_index := s.next_triangle_index * 2
    triangle_count := s.triangle_count * 2
    prev_triangles := s.next_triangles
    next_triangles := s.next_triangle_index * 2
    subdivision := s.subdivision + 1 }

/-- The loop `for (int subdivision = 1, triangle_count = 1;; subdivision++)` (lines 116-158):
it leaves only through the `break` of line 150. -/
def subdivisionLoop (sqrtf : F → F) (_subdivision_count : Nat) : Nat → State F → Option (State F)
  | 0, _ => none
  | fuel + 1, s =>
    let s1 := rightLoop (leftLoop sqrtf s)
    if s1.subdivision + 1 = _subdivision_count then some s1
    else subdivisionLoop sqrtf _subdivision_count fuel (advance s1)

/-- The function `sp__create_geometry` (lines 81-159), started on buffers with the contents
`vertices0` and `triangles0`. -/
def sp__create_geometry (sqrtf : F → F) (fuel : Nat) (_subdivision_count : Nat)
    (vertices0 : Int → sp__Vertex F) (triangles0 : Nat → sp__Triangle) : Option (Buffers F) :=
  let m : Buffers F := ⟨vertices0, triangles0, []⟩
  let m := m.writeVertex 0 ⟨0.0, -0.5⟩
  let m := m.writeVertex 1 ⟨0.0, 0.5⟩
  let m := m.writeVertex 2 ⟨1.0, 0.5⟩
  let m := m.writeVertex 3 ⟨1.0, -0.5⟩
  let m := m.writeTriangle 0 ⟨0, 1, 2⟩
  let m := m.writeTriangle 1 ⟨2, 3, 0⟩
  if _subdivision_count = 0 then some m
  else
    let m := m.writeVertex 4 ⟨-0.5, 0.0⟩
    let m := m.writeVertex 5 ⟨1.5, 0.0⟩
    let m := m.writeTriangle 2 ⟨0, 4, 1⟩
    let m := m.writeTriangle 3 ⟨2, 5, 3⟩
    if _subdivision_count = 1 then some m
    else
      (subdivisionLoop sqrtf _subdivision_count fuel
        { mem := m
          next_vertex_index := 6
          next_triangle_index := 4
          prev_triangles := 2
          next_triangles := 4
          subdivision := 1
          triangle_count := 1 }).map State.mem

/-- The function `sp_create_geometry` (lines 207-209): the casts reinterpret the buffers. -/
def sp_create_geometry (sqrtf : F → F) (fuel : Nat) (_subdivision_count : Nat)
    (vertices0 : Int → sp__Vertex F) (triangles0 : Nat → sp__Triangle) : Option (Buffers F) :=
  sp__create_geometry sqrtf fuel _subdivision_count vertices0 triangles0

end Generator

/-! ## Vertex packer -/

section Packer

variable {F : Type} [LinearOrderedField F] [FloorRing F]

/-- The C function `roundf`: to the nearest integer, halfway cases away from zero. -/
def roundf (x : F) : Int :=
  if 0 ≤ x then ⌊x + 1 / 2⌋ else ⌈x - 1 / 2⌉

/-- The function `sp__to_snorm_16`. The rounded value lies in `[-32767, 32767]`, so the cast to
`int16_t` keeps it. -/
def sp__to_snorm_16 (_value : F) : Int :=
  roundf (min (max _value (-1.0)) 1.0 * 32767.0)

/-- The body of the loop of `sp__pack_vertices` (lines 169-184) for one vertex; `none` when the
assertion `xn != 0` fails. -/
def packVertex (v : sp__Vertex F) : Option sp__PackedVertex :=
  let x := v.x
  let z : F := -0.5
  let xz : F × F := if x ≥ 1.0 then (x - 1.0, 0.5) else (x, z)
  let xn := sp__to_snorm_16 (xz.1 + xz.2)
  let yn := sp__to_snorm_16 v.y
  if xn ≠ 0 then some ⟨xn, yn⟩ else none

/-- The function `sp__pack_vertices` (lines 161-186): `none` when an assertion fails. -/
def sp__pack_vertices (_vertex_count : Nat) (_vertices : Int → sp__Vertex F)
    (_out_packed_vertices : Nat → sp__PackedVertex) : Option (Nat → sp__PackedVertex) :=
  forLoop _vertex_count (fun i acc =>
    acc.bind (fun out =>
      (packVertex (_vertices i)).map (fun p => fun j => if j = i then p else out j)))
    (some _out_packed_vertices)

/-- The function `sp_pack_vertices` (lines 211-213). -/
def sp_pack_vertices (_vertex_count : Nat) (_vertices : Int → sp__Vertex F)
    (_out_packed_vertices : Nat → sp__PackedVertex) : Option (Nat → sp__PackedVertex) :=
  sp__pack_vertices _vertex_count _vertices _out_packed_vertices

end Packer

/-! ## Optimum subdivision count -/

section Optimum

variable {F : Type} [LinearOrderedField F] [FloorRing F]

/-- The function `sp_get_optimum_subdivision_count` (lines 198-205). `pi` stands for the literal
`3.14159265358979323846f`, `acosf` and `logf` for the library functions; `ceilf` returns an
integer value, which the cast to `int` keeps. -/
def sp_get_optimum_subdivision_count (pi : F) (acosf logf : F → F)
    (_on_screen_radius _error_tolerance : F) : Int :=
  let vertex_count := pi / acosf (1.0 - _error_tolerance / _on_screen_radius)
  let subdivision_count := logf (vertex_count / 3.0) / logf 2.0
  ⌈subdivision_count⌉

end Optimum

/-! ## Definitions used in the statements and proofs -/

section Auxiliary

variable {F : Type} [Field F]

/-- The reflection `(x, y) ↦ (-x + 1, -y)` of line 143. -/
def mirror (v : sp__Vertex F) : sp__Vertex F :=
  ⟨-v.x + 1.0, -v.y⟩

/-- The contents of the two buffers when the triangle slots `0 .. n - 1` and the vertex slots
`0 .. n + 1` have been written (and nothing else): the quad, the two cap triangles, and for every
later slot `t` the recurrences that the loop bodies compute. Slot `t` of band `c` is
`2 ^ (c + 2) + q` with `q < 2 ^ (c + 2)`; its first half is the left cap. -/
structure MemInv (sqrtf : F → F) (v0 : Int → sp__Vertex F) (t0 : Nat → sp__Triangle) (n : Nat)
    (V : Int → sp__Vertex F) (T : Nat → sp__Triangle) : Prop where
  v_0 : V 0 = ⟨0.0, -0.5⟩
  v_1 : V 1 = ⟨0.0, 0.5⟩
  v_2 : V 2 = ⟨1.0, 0.5⟩
  v_3 : V 3 = ⟨1.0, -0.5⟩
  t_0 : T 0 = ⟨0, 1, 2⟩
  t_1 : T 1 = ⟨2, 3, 0⟩
  caps : 4 ≤ n → V 4 = ⟨-0.5, 0.0⟩ ∧ V 5 = ⟨1.5, 0.0⟩ ∧ T 2 = ⟨0, 4, 1⟩ ∧ T 3 = ⟨2, 5, 3⟩
  tri : ∀ t, 4 ≤ t → t < n →
    T t = ⟨(T (t / 2)).i (t % 2), t + 2, (T (t / 2)).i (t % 2 + 1)⟩
  bound : ∀ t, 2 ≤ t → t < n → (T t).i0 < t + 2 ∧ (T t).i1 = t + 2 ∧ (T t).i2 < t + 2
  left : ∀ c q, q < 2 ^ (c + 1) → 2 ^ (c + 2) + q < n →
    V ((2 ^ (c + 2) + q + 2 : Nat) : Int)
      = sp__subdivide_chord sqrtf (V ((T (2 ^ (c + 2) + q)).i0 : Nat))
          (V ((T (2 ^ (c + 2) + q)).i2 : Nat))
  right : ∀ c q, q < 2 ^ (c + 1) → 2 ^ (c + 2) + 2 ^ (c + 1) + q < n →
    V ((2 ^ (c + 2) + 2 ^ (c + 1) + q + 2 : Nat) : Int)
      = mirror (V ((2 ^ (c + 2) + q + 2 : Nat) : Int))
  frameV : ∀ j : Int, (j < 0 ∨ (n : Int) + 2 ≤ j) → V j = v0 j
  frameT : ∀ t, n ≤ t → T t = t0 t

/-- The vertex slots written, in program order. -/
def vertexWrites : List Access → List Int
  | [] => []
  | Access.writeVertex slot :: l => slot :: vertexWrites l
  | Access.readVertex _ :: l => vertexWrites l
  | Access.readTriangle _ :: l => vertexWrites l
  | Access.writeTriangle _ :: l => vertexWrites l

/-- The triangle slots written, in program order. -/
def triangleWrites : List Access → List Nat
  | [] => []
  | Access.writeTriangle slot :: l => slot :: triangleWrites l
  | Access.readVertex _ :: l => triangleWrites l
  | Access.readTriangle _ :: l => triangleWrites l
  | Access.writeVertex _ :: l => triangleWrites l

/-- What holds when `n` triangles have been written: the 16-bit counter, the slots written so
far, and, as long as the counter has not wrapped, the contents of the buffers. -/
structure RunInv (sqrtf : F → F) (v0 : Int → sp__Vertex F) (t0 : Nat → sp__Triangle) (n : Nat)
    (s : State F) : Prop where
  nvi : s.next_vertex_index = (n + 2) % 2 ^ 16
  vw : vertexWrites s.mem.trace = (List.range (n + 2)).map (fun i => ((i % 2 ^ 16 : Nat) : Int))
  tw : triangleWrites s.mem.trace = List.range n
  mem : n + 1 < 2 ^ 16 → MemInv sqrtf v0 t0 n s.mem.vertices s.mem.triangles

/-- The values of the loop variables during subdivision round `c + 1`. -/
structure Locals (c : Nat) (s : State F) : Prop where
  sub : s.subdivision = c + 1
  tc : s.triangle_count = 2 ^ c
  prev : s.prev_triangles = 2 ^ (c + 1)
  next : s.next_triangles = 2 ^ (c + 2)
  nti : s.next_triangle_index = 2 ^ (c + 2)

/-- The buffers when line 95 is reached. -/
def quadBuffers (v0 : Int → sp__Vertex F) (t0 : Nat → sp__Triangle) : Buffers F :=
  ((((((⟨v0, t0, []⟩ : Buffers F).writeVertex 0 ⟨0.0, -0.5⟩).writeVertex 1 ⟨0.0, 0.5⟩).writeVertex 2
    ⟨1.0, 0.5⟩).writeVertex 3 ⟨1.0, -0.5⟩).writeTriangle 0 ⟨0, 1, 2⟩).writeTriangle 1 ⟨2, 3, 0⟩

/-- The buffers when line 106 is reached. -/
def capBuffers (v0 : Int → sp__Vertex F) (t0 : Nat → sp__Triangle) : Buffers F :=
  ((((quadBuffers v0 t0).writeVertex 4 ⟨-0.5, 0.0⟩).writeVertex 5 ⟨1.5, 0.0⟩).writeTriangle 2
    ⟨0, 4, 1⟩).writeTriangle 3 ⟨2, 5, 3⟩

/-- The state in which the subdivision loop is entered (lines 110-116). -/
def loopEntry (v0 : Int → sp__Vertex F) (t0 : Nat → sp__Triangle) : State F :=
  { mem := capBuffers v0 t0
    next_vertex_index := 6
    next_triangle_index := 4
    prev_triangles := 2
    next_triangles := 4
    subdivision := 1
    triangle_count := 1 }

/-- Twice the signed area of the triangle `a b c`: `cross (b - a) (c - a)`. -/
def signedArea {F : Type} [Field F] (a b c : sp__Vertex F) : F :=
  (b.x - a.x) * (c.y - a.y) - (b.y - a.y) * (c.x - a.x)

/-- Two points `u`, `w` of the left cap circle (radius `1 / 2`, centre `(0, 0)`, `x ≤ 0`), at
most a quarter turn apart, `w` clockwise from `u` in the orientation of the quad. -/
structure Chord (u w : sp__Vertex ℝ) : Prop where
  nu : u.x * u.x + u.y * u.y = 1 / 4
  nw : w.x * w.x + w.y * w.y = 1 / 4
  dot : 0 ≤ u.x * w.x + u.y * w.y
  cross : u.x * w.y - u.y * w.x < 0
  ux : u.x ≤ 0
  wx : w.x ≤ 0

/-- What the geometry of a left-cap triangle slot `tl` and of its right-cap counterpart `tr`
looks like. In a band `b ≥ 1` the two outer vertices are the chord that was subdivided. -/
structure SlotGeom (V : Int → sp__Vertex ℝ) (T : Nat → sp__Triangle) (b tl tr : Nat) : Prop where
  c1 : Chord (V ((T tl).i0 : Nat)) (V ((tl + 2 : Nat) : Int))
  c2 : Chord (V ((tl + 2 : Nat) : Int)) (V ((T tl).i2 : Nat))
  area : signedArea (V ((T tl).i0 : Nat)) (V ((tl + 2 : Nat) : Int)) (V ((T tl).i2 : Nat)) < 0
  m0 : V ((T tr).i0 : Nat) = mirror (V ((T tl).i0 : Nat))
  m1 : V ((tr + 2 : Nat) : Int) = mirror (V ((tl + 2 : Nat) : Int))
  m2 : V ((T tr).i2 : Nat) = mirror (V ((T tl).i2 : Nat))
  mid : 1 ≤ b →
    0 < ((V ((T tl).i0 : Nat)).x + (V ((T tl).i2 : Nat)).x) * 0.5
          * (((V ((T tl).i0 : Nat)).x + (V ((T tl).i2 : Nat)).x) * 0.5)
        + ((V ((T tl).i0 : Nat)).y + (V ((T tl).i2 : Nat)).y) * 0.5
          * (((V ((T tl).i0 : Nat)).y + (V ((T tl).i2 : Nat)).y) * 0.5)

/-- The cap triangle (slot 2 for the left cap, slot 3 for the right cap) from which triangle
slot `t ≥ 2` descends: slot `t ≥ 4` subdivides slot `t / 2`. -/
def capRoot (t : Nat) : Nat :=
  if t < 4 then t else capRoot (t / 2)
termination_by t
decreasing_by omega

/-- The side of the pill that vertex index `i` belongs to: vertices 0 and 1 are the left quad
corners, 2 and 3 the right ones, and vertex `i ≥ 4` is the apex of triangle slot `i - 2`. -/
def isRightVertex (i : Nat) : Bool :=
  if i < 2 then false else if i < 4 then true else capRoot (i - 2) == 3

/-- Whether every read in a trace comes after a write to the same slot; `vs` and `ts` are the
vertex and triangle slots written before the trace starts. -/
def readsWritten : List Int → List Nat → List Access → Bool
  | _, _, [] => true
  | vs, ts, Access.writeVertex slot :: l => readsWritten (slot :: vs) ts l
  | vs, ts, Access.writeTriangle slot :: l => readsWritten vs (slot :: ts) l
  | vs, ts, Access.readVertex slot :: l => decide (slot ∈ vs) && readsWritten vs ts l
  | vs, ts, Access.readTriangle slot :: l => decide (slot ∈ ts) && readsWritten vs ts l

/-- The independent computation of a cap vertex that claim C16 describes, in the claim's words
(it is not a function of the source): the arithmetic midpoint `m` of `v0` and `v1`, re-projected
onto the circle of radius 0.5 about `centre`, `centre + 0.5 * (m - centre) / |m - centre|`. -/
def subdivideAboutCentre (sqrtf : F → F) (centre v0 v1 : sp__Vertex F) : sp__Vertex F :=
  let mx := (v0.x + v1.x) / 2
  let my := (v0.y + v1.y) / 2
  let dx := mx - centre.x
  let dy := my - centre.y
  let r := sqrtf (dx * dx + dy * dy)
  ⟨centre.x + 0.5 * dx / r, centre.y + 0.5 * dy / r⟩

/-- Whether an access lies inside the buffers that the caller allocates, `nv` vertices and `nt`
triangles. An access outside them has no defined behaviour in C. -/
def accessInBounds (nv nt : Nat) : Access → Bool
  | Access.readVertex slot => decide (0 ≤ slot ∧ slot < (nv : Int))
  | Access.writeVertex slot => decide (0 ≤ slot ∧ slot < (nv : Int))
  | Access.readTriangle slot => decide (slot < nt)
  | Access.writeTriangle slot => decide (slot < nt)

end Auxiliary

/-! ## Loops -/

theorem forLoop_zero {σ : Type} (body : Nat → σ → σ) (s : σ) : forLoop 0 body s = s := rfl

theorem forLoop_succ {σ : Type} (n : Nat) (body : Nat → σ → σ) (s : σ) :
    forLoop (n + 1) body s = body n (forLoop n body s) := rfl

/-- A nest `for t < n { for e < 2 { f t e } }` is one loop over `j = 2 * t + e`. -/
theorem forLoop_flatten {σ : Type} (f : Nat → Nat → σ → σ) (n : Nat) (s : σ) :
    forLoop n (fun t s1 => forLoop 2 (fun e s2 => f t e s2) s1) s
      = forLoop (2 * n) (fun j s1 => f (j / 2) (j % 2) s1) s := by
  induction n with
  | zero => rfl
  | succ k ih =>
    have hL : forLoop (k + 1) (fun t s1 => forLoop 2 (fun e s2 => f t e s2) s1) s
        = f k 1 (f k 0 (forLoop k (fun t s1 => forLoop 2 (fun e s2 => f t e s2) s1) s)) := rfl
    have hR : forLoop (2 * k + 1 + 1) (fun j s1 => f (j / 2) (j % 2) s1) s
        = f ((2 * k + 1) / 2) ((2 * k + 1) % 2) (f ((2 * k) / 2) ((2 * k) % 2)
            (forLoop (2 * k) (fun j s1 => f (j / 2) (j % 2) s1) s)) := rfl
    have h2 : 2 * (k + 1) = 2 * k + 1 + 1 := by ring
    have e1 : (2 * k + 1) / 2 = k := by omega
    have e2 : (2 * k + 1) % 2 = 1 := by omega
    have e3 : (2 * k) / 2 = k := by omega
    have e4 : (2 * k) % 2 = 0 := by omega
    rw [hL, h2, hR, ih, e1, e2, e3, e4]

/-- Invariant rule for `forLoop`. -/
theorem forLoop_invariant {σ : Type} (I : Nat → σ → Prop) (body : Nat → σ → σ) (n : Nat) (s : σ)
    (h0 : I 0 s) (hstep : ∀ i, i < n → ∀ s1, I i s1 → I (i + 1) (body i s1)) :
    I n (forLoop n body s) := by
  induction n with
  | zero => exact h0
  | succ k ih =>
    rw [forLoop_succ]
    exact hstep k (Nat.lt_succ_self k) _ (ih (fun i hi s1 h => hstep i (Nat.lt_succ_of_lt hi) s1 h))

/-! ## The shape of the buffers while the generator runs -/

section Shape

variable {F : Type} [Field F]

theorem pow_facts (c : Nat) :
    2 ^ (c + 2) = 2 * 2 ^ (c + 1) ∧ 2 ^ (c + 1) = 2 * 2 ^ c ∧ 1 ≤ 2 ^ c := by
  refine ⟨by ring, by ring, Nat.one_le_two_pow⟩

theorem idx_cases (t : sp__Triangle) (e : Nat) (he : e < 2) :
    (e = 0 ∧ t.i e = t.i0 ∧ t.i (e + 1) = t.i1) ∨ (e = 1 ∧ t.i e = t.i1 ∧ t.i (e + 1) = t.i2) := by
  interval_cases e
  · exact Or.inl ⟨rfl, rfl, rfl⟩
  · exact Or.inr ⟨rfl, rfl, rfl⟩

/-- One pass of an innermost loop body extends the written part by triangle slot `n` and
vertex slot `n + 2`. -/
theorem MemInv.step {sqrtf : F → F} {v0 : Int → sp__Vertex F} {t0 : Nat → sp__Triangle}
    {n : Nat} {V : Int → sp__Vertex F} {T : Nat → sp__Triangle}
    (h : MemInv sqrtf v0 t0 n V T) (hn : 4 ≤ n)
    (V' : Int → sp__Vertex F) (T' : Nat → sp__Triangle) (w : sp__Vertex F)
    (hV : ∀ j, V' j = if j = ((n + 2 : Nat) : Int) then w else V j)
    (hT : ∀ t, T' t
      = if t = n then ⟨(T (n / 2)).i (n % 2), n + 2, (T (n / 2)).i (n % 2 + 1)⟩ else T t)
    (hl : ∀ c q, q < 2 ^ (c + 1) → 2 ^ (c + 2) + q = n →
      w = sp__subdivide_chord sqrtf (V ((T (n / 2)).i (n % 2) : Nat))
        (V ((T (n / 2)).i (n % 2 + 1) : Nat)))
    (hr : ∀ c q, q < 2 ^ (c + 1) → 2 ^ (c + 2) + 2 ^ (c + 1) + q = n →
      w = mirror (V ((2 ^ (c + 2) + q + 2 : Nat) : Int))) :
    MemInv sqrtf v0 t0 (n + 1) V' T' := by
  have hVlt : ∀ i : Nat, i < n + 2 → V' (i : Int) = V (i : Int) := by
    intro i hi
    rw [hV, if_neg]
    omega
  have hTlt : ∀ t, t < n → T' t = T t := by
    intro t ht
    rw [hT, if_neg]
    omega
  have hTn : T' n = ⟨(T (n / 2)).i (n % 2), n + 2, (T (n / 2)).i (n % 2 + 1)⟩ := by
    rw [hT, if_pos rfl]
  have hp := h.bound (n / 2) (by omega) (by omega)
  have hab : (T (n / 2)).i (n % 2) < n + 2 ∧ (T (n / 2)).i (n % 2 + 1) < n + 2 := by
    rcases idx_cases (T (n / 2)) (n % 2) (by omega) with ⟨_, e1, e2⟩ | ⟨_, e1, e2⟩
    · rw [e1, e2]; omega
    · rw [e1, e2]; omega
  obtain ⟨c4, c5, c2, c3⟩ := h.caps hn
  refine ⟨?_, ?_, ?_, ?_, ?_, ?_, ?_, ?_, ?_, ?_, ?_, ?_, ?_⟩
  · have := hVlt 0 (by omega); simpa [h.v_0] using this
  · have := hVlt 1 (by omega); simpa [h.v_1] using this
  · have := hVlt 2 (by omega); simpa [h.v_2] using this
  · have := hVlt 3 (by omega); simpa [h.v_3] using this
  · rw [hTlt 0 (by omega), h.t_0]
  · rw [hTlt 1 (by omega), h.t_1]
  · intro _
    refine ⟨?_, ?_, ?_, ?_⟩
    · have := hVlt 4 (by omega); simpa [c4] using this
    · have := hVlt 5 (by omega); simpa [c5] using this
    · rw [hTlt 2 (by omega), c2]
    · rw [hTlt 3 (by omega), c3]
  · intro t ht4 htn
    rcases Nat.lt_or_ge t n with hlt | hge
    · rw [hTlt t hlt, hTlt (t / 2) (by omega)]
      exact h.tri t ht4 hlt
    · have : t = n := by omega
      subst this
      rw [hTn, hTlt (t / 2) (by omega)]
  · intro t ht2 htn
    rcases Nat.lt_or_ge t n with hlt | hge
    · rw [hTlt t hlt]
      exact h.bound t ht2 hlt
    · have : t = n := by omega
      subst this
      rw [hTn]
      exact ⟨hab.1, rfl, hab.2⟩
  · intro c q hq htn
    rcases Nat.lt_or_ge (2 ^ (c + 2) + q) n with hlt | hge
    · have hb := h.bound _ (by have := pow_facts c; omega) hlt
      rw [hVlt _ (by omega), hTlt _ hlt, hVlt _ (by omega), hVlt _ (by omega)]
      exact h.left c q hq hlt
    · have hEq : 2 ^ (c + 2) + q = n := by omega
      rw [hEq, hTn, hVlt _ hab.1, hVlt _ hab.2]
      rw [hV, if_pos rfl]
      exact hl c q hq hEq
  · intro c q hq htn
    rcases Nat.lt_or_ge (2 ^ (c + 2) + 2 ^ (c + 1) + q) n with hlt | hge
    · rw [hVlt _ (by omega), hVlt _ (by omega)]
      exact h.right c q hq hlt
    · have hEq : 2 ^ (c + 2) + 2 ^ (c + 1) + q = n := by omega
      rw [hVlt (2 ^ (c + 2) + q + 2) (by have := pow_facts c; omega)]
      rw [hEq, hV, if_pos rfl]
      exact hr c q hq hEq
  · intro j hj
    rw [hV, if_neg (by push_cast; omega)]
    exact h.frameV j (by omega)
  · intro t ht
    rw [hT, if_neg (by omega)]
    exact h.frameT t (by omega)

theorem vertexWrites_append (l1 l2 : List Access) :
    vertexWrites (l1 ++ l2) = vertexWrites l1 ++ vertexWrites l2 := by
  induction l1 with
  | nil => rfl
  | cons a l ih => cases a <;> simp [vertexWrites, ih]

theorem triangleWrites_append (l1 l2 : List Access) :
    triangleWrites (l1 ++ l2) = triangleWrites l1 ++ triangleWrites l2 := by
  induction l1 with
  | nil => rfl
  | cons a l ih => cases a <;> simp [triangleWrites, ih]

/-- Two slots of the bands `[2 ^ (c + 2), 2 ^ (c + 3))` coincide only within one band. -/
theorem band_unique (c c' r r' : Nat) (h : 2 ^ (c + 2) + r = 2 ^ (c' + 2) + r')
    (hr : r < 2 ^ (c + 2)) (hr' : r' < 2 ^ (c' + 2)) : c = c' ∧ r = r' := by
  have key : c = c' := by
    rcases Nat.lt_trichotomy c c' with hlt | heq | hgt
    · have h1 : 2 ^ (c + 3) ≤ 2 ^ (c' + 2) := Nat.pow_le_pow_right (by norm_num) (by omega)
      have h2 : 2 ^ (c + 3) = 2 * 2 ^ (c + 2) := by ring
      omega
    · exact heq
    · have h1 : 2 ^ (c' + 3) ≤ 2 ^ (c + 2) := Nat.pow_le_pow_right (by norm_num) (by omega)
      have h2 : 2 ^ (c' + 3) = 2 * 2 ^ (c' + 2) := by ring
      omega
  subst key
  exact ⟨rfl, by omega⟩

theorem leftStep_inv {sqrtf : F → F} {v0 : Int → sp__Vertex F} {t0 : Nat → sp__Triangle}
    (c j : Nat) (s : State F) (hj : j < 2 ^ (c + 1))
    (hL : Locals c s) (hI : RunInv sqrtf v0 t0 (2 ^ (c + 2) + j) s) :
    Locals c (leftStep sqrtf (j / 2) (j % 2) s)
      ∧ RunInv sqrtf v0 t0 (2 ^ (c + 2) + j + 1) (leftStep sqrtf (j / 2) (j % 2) s) := by
  obtain ⟨p1, p2, p3⟩ := pow_facts c
  have p4 : 2 ^ (c + 2) = 2 * 2 ^ (c + 1) := by ring
  have e1 : 2 ^ (c + 1) + j / 2 = (2 ^ (c + 2) + j) / 2 := by omega
  have e2 : j % 2 = (2 ^ (c + 2) + j) % 2 := by omega
  have e3 : 2 ^ (c + 2) + (j / 2 * 2 + j % 2) = 2 ^ (c + 2) + j := by omega
  have e4 : 2 ^ (c + 2) + (j / 2 * 2 + (2 ^ (c + 2) + j) % 2) = 2 ^ (c + 2) + j := by omega
  refine ⟨⟨hL.sub, hL.tc, hL.prev, hL.next, hL.nti⟩, ?_, ?_, ?_, ?_⟩
  · show (s.next_vertex_index + 1) % 2 ^ 16 = _
    rw [hI.nvi]
    omega
  · simp only [leftStep, Buffers.writeVertex, Buffers.writeTriangle, Buffers.note,
      vertexWrites_append, hI.vw, vertexWrites, List.append_nil, List.nil_append]
    have e5 : 2 ^ (c + 2) + j + 1 + 2 = (2 ^ (c + 2) + j + 2) + 1 := by omega
    conv_rhs => rw [e5, List.range_succ, List.map_append]
    rw [hI.nvi]
    rfl
  · simp only [leftStep, Buffers.writeVertex, Buffers.writeTriangle, Buffers.note,
      triangleWrites_append, hI.tw, triangleWrites, List.append_nil, List.nil_append,
      hL.next, e3]
    rw [List.range_succ]
  · intro hb
    have hm := hI.mem (by omega)
    have hnvi : s.next_vertex_index = 2 ^ (c + 2) + j + 2 := by
      rw [hI.nvi]; omega
    refine hm.step (by omega) _ _
      (sp__subdivide_chord sqrtf
        (s.mem.vertices ((s.mem.triangles ((2 ^ (c + 2) + j) / 2)).i ((2 ^ (c + 2) + j) % 2) : Nat))
        (s.mem.vertices ((s.mem.triangles ((2 ^ (c + 2) + j) / 2)).i
          ((2 ^ (c + 2) + j) % 2 + 1) : Nat))) ?_ ?_ ?_ ?_
    · intro i
      simp only [leftStep, Buffers.writeVertex, Buffers.writeTriangle, Buffers.note,
        hL.prev, hL.next, hnvi, e1, e2, Nat.add_zero]
    · intro t
      simp only [leftStep, Buffers.writeVertex, Buffers.writeTriangle, Buffers.note,
        hL.prev, hL.next, hnvi, e1, e2, e4, Nat.add_zero]
    · intro _ _ _ _
      rfl
    · intro c' q' hq' hEq
      exfalso
      have := band_unique c' c (2 ^ (c' + 1) + q') (j)
        (by omega) (by have := pow_facts c'; have : 2 ^ (c' + 2) = 2 * 2 ^ (c' + 1) := by ring
                       omega) (by omega)
      obtain ⟨rfl, h2⟩ := this
      omega

theorem rightStep_inv {sqrtf : F → F} {v0 : Int → sp__Vertex F} {t0 : Nat → sp__Triangle}
    (c j : Nat) (s : State F) (hj : j < 2 ^ (c + 1))
    (hL : Locals c s) (hI : RunInv sqrtf v0 t0 (2 ^ (c + 2) + 2 ^ (c + 1) + j) s) :
    Locals c (rightStep (j / 2) (j % 2) s)
      ∧ RunInv sqrtf v0 t0 (2 ^ (c + 2) + 2 ^ (c + 1) + j + 1) (rightStep (j / 2) (j % 2) s) := by
  obtain ⟨p1, p2, p3⟩ := pow_facts c
  have p4 : 2 ^ (c + 2) = 2 * 2 ^ (c + 1) := by ring
  have e1 : 2 ^ (c + 1) + (2 ^ c + j / 2) = (2 ^ (c + 2) + 2 ^ (c + 1) + j) / 2 := by omega
  have e2 : j % 2 = (2 ^ (c + 2) + 2 ^ (c + 1) + j) % 2 := by omega
  have e3 : 2 ^ (c + 2) + ((2 ^ c + j / 2) * 2 + j % 2) = 2 ^ (c + 2) + 2 ^ (c + 1) + j := by
    omega
  have e4 : 2 ^ (c + 2) + ((2 ^ c + j / 2) * 2 + (2 ^ (c + 2) + 2 ^ (c + 1) + j) % 2)
      = 2 ^ (c + 2) + 2 ^ (c + 1) + j := by omega
  refine ⟨⟨hL.sub, hL.tc, hL.prev, hL.next, hL.nti⟩, ?_, ?_, ?_, ?_⟩
  · show (s.next_vertex_index + 1) % 2 ^ 16 = _
    rw [hI.nvi]
    omega
  · simp only [rightStep, Buffers.writeVertex, Buffers.writeTriangle, Buffers.note,
      vertexWrites_append, hI.vw, vertexWrites, List.append_nil, List.nil_append]
    have e5 : 2 ^ (c + 2) + 2 ^ (c + 1) + j + 1 + 2 = (2 ^ (c + 2) + 2 ^ (c + 1) + j + 2) + 1 := by
      omega
    conv_rhs => rw [e5, List.range_succ, List.map_append]
    rw [hI.nvi]
    rfl
  · simp only [rightStep, Buffers.writeVertex, Buffers.writeTriangle, Buffers.note,
      triangleWrites_append, hI.tw, triangleWrites, List.append_nil, List.nil_append,
      hL.next, hL.tc, e3]
    rw [List.range_succ]
  · intro hb
    have hm := hI.mem (by omega)
    have hnvi : s.next_vertex_index = 2 ^ (c + 2) + 2 ^ (c + 1) + j + 2 := by
      rw [hI.nvi]; omega
    have hsrc : ((2 ^ (c + 2) + 2 ^ (c + 1) + j + 2 : Nat) : Int) - ((2 ^ c : Nat) : Int) * 2
        = ((2 ^ (c + 2) + j + 2 : Nat) : Int) := by
      push_cast
      ring
    refine hm.step (by omega) _ _
      (mirror (s.mem.vertices ((2 ^ (c + 2) + j + 2 : Nat) : Int))) ?_ ?_ ?_ ?_
    · intro i
      simp only [rightStep, Buffers.writeVertex, Buffers.writeTriangle, Buffers.note,
        hL.prev, hL.next, hL.tc, hnvi, hsrc, mirror]
    · intro t
      simp only [rightStep, Buffers.writeVertex, Buffers.writeTriangle, Buffers.note,
        hL.prev, hL.next, hL.tc, hnvi, e1, e2, e4, Nat.add_zero]
    · intro c' q' hq' hEq
      exfalso
      have := band_unique c' c (q') (2 ^ (c + 1) + j)
        (by omega) (by have := pow_facts c'; have : 2 ^ (c' + 2) = 2 * 2 ^ (c' + 1) := by ring
                       omega) (by omega)
      obtain ⟨rfl, h2⟩ := this
      omega
    · intro c' q' hq' hEq
      have := band_unique c' c (2 ^ (c' + 1) + q') (2 ^ (c + 1) + j)
        (by omega) (by have := pow_facts c'; have : 2 ^ (c' + 2) = 2 * 2 ^ (c' + 1) := by ring
                       omega) (by omega)
      obtain ⟨rfl, h2⟩ := this
      have : q' = j := by omega
      rw [this]

/-- The left loop nest, stopped after `j` passes of its innermost body. -/
theorem leftLoop_inv {sqrtf : F → F} {v0 : Int → sp__Vertex F} {t0 : Nat → sp__Triangle}
    (c : Nat) (s : State F) (hL : Locals c s) (hI : RunInv sqrtf v0 t0 (2 ^ (c + 2)) s)
    (j : Nat) (hj : j ≤ 2 ^ (c + 1)) :
    Locals c (forLoop j (fun i s1 => leftStep sqrtf (i / 2) (i % 2) s1) s)
      ∧ RunInv sqrtf v0 t0 (2 ^ (c + 2) + j)
          (forLoop j (fun i s1 => leftStep sqrtf (i / 2) (i % 2) s1) s) := by
  refine forLoop_invariant
    (fun i s1 => Locals c s1 ∧ RunInv sqrtf v0 t0 (2 ^ (c + 2) + i) s1) _ j s ⟨hL, hI⟩ ?_
  intro i hi s1 h1
  exact leftStep_inv c i s1 (by omega) h1.1 h1.2

/-- The right loop nest, stopped after `j` passes of its innermost body. -/
theorem rightLoop_inv {sqrtf : F → F} {v0 : Int → sp__Vertex F} {t0 : Nat → sp__Triangle}
    (c : Nat) (s : State F) (hL : Locals c s)
    (hI : RunInv sqrtf v0 t0 (2 ^ (c + 2) + 2 ^ (c + 1)) s)
    (j : Nat) (hj : j ≤ 2 ^ (c + 1)) :
    Locals c (forLoop j (fun i s1 => rightStep (i / 2) (i % 2) s1) s)
      ∧ RunInv sqrtf v0 t0 (2 ^ (c + 2) + 2 ^ (c + 1) + j)
          (forLoop j (fun i s1 => rightStep (i / 2) (i % 2) s1) s) := by
  refine forLoop_invariant
    (fun i s1 => Locals c s1 ∧ RunInv sqrtf v0 t0 (2 ^ (c + 2) + 2 ^ (c + 1) + i) s1) _ j s
    ⟨hL, hI⟩ ?_
  intro i hi s1 h1
  exact rightStep_inv c i s1 (by omega) h1.1 h1.2

theorem leftLoop_eq (sqrtf : F → F) (c : Nat) (s : State F) (hL : Locals c s) :
    leftLoop sqrtf s
      = forLoop (2 ^ (c + 1)) (fun i s1 => leftStep sqrtf (i / 2) (i % 2) s1) s := by
  unfold leftLoop
  rw [forLoop_flatten (fun t e s2 => leftStep sqrtf t e s2), hL.tc]
  have : 2 * 2 ^ c = 2 ^ (c + 1) := by ring
  rw [this]

theorem rightLoop_eq (c : Nat) (s : State F) (hL : Locals c s) :
    rightLoop s = forLoop (2 ^ (c + 1)) (fun i s1 => rightStep (i / 2) (i % 2) s1) s := by
  unfold rightLoop
  rw [forLoop_flatten (fun t e s2 => rightStep t e s2), hL.tc]
  have : 2 * 2 ^ c = 2 ^ (c + 1) := by ring
  rw [this]

/-- One subdivision round (lines 117-147). -/
theorem round_inv {sqrtf : F → F} {v0 : Int → sp__Vertex F} {t0 : Nat → sp__Triangle}
    (c : Nat) (s : State F) (hL : Locals c s) (hI : RunInv sqrtf v0 t0 (2 ^ (c + 2)) s) :
    Locals c (rightLoop (leftLoop sqrtf s))
      ∧ RunInv sqrtf v0 t0 (2 ^ (c + 3)) (rightLoop (leftLoop sqrtf s)) := by
  have h1 := leftLoop_inv c s hL hI (2 ^ (c + 1)) le_rfl
  rw [← leftLoop_eq sqrtf c s hL] at h1
  have h2 := rightLoop_inv c _ h1.1 h1.2 (2 ^ (c + 1)) le_rfl
  rw [← rightLoop_eq c _ h1.1] at h2
  have e : 2 ^ (c + 2) + 2 ^ (c + 1) + 2 ^ (c + 1) = 2 ^ (c + 3) := by ring
  rw [e] at h2
  exact h2

theorem advance_inv {sqrtf : F → F} {v0 : Int → sp__Vertex F} {t0 : Nat → sp__Triangle}
    (c : Nat) (s : State F) (hL : Locals c s) (hI : RunInv sqrtf v0 t0 (2 ^ (c + 3)) s) :
    Locals (c + 1) (advance s) ∧ RunInv sqrtf v0 t0 (2 ^ (c + 1 + 2)) (advance s) := by
  refine ⟨⟨?_, ?_, ?_, ?_, ?_⟩, ⟨hI.nvi, hI.vw, hI.tw, hI.mem⟩⟩
  · show s.subdivision + 1 = _
    rw [hL.sub]
  · show s.triangle_count * 2 = _
    rw [hL.tc]; ring
  · show s.next_triangles = _
    rw [hL.next]
  · show s.next_triangle_index * 2 = _
    rw [hL.nti]; ring
  · show s.next_triangle_index * 2 = _
    rw [hL.nti]; ring

/-- The subdivision loop returns: started in round `c + 1` with enough fuel, it reaches the
round `_subdivision_count - 1`, runs it, and leaves. -/
theorem subdivisionLoop_spec {sqrtf : F → F} {v0 : Int → sp__Vertex F} {t0 : Nat → sp__Triangle}
    (L : Nat) : ∀ (fuel c : Nat) (s : State F), Locals c s → RunInv sqrtf v0 t0 (2 ^ (c + 2)) s →
      c + 2 ≤ L → L ≤ fuel + (c + 1) →
      ∃ sLast, Locals (L - 2) sLast ∧ RunInv sqrtf v0 t0 (2 ^ L) sLast
        ∧ subdivisionLoop sqrtf L fuel s = some (rightLoop (leftLoop sqrtf sLast)) := by
  intro fuel
  induction fuel with
  | zero =>
    intro c s _ _ h1 h2
    omega
  | succ f ih =>
    intro c s hL hI h1 h2
    have hr := round_inv c s hL hI
    by_cases hc : c + 2 = L
    · refine ⟨s, ?_, ?_, ?_⟩
      · have : L - 2 = c := by omega
        rw [this]; exact hL
      · rw [← hc]; exact hI
      · unfold subdivisionLoop
        simp only [hr.1.sub]
        rw [if_pos hc]
    · have ha := advance_inv c _ hr.1 hr.2
      obtain ⟨sLast, g1, g2, g3⟩ := ih (c + 1) _ ha.1 ha.2 (by omega) (by omega)
      refine ⟨sLast, g1, g2, ?_⟩
      rw [← g3]
      conv_lhs => unfold subdivisionLoop
      simp only [hr.1.sub]
      rw [if_neg hc]

theorem sp__create_geometry_zero (sqrtf : F → F) (fuel : Nat) (v0 : Int → sp__Vertex F)
    (t0 : Nat → sp__Triangle) :
    sp__create_geometry sqrtf fuel 0 v0 t0 = some (quadBuffers v0 t0) := rfl

theorem sp__create_geometry_one (sqrtf : F → F) (fuel : Nat) (v0 : Int → sp__Vertex F)
    (t0 : Nat → sp__Triangle) :
    sp__create_geometry sqrtf fuel 1 v0 t0 = some (capBuffers v0 t0) := rfl

theorem sp__create_geometry_loop (sqrtf : F → F) (fuel L : Nat) (hL : 2 ≤ L)
    (v0 : Int → sp__Vertex F) (t0 : Nat → sp__Triangle) :
    sp__create_geometry sqrtf fuel L v0 t0
      = (subdivisionLoop sqrtf L fuel (loopEntry v0 t0)).map State.mem := by
  unfold sp__create_geometry
  simp only
  rw [if_neg (by omega), if_neg (by omega)]
  rfl

theorem quadBuffers_inv (sqrtf : F → F) (v0 : Int → sp__Vertex F) (t0 : Nat → sp__Triangle) :
    MemInv sqrtf v0 t0 2 (quadBuffers v0 t0).vertices (quadBuffers v0 t0).triangles := by
  refine ⟨?_, ?_, ?_, ?_, ?_, ?_, ?_, ?_, ?_, ?_, ?_, ?_, ?_⟩
  · simp [quadBuffers, Buffers.writeVertex, Buffers.writeTriangle]
  · simp [quadBuffers, Buffers.writeVertex, Buffers.writeTriangle]
  · simp [quadBuffers, Buffers.writeVertex, Buffers.writeTriangle]
  · simp [quadBuffers, Buffers.writeVertex, Buffers.writeTriangle]
  · simp [quadBuffers, Buffers.writeVertex, Buffers.writeTriangle]
  · simp [quadBuffers, Buffers.writeVertex, Buffers.writeTriangle]
  · intro h; omega
  · intro t h1 h2; omega
  · intro t h1 h2; omega
  · intro c q _ h; have := pow_facts c; omega
  · intro c q _ h; have := pow_facts c; omega
  · intro j hj
    simp only [quadBuffers, Buffers.writeVertex, Buffers.writeTriangle]
    rw [if_neg (by omega), if_neg (by omega), if_neg (by omega), if_neg (by omega)]
  · intro t ht
    simp only [quadBuffers, Buffers.writeVertex, Buffers.writeTriangle]
    rw [if_neg (by omega), if_neg (by omega)]

theorem capBuffers_inv (sqrtf : F → F) (v0 : Int → sp__Vertex F) (t0 : Nat → sp__Triangle) :
    MemInv sqrtf v0 t0 4 (capBuffers v0 t0).vertices (capBuffers v0 t0).triangles := by
  refine ⟨?_, ?_, ?_, ?_, ?_, ?_, ?_, ?_, ?_, ?_, ?_, ?_, ?_⟩
  · simp [capBuffers, quadBuffers, Buffers.writeVertex, Buffers.writeTriangle]
  · simp [capBuffers, quadBuffers, Buffers.writeVertex, Buffers.writeTriangle]
  · simp [capBuffers, quadBuffers, Buffers.writeVertex, Buffers.writeTriangle]
  · simp [capBuffers, quadBuffers, Buffers.writeVertex, Buffers.writeTriangle]
  · simp [capBuffers, quadBuffers, Buffers.writeVertex, Buffers.writeTriangle]
  · simp [capBuffers, quadBuffers, Buffers.writeVertex, Buffers.writeTriangle]
  · intro _
    simp [capBuffers, quadBuffers, Buffers.writeVertex, Buffers.writeTriangle]
  · intro t h1 h2; omega
  · intro t h1 h2
    have : t = 2 ∨ t = 3 := by omega
    rcases this with rfl | rfl <;>
      simp [capBuffers, quadBuffers, Buffers.writeVertex, Buffers.writeTriangle]
  · intro c q _ h; have := pow_facts c; omega
  · intro c q _ h; have := pow_facts c; omega
  · intro j hj
    simp only [capBuffers, quadBuffers, Buffers.writeVertex, Buffers.writeTriangle]
    rw [if_neg (by omega), if_neg (by omega), if_neg (by omega), if_neg (by omega),
      if_neg (by omega), if_neg (by omega)]
  · intro t ht
    simp only [capBuffers, quadBuffers, Buffers.writeVertex, Buffers.writeTriangle]
    rw [if_neg (by omega), if_neg (by omega), if_neg (by omega), if_neg (by omega)]

theorem loopEntry_inv (sqrtf : F → F) (v0 : Int → sp__Vertex F) (t0 : Nat → sp__Triangle) :
    Locals 0 (loopEntry v0 t0) ∧ RunInv sqrtf v0 t0 (2 ^ (0 + 2)) (loopEntry v0 t0) := by
  refine ⟨⟨rfl, rfl, rfl, rfl, rfl⟩, ⟨rfl, ?_, ?_, fun _ => capBuffers_inv sqrtf v0 t0⟩⟩
  · simp [loopEntry, capBuffers, quadBuffers, Buffers.writeVertex, Buffers.writeTriangle,
      vertexWrites, List.range_succ]
  · simp [loopEntry, capBuffers, quadBuffers, Buffers.writeVertex, Buffers.writeTriangle,
      triangleWrites, List.range_succ]

/-- For a level of at least 2 the generator returns, with enough fuel: it reaches the last
round in a state `sLast` and returns the buffers that this round leaves. -/
theorem sp__create_geometry_last (sqrtf : F → F) (fuel L : Nat) (hL : 2 ≤ L)
    (hfuel : L ≤ fuel + 1) (v0 : Int → sp__Vertex F) (t0 : Nat → sp__Triangle) :
    ∃ sLast, Locals (L - 2) sLast ∧ RunInv sqrtf v0 t0 (2 ^ L) sLast
      ∧ sp__create_geometry sqrtf fuel L v0 t0 = some (rightLoop (leftLoop sqrtf sLast)).mem := by
  obtain ⟨h1, h2⟩ := loopEntry_inv sqrtf v0 t0
  obtain ⟨sLast, g1, g2, g3⟩ :=
    subdivisionLoop_spec L fuel 0 (loopEntry v0 t0) h1 h2 (by omega) (by omega)
  refine ⟨sLast, g1, g2, ?_⟩
  rw [sp__create_geometry_loop sqrtf fuel L hL, g3]
  rfl

/-- The generator returns for every level, with enough fuel; the slots it has written are the
images of `0, 1, 2, ...` under the 16-bit counter, and as long as `sp_get_vertex_count` does not
exceed `2 ^ 16` the buffers have the shape `MemInv`. -/
theorem sp__create_geometry_spec (sqrtf : F → F) (fuel L : Nat) (hfuel : L ≤ fuel + 1)
    (v0 : Int → sp__Vertex F) (t0 : Nat → sp__Triangle) :
    ∃ m, sp__create_geometry sqrtf fuel L v0 t0 = some m
      ∧ vertexWrites m.trace
          = (List.range (sp_get_vertex_count L)).map (fun i => ((i % 2 ^ 16 : Nat) : Int))
      ∧ triangleWrites m.trace = List.range (sp_get_triangle_count L)
      ∧ (sp_get_vertex_count L ≤ 2 ^ 16 →
          MemInv sqrtf v0 t0 (sp_get_triangle_count L) m.vertices m.triangles) := by
  rcases Nat.lt_or_ge L 2 with hlt | hge
  · have : L = 0 ∨ L = 1 := by omega
    rcases this with rfl | rfl
    · refine ⟨_, sp__create_geometry_zero sqrtf fuel v0 t0, ?_, ?_, fun _ => ?_⟩
      · simp [quadBuffers, Buffers.writeVertex, Buffers.writeTriangle, vertexWrites,
          sp_get_vertex_count, List.range_succ]
      · simp [quadBuffers, Buffers.writeVertex, Buffers.writeTriangle, triangleWrites,
          sp_get_triangle_count, List.range_succ]
      · exact quadBuffers_inv sqrtf v0 t0
    · refine ⟨_, sp__create_geometry_one sqrtf fuel v0 t0, ?_, ?_, fun _ => ?_⟩
      · simp [capBuffers, quadBuffers, Buffers.writeVertex, Buffers.writeTriangle, vertexWrites,
          sp_get_vertex_count, List.range_succ]
      · simp [capBuffers, quadBuffers, Buffers.writeVertex, Buffers.writeTriangle,
          triangleWrites, sp_get_triangle_count, List.range_succ]
      · exact capBuffers_inv sqrtf v0 t0
  · obtain ⟨sLast, g1, g2, g3⟩ := sp__create_geometry_last sqrtf fuel L hge hfuel v0 t0
    have hc : L - 2 + 2 = L := by omega
    rw [← hc] at g2
    have hr := (round_inv (L - 2) sLast g1 g2).2
    have e1 : 2 ^ (L - 2 + 3) = sp_get_triangle_count L := by
      unfold sp_get_triangle_count
      congr 1
      omega
    have e2 : sp_get_triangle_count L + 2 = sp_get_vertex_count L := by
      unfold sp_get_triangle_count sp_get_vertex_count
      ring
    rw [e1] at hr
    refine ⟨_, g3, ?_, hr.tw, fun hb => hr.mem (by omega)⟩
    rw [hr.vw, e2]

theorem count_range (n t : Nat) : (List.range n).count t = if t < n then 1 else 0 := by
  by_cases h : t < n
  · rw [if_pos h]
    exact List.count_eq_one_of_mem (List.nodup_range n) (List.mem_range.2 h)
  · rw [if_neg h]
    exact List.count_eq_zero_of_not_mem (fun hm => h (List.mem_range.1 hm))

theorem count_range_cast (n : Nat) (i : Int) :
    ((List.range n).map (fun k : Nat => (k : Int))).count i
      = if 0 ≤ i ∧ i < (n : Int) then 1 else 0 := by
  by_cases h : 0 ≤ i ∧ i < (n : Int)
  · rw [if_pos h]
    refine List.count_eq_one_of_mem ((List.nodup_range n).map Nat.cast_injective) ?_
    refine List.mem_map.2 ⟨i.toNat, List.mem_range.2 (by omega), by omega⟩
  · rw [if_neg h]
    refine List.count_eq_zero_of_not_mem (fun hm => h ?_)
    obtain ⟨k, hk, rfl⟩ := List.mem_map.1 hm
    have := List.mem_range.1 hk
    omega

theorem map_mod_range (n : Nat) (hn : n ≤ 2 ^ 16) :
    (List.range n).map (fun i => ((i % 2 ^ 16 : Nat) : Int))
      = (List.range n).map (fun k : Nat => (k : Int)) := by
  refine List.map_congr_left (fun i hi => ?_)
  have := List.mem_range.1 hi
  have : i % 2 ^ 16 = i := Nat.mod_eq_of_lt (by omega)
  rw [this]

theorem rightStep_vertices (triangle edge : Nat) (s : State F) (j : Int) :
    (rightStep triangle edge s).mem.vertices j
      = if j = (s.next_vertex_index : Int)
        then mirror (s.mem.vertices ((s.next_vertex_index : Int) - (s.triangle_count : Int) * 2))
        else s.mem.vertices j := rfl

theorem rightStep_triangles (triangle edge : Nat) (s : State F) (t : Nat) :
    (rightStep triangle edge s).mem.triangles t
      = if t = s.next_triangles + ((s.triangle_count + triangle) * 2 + edge)
        then ⟨(s.mem.triangles (s.prev_triangles + (s.triangle_count + triangle))).i (edge + 0),
          s.next_vertex_index,
          (s.mem.triangles (s.prev_triangles + (s.triangle_count + triangle))).i (edge + 1)⟩
        else s.mem.triangles t := rfl

theorem rightStep_next_vertex_index (triangle edge : Nat) (s : State F) :
    (rightStep triangle edge s).next_vertex_index = (s.next_vertex_index + 1) % 2 ^ 16 := rfl

theorem rightStep_triangle_count (triangle edge : Nat) (s : State F) :
    (rightStep triangle edge s).triangle_count = s.triangle_count := rfl

theorem rightStep_next_triangles (triangle edge : Nat) (s : State F) :
    (rightStep triangle edge s).next_triangles = s.next_triangles := rfl

theorem rightLoop_last_two (c : Nat) (s : State F) (hL : Locals c s) (n : Nat)
    (hn : 2 ^ (c + 1) = 2 * n + 1 + 1) :
    rightLoop s = rightStep n 1 (rightStep n 0
      (forLoop (2 * n) (fun i s1 => rightStep (i / 2) (i % 2) s1) s)) := by
  have e1 : (2 * n + 1) / 2 = n := by omega
  have e2 : (2 * n + 1) % 2 = 1 := by omega
  have e3 : 2 * n / 2 = n := by omega
  have e4 : 2 * n % 2 = 0 := by omega
  rw [rightLoop_eq c s hL, hn, forLoop_succ, forLoop_succ, e1, e2, e3, e4]

/-- Level 15: the 16-bit counter wraps before the last two vertices are written. They land in
the slots 0 and 1, and the reflected source index `next_vertex_index - triangle_count * 2` is
negative. -/
theorem sp__create_geometry_fifteen (sqrtf : F → F) (fuel : Nat) (hfuel : 14 ≤ fuel)
    (v0 : Int → sp__Vertex F) (t0 : Nat → sp__Triangle) :
    ∃ m, sp__create_geometry sqrtf fuel 15 v0 t0 = some m
      ∧ m.vertices 0 = mirror (v0 (-16384)) ∧ m.vertices 1 = mirror (v0 (-16383))
      ∧ m.vertices 2 = ⟨1.0, 0.5⟩ ∧ m.triangles 0 = ⟨0, 1, 2⟩ := by
  obtain ⟨sLast, g1, g2, g3⟩ :=
    sp__create_geometry_last sqrtf fuel 15 (by omega) (by omega) v0 t0
  have g1' : Locals 13 sLast := g1
  have g2' : RunInv sqrtf v0 t0 (2 ^ (13 + 2)) sLast := g2
  have h1 := leftLoop_inv 13 sLast g1' g2' (2 ^ (13 + 1)) le_rfl
  rw [← leftLoop_eq sqrtf 13 sLast g1'] at h1
  have h2 := rightLoop_inv 13 _ h1.1 h1.2 (2 * 8191) (by norm_num)
  have hsplit := rightLoop_last_two 13 _ h1.1 8191 (by norm_num)
  refine ⟨_, g3, ?_⟩
  rw [hsplit]
  generalize forLoop (2 * 8191) (fun i s1 => rightStep (i / 2) (i % 2) s1) (leftLoop sqrtf sLast)
    = s2 at h2
  obtain ⟨hl, hr⟩ := h2
  have hn : (2 : Nat) ^ (13 + 2) + 2 ^ (13 + 1) + 2 * 8191 = 65534 := by norm_num
  rw [hn] at hr
  have hm := hr.mem (by norm_num)
  have hnvi : s2.next_vertex_index = 0 := by rw [hr.nvi]; norm_num
  have htc : s2.triangle_count = 8192 := by rw [hl.tc]; norm_num
  have hnext : s2.next_triangles = 32768 := by rw [hl.next]; norm_num
  have f1 := hm.frameV (-16384) (by omega)
  have f2 := hm.frameV (-16383) (by omega)
  have hnvi1 : (rightStep 8191 0 s2).next_vertex_index = 1 := by
    rw [rightStep_next_vertex_index, hnvi]; norm_num
  refine ⟨?_, ?_, ?_, ?_⟩
  · rw [rightStep_vertices, hnvi1, if_neg (by norm_num), rightStep_vertices, hnvi,
      if_pos (by norm_num), htc]
    have hsrc : (((0 : Nat) : Int)) - ((8192 : Nat) : Int) * 2 = -16384 := by norm_num
    rw [hsrc, f1]
  · rw [rightStep_vertices, hnvi1, if_pos (by norm_num), rightStep_triangle_count,
      rightStep_vertices, hnvi, htc, if_neg (by norm_num)]
    have hsrc : (((1 : Nat) : Int)) - ((8192 : Nat) : Int) * 2 = -16383 := by norm_num
    rw [hsrc, f2]
  · rw [rightStep_vertices, hnvi1, if_neg (by norm_num), rightStep_vertices, hnvi,
      if_neg (by norm_num)]
    exact hm.v_2
  · rw [rightStep_triangles, rightStep_next_triangles, rightStep_triangle_count, hnext, htc,
      if_neg (by norm_num), rightStep_triangles, hnext, htc, if_neg (by norm_num)]
    exact hm.t_0

/-- Every triangle slot from 4 on lies in exactly one band `[2 ^ (c + 2), 2 ^ (c + 3))`. -/
theorem band_exists (t : Nat) (ht : 4 ≤ t) : ∃ c r, r < 2 ^ (c + 2) ∧ t = 2 ^ (c + 2) + r := by
  induction t using Nat.strong_induction_on with
  | _ t ih =>
    rcases Nat.lt_or_ge t 8 with h8 | h8
    · exact ⟨0, t - 4, by norm_num; omega, by norm_num; omega⟩
    · obtain ⟨c, r, hr, he⟩ := ih (t / 2) (by omega) (by omega)
      refine ⟨c + 1, 2 * r + t % 2, ?_, ?_⟩
      · have : 2 ^ (c + 1 + 2) = 2 * 2 ^ (c + 2) := by ring
        omega
      · have : 2 ^ (c + 1 + 2) = 2 * 2 ^ (c + 2) := by ring
        omega

/-- The written part of the buffers is determined by the recurrences alone: two runs agree on
every slot that both have written, whatever the buffers held before. -/
theorem MemInv.agree {sqrtf : F → F} {v0 v0' : Int → sp__Vertex F} {t0 t0' : Nat → sp__Triangle}
    {n n' : Nat} {V V' : Int → sp__Vertex F} {T T' : Nat → sp__Triangle}
    (h : MemInv sqrtf v0 t0 n V T) (h' : MemInv sqrtf v0' t0' n' V' T')
    (hnn : n ≤ n') (hn : n = 2 ∨ 4 ≤ n) :
    ∀ t, t < n → T t = T' t ∧ V ((t + 2 : Nat) : Int) = V' ((t + 2 : Nat) : Int) := by
  intro t
  induction t using Nat.strong_induction_on with
  | _ t ih =>
    intro htn
    have hV : ∀ a : Nat, a < t + 2 → V (a : Int) = V' (a : Int) := by
      intro a ha
      rcases Nat.lt_or_ge a 2 with h2 | h2
      · have : a = 0 ∨ a = 1 := by omega
        rcases this with rfl | rfl
        · simpa using h.v_0.trans h'.v_0.symm
        · simpa using h.v_1.trans h'.v_1.symm
      · have := (ih (a - 2) (by omega) (by omega)).2
        have e : a - 2 + 2 = a := by omega
        rwa [e] at this
    rcases Nat.lt_or_ge t 4 with h4 | h4
    · have : t = 0 ∨ t = 1 ∨ t = 2 ∨ t = 3 := by omega
      rcases this with rfl | rfl | rfl | rfl
      · exact ⟨h.t_0.trans h'.t_0.symm, by simpa using h.v_2.trans h'.v_2.symm⟩
      · exact ⟨h.t_1.trans h'.t_1.symm, by simpa using h.v_3.trans h'.v_3.symm⟩
      · obtain ⟨a1, a2, a3, a4⟩ := h.caps (by omega)
        obtain ⟨b1, b2, b3, b4⟩ := h'.caps (by omega)
        exact ⟨a3.trans b3.symm, by simpa using a1.trans b1.symm⟩
      · obtain ⟨a1, a2, a3, a4⟩ := h.caps (by omega)
        obtain ⟨b1, b2, b3, b4⟩ := h'.caps (by omega)
        exact ⟨a4.trans b4.symm, by simpa using a2.trans b2.symm⟩
    · have hT : T t = T' t := by
        rw [h.tri t h4 htn, h'.tri t h4 (by omega), (ih (t / 2) (by omega) (by omega)).1]
      refine ⟨hT, ?_⟩
      obtain ⟨c, r, hr, he⟩ := band_exists t h4
      obtain ⟨p1, p2, p3⟩ := pow_facts c
      have hb := h.bound t (by omega) htn
      subst he
      rcases Nat.lt_or_ge r (2 ^ (c + 1)) with hlt | hge
      · rw [h.left c r hlt htn, h'.left c r hlt (by omega), ← hT, hV _ hb.1, hV _ hb.2.2]
      · have e : 2 ^ (c + 2) + r = 2 ^ (c + 2) + 2 ^ (c + 1) + (r - 2 ^ (c + 1)) := by omega
        have hq : r - 2 ^ (c + 1) < 2 ^ (c + 1) := by omega
        rw [e] at htn ⊢
        rw [h.right c _ hq htn, h'.right c _ hq (by omega), hV _ (by omega)]

end Shape

/-! ## Geometry of the caps in exact real arithmetic -/

section Geometry

theorem sp__subdivide_chord_x (u w : sp__Vertex ℝ) :
    (sp__subdivide_chord Real.sqrt u w).x
      = 0.5 / Real.sqrt ((u.x + w.x) * 0.5 * ((u.x + w.x) * 0.5)
          + (u.y + w.y) * 0.5 * ((u.y + w.y) * 0.5)) * ((u.x + w.x) * 0.5) := rfl

theorem sp__subdivide_chord_y (u w : sp__Vertex ℝ) :
    (sp__subdivide_chord Real.sqrt u w).y
      = 0.5 / Real.sqrt ((u.x + w.x) * 0.5 * ((u.x + w.x) * 0.5)
          + (u.y + w.y) * 0.5 * ((u.y + w.y) * 0.5)) * ((u.y + w.y) * 0.5) := rfl

/-- Subdividing a chord of the left cap: the midpoint is not the origin, the new vertex lies on
the circle between the endpoints, and the new triangle is wound like the quad. -/
theorem Chord.subdivide {u w : sp__Vertex ℝ} (h : Chord u w) :
    0 < (u.x + w.x) * 0.5 * ((u.x + w.x) * 0.5) + (u.y + w.y) * 0.5 * ((u.y + w.y) * 0.5)
      ∧ Chord u (sp__subdivide_chord Real.sqrt u w)
      ∧ Chord (sp__subdivide_chord Real.sqrt u w) w
      ∧ signedArea u (sp__subdivide_chord Real.sqrt u w) w < 0 := by
  obtain ⟨nu, nw, hd, hc, hux, hwx⟩ := h
  have hD : (u.x + w.x) * 0.5 * ((u.x + w.x) * 0.5) + (u.y + w.y) * 0.5 * ((u.y + w.y) * 0.5)
      = 1 / 8 + (u.x * w.x + u.y * w.y) / 2 := by
    norm_num
    linear_combination (1 / 4) * nu + (1 / 4) * nw
  have hDpos : 0 < (u.x + w.x) * 0.5 * ((u.x + w.x) * 0.5)
      + (u.y + w.y) * 0.5 * ((u.y + w.y) * 0.5) := by
    rw [hD]; linarith
  have hx := sp__subdivide_chord_x u w
  have hy := sp__subdivide_chord_y u w
  generalize sp__subdivide_chord Real.sqrt u w = n at hx hy ⊢
  have hr := Real.sqrt_pos.2 hDpos
  have hr2 := Real.mul_self_sqrt (le_of_lt hDpos)
  generalize Real.sqrt ((u.x + w.x) * 0.5 * ((u.x + w.x) * 0.5)
      + (u.y + w.y) * 0.5 * ((u.y + w.y) * 0.5)) = r at hx hy hr hr2
  rw [hD] at hr2
  -- the Lagrange identity bounds the dot product away from 1/4
  have hlag : (u.x * w.x + u.y * w.y) * (u.x * w.x + u.y * w.y)
      + (u.x * w.y - u.y * w.x) * (u.x * w.y - u.y * w.x) = 1 / 16 := by
    linear_combination (w.x * w.x + w.y * w.y) * nu + (1 / 4) * nw
  have hd4 : u.x * w.x + u.y * w.y < 1 / 4 := by
    nlinarith [mul_pos_of_neg_of_neg hc hc]
  have hrlt : r < 1 / 2 := by nlinarith
  obtain ⟨k, hk⟩ : ∃ k : ℝ, k = 0.5 / r := ⟨_, rfl⟩
  have hkr : k * r = 1 / 2 := by
    rw [hk]; field_simp; norm_num
  have hkpos : 0 < k := by
    rw [hk]; positivity
  have hk1 : 1 < k := by nlinarith
  have hk2 : k * k * (1 / 8 + (u.x * w.x + u.y * w.y) / 2) = 1 / 4 := by
    rw [← hr2]
    linear_combination (k * r + 1 / 2) * hkr
  rw [← hk] at hx hy
  have hnx : n.x = k * (u.x + w.x) / 2 := by rw [hx]; norm_num; ring
  have hny : n.y = k * (u.y + w.y) / 2 := by rw [hy]; norm_num; ring
  have hnn : n.x * n.x + n.y * n.y = 1 / 4 := by
    rw [hnx, hny]
    linear_combination hk2 + (k * k / 4) * nu + (k * k / 4) * nw
  have hnxle : n.x ≤ 0 := by
    rw [hnx]
    have : k * (u.x + w.x) ≤ 0 := mul_nonpos_of_nonneg_of_nonpos hkpos.le (by linarith)
    linarith
  have hdu : u.x * n.x + u.y * n.y = k / 2 * (1 / 4 + (u.x * w.x + u.y * w.y)) := by
    rw [hnx, hny]
    linear_combination (k / 2) * nu
  have hdw : n.x * w.x + n.y * w.y = k / 2 * (1 / 4 + (u.x * w.x + u.y * w.y)) := by
    rw [hnx, hny]
    linear_combination (k / 2) * nw
  have hcu : u.x * n.y - u.y * n.x = k / 2 * (u.x * w.y - u.y * w.x) := by
    rw [hnx, hny]; ring
  have hcw : n.x * w.y - n.y * w.x = k / 2 * (u.x * w.y - u.y * w.x) := by
    rw [hnx, hny]; ring
  have hk2pos : 0 < k / 2 := by linarith
  refine ⟨hDpos, ⟨nu, hnn, ?_, ?_, hux, hnxle⟩, ⟨hnn, nw, ?_, ?_, hnxle, hwx⟩, ?_⟩
  · rw [hdu]; exact mul_nonneg hk2pos.le (by linarith)
  · rw [hcu]; exact mul_neg_of_pos_of_neg hk2pos hc
  · rw [hdw]; exact mul_nonneg hk2pos.le (by linarith)
  · rw [hcw]; exact mul_neg_of_pos_of_neg hk2pos hc
  · have : signedArea u n w = (k - 1) * (u.x * w.y - u.y * w.x) := by
      unfold signedArea
      rw [hnx, hny]; ring
    rw [this]
    exact mul_neg_of_pos_of_neg (by linarith) hc

theorem signedArea_mirror (a b c : sp__Vertex ℝ) :
    signedArea (mirror a) (mirror b) (mirror c) = signedArea a b c := by
  unfold signedArea mirror
  ring

/-- Every left-cap slot `2 ^ (b + 1) + q` and its counterpart `2 ^ (b + 1) + 2 ^ b + q` have the
geometry `SlotGeom`, by induction over the bands. -/
theorem MemInv.geom {v0 : Int → sp__Vertex ℝ} {t0 : Nat → sp__Triangle} {n : Nat}
    {V : Int → sp__Vertex ℝ} {T : Nat → sp__Triangle}
    (h : MemInv Real.sqrt v0 t0 n V T) (hn : 4 ≤ n) :
    ∀ b q, q < 2 ^ b → 2 ^ (b + 1) + 2 ^ b + q < n →
      SlotGeom V T b (2 ^ (b + 1) + q) (2 ^ (b + 1) + 2 ^ b + q) := by
  intro b
  induction b with
  | zero =>
    intro q hq _
    have hq0 : q = 0 := by simpa using hq
    subst hq0
    obtain ⟨c4, c5, c2, c3⟩ := h.caps hn
    have e2 : 2 ^ (0 + 1) + 0 = 2 := by norm_num
    have e3 : 2 ^ (0 + 1) + 2 ^ 0 + 0 = 3 := by norm_num
    rw [e2, e3]
    have w0 := h.v_0
    have w1 := h.v_1
    have w2 := h.v_2
    have w3 := h.v_3
    refine ⟨?_, ?_, ?_, ?_, ?_, ?_, fun hb => absurd hb (by norm_num)⟩
    · rw [c2]
      simp only [Nat.cast_ofNat, Nat.cast_zero, Nat.reduceAdd, w0, c4]
      constructor <;> norm_num
    · rw [c2]
      simp only [Nat.cast_ofNat, Nat.cast_one, Nat.reduceAdd, w1, c4]
      constructor <;> norm_num
    · rw [c2]
      simp only [Nat.cast_ofNat, Nat.cast_zero, Nat.cast_one, Nat.reduceAdd, w0, w1, c4]
      norm_num [signedArea]
    · rw [c2, c3]
      simp only [Nat.cast_ofNat, Nat.cast_zero, w0, w2, mirror]
      norm_num
    · simp only [Nat.cast_ofNat, Nat.reduceAdd, c4, c5, mirror]
      norm_num
    · rw [c2, c3]
      simp only [Nat.cast_ofNat, Nat.cast_one, w1, w3, mirror]
      norm_num
  | succ b ih =>
    intro q hq hlt
    obtain ⟨p1, p2, p3⟩ := pow_facts b
    have p4 : 2 ^ (b + 1 + 1) = 2 * 2 ^ (b + 1) := by ring
    -- the parent slots
    have ep : (2 ^ (b + 1 + 1) + q) / 2 = 2 ^ (b + 1) + q / 2 := by omega
    have ep' : (2 ^ (b + 1 + 1) + 2 ^ (b + 1) + q) / 2 = 2 ^ (b + 1) + 2 ^ b + q / 2 := by omega
    have ee : (2 ^ (b + 1 + 1) + q) % 2 = q % 2 := by omega
    have ee' : (2 ^ (b + 1 + 1) + 2 ^ (b + 1) + q) % 2 = q % 2 := by omega
    have hpar := ih (q / 2) (by omega) (by omega)
    have hbl := h.bound (2 ^ (b + 1) + q / 2) (by omega) (by omega)
    have hbr := h.bound (2 ^ (b + 1) + 2 ^ b + q / 2) (by omega) (by omega)
    have hTl := h.tri (2 ^ (b + 1 + 1) + q) (by omega) (by omega)
    have hTr := h.tri (2 ^ (b + 1 + 1) + 2 ^ (b + 1) + q) (by omega) hlt
    rw [ep, ee] at hTl
    rw [ep', ee'] at hTr
    have hVl := h.left b q hq (by omega)
    have hVr := h.right b q hq hlt
    rcases idx_cases (T (2 ^ (b + 1) + q / 2)) (q % 2) (by omega) with ⟨_, a1, a2⟩ | ⟨_, a1, a2⟩
    · rcases idx_cases (T (2 ^ (b + 1) + 2 ^ b + q / 2)) (q % 2) (by omega) with
        ⟨_, a1', a2'⟩ | ⟨_, a1', a2'⟩
      · rw [a1, a2] at hTl
        rw [a1', a2'] at hTr
        have i0 : (T (2 ^ (b + 1 + 1) + q)).i0 = (T (2 ^ (b + 1) + q / 2)).i0 := by rw [hTl]
        have i2 : (T (2 ^ (b + 1 + 1) + q)).i2 = 2 ^ (b + 1) + q / 2 + 2 := by
          rw [hTl]; exact hbl.2.1
        have i0' : (T (2 ^ (b + 1 + 1) + 2 ^ (b + 1) + q)).i0
            = (T (2 ^ (b + 1) + 2 ^ b + q / 2)).i0 := by rw [hTr]
        have i2' : (T (2 ^ (b + 1 + 1) + 2 ^ (b + 1) + q)).i2
            = 2 ^ (b + 1) + 2 ^ b + q / 2 + 2 := by
          rw [hTr]; exact hbr.2.1
        rw [i0, i2] at hVl
        obtain ⟨s1, s2, s3, s4⟩ := hpar.c1.subdivide
        rw [← hVl] at s2 s3 s4
        refine ⟨?_, ?_, ?_, ?_, hVr, ?_, fun _ => ?_⟩
        · rw [i0]; exact s2
        · rw [i2]; exact s3
        · rw [i0, i2]; exact s4
        · rw [i0', i0]; exact hpar.m0
        · rw [i2', i2]; exact hpar.m1
        · rw [i0, i2]; exact s1
      · omega
    · rcases idx_cases (T (2 ^ (b + 1) + 2 ^ b + q / 2)) (q % 2) (by omega) with
        ⟨_, a1', a2'⟩ | ⟨_, a1', a2'⟩
      · omega
      · rw [a1, a2] at hTl
        rw [a1', a2'] at hTr
        have i0 : (T (2 ^ (b + 1 + 1) + q)).i0 = 2 ^ (b + 1) + q / 2 + 2 := by
          rw [hTl]; exact hbl.2.1
        have i2 : (T (2 ^ (b + 1 + 1) + q)).i2 = (T (2 ^ (b + 1) + q / 2)).i2 := by rw [hTl]
        have i0' : (T (2 ^ (b + 1 + 1) + 2 ^ (b + 1) + q)).i0
            = 2 ^ (b + 1) + 2 ^ b + q / 2 + 2 := by
          rw [hTr]; exact hbr.2.1
        have i2' : (T (2 ^ (b + 1 + 1) + 2 ^ (b + 1) + q)).i2
            = (T (2 ^ (b + 1) + 2 ^ b + q / 2)).i2 := by rw [hTr]
        rw [i0, i2] at hVl
        obtain ⟨s1, s2, s3, s4⟩ := hpar.c2.subdivide
        rw [← hVl] at s2 s3 s4
        refine ⟨?_, ?_, ?_, ?_, hVr, ?_, fun _ => ?_⟩
        · rw [i0]; exact s2
        · rw [i2]; exact s3
        · rw [i0, i2]; exact s4
        · rw [i0', i0]; exact hpar.m1
        · rw [i2', i2]; exact hpar.m2
        · rw [i0, i2]; exact s1

theorem capRoot_lt (t : Nat) (h : t < 4) : capRoot t = t := by
  rw [capRoot, if_pos h]

theorem capRoot_ge (t : Nat) (h : 4 ≤ t) : capRoot t = capRoot (t / 2) := by
  rw [capRoot, if_neg (by omega)]

/-- In every band the first half descends from the left cap triangle, the second half from
the right one. -/
theorem capRoot_band (b : Nat) :
    ∀ q, q < 2 ^ (b + 1) → capRoot (2 ^ (b + 1) + q) = if q < 2 ^ b then 2 else 3 := by
  induction b with
  | zero =>
    intro q hq
    have : q = 0 ∨ q = 1 := by
      have : q < 2 := by simpa using hq
      omega
    rcases this with rfl | rfl
    · rw [capRoot_lt _ (by norm_num)]; norm_num
    · rw [capRoot_lt _ (by norm_num)]; norm_num
  | succ b ih =>
    intro q hq
    obtain ⟨p1, p2, p3⟩ := pow_facts b
    have p4 : 2 ^ (b + 1 + 1) = 2 * 2 ^ (b + 1) := by ring
    have e : (2 ^ (b + 1 + 1) + q) / 2 = 2 ^ (b + 1) + q / 2 := by omega
    rw [capRoot_ge _ (by omega), e, ih (q / 2) (by omega)]
    by_cases hlt : q < 2 ^ (b + 1)
    · rw [if_pos hlt, if_pos (by omega)]
    · rw [if_neg hlt, if_neg (by omega)]

/-- Every triangle slot `t` with `2 ≤ t < 2 ^ (L + 1)` lies in a band `b < L`. -/
theorem band_of_slot (L t : Nat) (h2 : 2 ≤ t) (ht : t < 2 ^ (L + 1)) :
    ∃ b r, b < L ∧ r < 2 ^ (b + 1) ∧ t = 2 ^ (b + 1) + r := by
  have key : ∃ b r, r < 2 ^ (b + 1) ∧ t = 2 ^ (b + 1) + r := by
    rcases Nat.lt_or_ge t 4 with h4 | h4
    · exact ⟨0, t - 2, by norm_num; omega, by norm_num; omega⟩
    · obtain ⟨c, r, hr, he⟩ := band_exists t h4
      exact ⟨c + 1, r, hr, he⟩
  obtain ⟨b, r, hr, he⟩ := key
  refine ⟨b, r, ?_, hr, he⟩
  by_contra hb
  have : (2 : Nat) ^ (L + 1) ≤ 2 ^ (b + 1) := Nat.pow_le_pow_right (by norm_num) (by omega)
  omega

/-- The position of every cap vertex: on the circle of its cap, on the outer side. -/
theorem MemInv.vertex_on_cap {v0 : Int → sp__Vertex ℝ} {t0 : Nat → sp__Triangle} {L : Nat}
    {V : Int → sp__Vertex ℝ} {T : Nat → sp__Triangle}
    (h : MemInv Real.sqrt v0 t0 (2 ^ (L + 1)) V T) (i : Nat) (h4 : 4 ≤ i)
    (hi : i < 2 ^ (L + 1) + 2) :
    (isRightVertex i = false ∧ (V i).x * (V i).x + (V i).y * (V i).y = 1 / 4 ∧ (V i).x ≤ 0)
      ∨ (isRightVertex i = true
          ∧ ((V i).x - 1) * ((V i).x - 1) + (V i).y * (V i).y = 1 / 4 ∧ 1 ≤ (V i).x) := by
  obtain ⟨b, r, hb, hr, he⟩ := band_of_slot L (i - 2) (by omega) (by omega)
  have hn : 4 ≤ 2 ^ (L + 1) := by omega
  have hpow : (2 : Nat) ^ (b + 2) ≤ 2 ^ (L + 1) := Nat.pow_le_pow_right (by norm_num) (by omega)
  obtain ⟨p1, p2, p3⟩ := pow_facts b
  have hside : isRightVertex i = (capRoot (i - 2) == 3) := by
    unfold isRightVertex
    rw [if_neg (by omega), if_neg (by omega)]
  have hroot := capRoot_band b r hr
  rw [← he] at hroot
  rcases Nat.lt_or_ge r (2 ^ b) with hlt | hge
  · left
    have g := h.geom hn b r hlt (by omega)
    rw [← he] at g
    have e : i - 2 + 2 = i := by omega
    have c := g.c1
    rw [e] at c
    rw [if_pos hlt] at hroot
    refine ⟨?_, c.nw, c.wx⟩
    rw [hside, hroot]; rfl
  · right
    have e1 : 2 ^ (b + 1) + r = 2 ^ (b + 1) + 2 ^ b + (r - 2 ^ b) := by omega
    have g := h.geom hn b (r - 2 ^ b) (by omega) (by omega)
    rw [← e1, ← he] at g
    have e : i - 2 + 2 = i := by omega
    have m := g.m1
    have cn := g.c1.nw
    have cx := g.c1.wx
    rw [e] at m
    rw [if_neg (by omega)] at hroot
    generalize V ((2 ^ (b + 1) + (r - 2 ^ b) + 2 : Nat) : Int) = p at m cn cx
    refine ⟨?_, ?_, ?_⟩
    · rw [hside, hroot]; rfl
    · rw [m]
      simp only [mirror]
      norm_num
      linarith
    · rw [m]
      simp only [mirror]
      norm_num
      linarith

/-- Every triangle is wound like the first quad triangle. -/
theorem MemInv.area_neg {v0 : Int → sp__Vertex ℝ} {t0 : Nat → sp__Triangle} {L : Nat}
    {V : Int → sp__Vertex ℝ} {T : Nat → sp__Triangle}
    (h : MemInv Real.sqrt v0 t0 (2 ^ (L + 1)) V T) (t : Nat) (ht : t < 2 ^ (L + 1)) :
    signedArea (V ((T t).i0 : Nat)) (V ((T t).i1: Nat)) (V ((T t).i2 : Nat)) < 0 := by
  rcases Nat.lt_or_ge t 2 with h2 | h2
  · have : t = 0 ∨ t = 1 := by omega
    rcases this with rfl | rfl
    · rw [h.t_0]
      simp only [Nat.cast_ofNat, Nat.cast_zero, Nat.cast_one, h.v_0, h.v_1, h.v_2]
      norm_num [signedArea]
    · rw [h.t_1]
      simp only [Nat.cast_ofNat, Nat.cast_zero, h.v_0, h.v_2, h.v_3]
      norm_num [signedArea]
  · obtain ⟨b, r, hb, hr, he⟩ := band_of_slot L t h2 ht
    have hn : 4 ≤ 2 ^ (L + 1) := by omega
    have hpow : (2 : Nat) ^ (b + 2) ≤ 2 ^ (L + 1) :=
      Nat.pow_le_pow_right (by norm_num) (by omega)
    obtain ⟨p1, p2, p3⟩ := pow_facts b
    rw [(h.bound t h2 ht).2.1]
    rcases Nat.lt_or_ge r (2 ^ b) with hlt | hge
    · have g := h.geom hn b r hlt (by omega)
      rw [← he] at g
      exact g.area
    · have e1 : 2 ^ (b + 1) + r = 2 ^ (b + 1) + 2 ^ b + (r - 2 ^ b) := by omega
      have g := h.geom hn b (r - 2 ^ b) (by omega) (by omega)
      rw [← e1, ← he] at g
      rw [g.m0, g.m1, g.m2, signedArea_mirror]
      exact g.area

end Geometry

/-! ## The vertex packer in exact real arithmetic -/

section Packing

theorem roundf_nonneg (w : ℝ) (h : 0 ≤ w) : roundf w = ⌊w + 1 / 2⌋ := by
  unfold roundf
  rw [if_pos h]

theorem roundf_neg (w : ℝ) (h : w < 0) : roundf w = ⌈w - 1 / 2⌉ := by
  unfold roundf
  rw [if_neg (not_le.2 h)]

/-- Rounding moves a value by at most one half. -/
theorem roundf_near (w : ℝ) : |(roundf w : ℝ) - w| ≤ 1 / 2 := by
  rw [abs_le]
  rcases le_or_lt 0 w with h | h
  · rw [roundf_nonneg w h]
    have h1 := Int.floor_le (w + 1 / 2)
    have h2 := Int.lt_floor_add_one (w + 1 / 2)
    constructor <;> linarith
  · rw [roundf_neg w h]
    have h1 := Int.le_ceil (w - 1 / 2)
    have h2 := Int.ceil_lt_add_one (w - 1 / 2)
    constructor <;> linarith

/-- The rounded value is zero exactly for values of magnitude below one half. -/
theorem roundf_eq_zero_iff (w : ℝ) : roundf w = 0 ↔ |w| < 1 / 2 := by
  rw [abs_lt]
  rcases le_or_lt 0 w with h | h
  · rw [roundf_nonneg w h, Int.floor_eq_iff]
    constructor
    · rintro ⟨_, h2⟩
      constructor <;> norm_num at h2 ⊢ <;> linarith
    · rintro ⟨_, h2⟩
      constructor <;> norm_num <;> linarith
  · rw [roundf_neg w h, Int.ceil_eq_iff]
    constructor
    · rintro ⟨h1, _⟩
      constructor <;> norm_num at h1 ⊢ <;> linarith
    · rintro ⟨h1, _⟩
      constructor <;> norm_num <;> linarith

theorem roundf_between_pos (w : ℝ) (a b : Int) (ha : (a : ℝ) - 1 / 2 ≤ w) (hb : w ≤ b)
    (h0 : 0 ≤ w) : a ≤ roundf w ∧ roundf w ≤ b := by
  rw [roundf_nonneg w h0]
  constructor
  · rw [Int.le_floor]; linarith
  · have : ⌊w + 1 / 2⌋ < b + 1 := by
      rw [Int.floor_lt]; push_cast; linarith
    omega

theorem roundf_between_neg (w : ℝ) (a b : Int) (ha : (a : ℝ) ≤ w) (hb : w ≤ (b : ℝ) + 1 / 2)
    (h0 : w < 0) : a ≤ roundf w ∧ roundf w ≤ b := by
  rw [roundf_neg w h0]
  constructor
  · have : a - 1 < ⌈w - 1 / 2⌉ := by
      rw [Int.lt_ceil]; push_cast; linarith
    omega
  · rw [Int.ceil_le]; linarith

theorem sp__to_snorm_16_eq (v : ℝ) :
    sp__to_snorm_16 v = roundf (min (max v (-1)) 1 * 32767) := by
  unfold sp__to_snorm_16
  norm_num

/-- Within `[-1, 1]` the quantisation error is at most half a step. -/
theorem sp__to_snorm_16_near (v : ℝ) (h1 : -1 ≤ v) (h2 : v ≤ 1) :
    |(sp__to_snorm_16 v : ℝ) / 32767 - v| ≤ 1 / 65534 := by
  rw [sp__to_snorm_16_eq, max_eq_left h1, min_eq_left h2]
  have h := roundf_near (v * 32767)
  rw [abs_le] at h ⊢
  constructor
  · rw [← sub_nonneg]
    have : (roundf (v * 32767) : ℝ) / 32767 - v - -(1 / 65534)
        = ((roundf (v * 32767) : ℝ) - v * 32767 + 1 / 2) / 32767 := by ring
    rw [this]
    apply div_nonneg <;> linarith
  · rw [← sub_nonneg]
    have : 1 / 65534 - ((roundf (v * 32767) : ℝ) / 32767 - v)
        = (1 / 2 - ((roundf (v * 32767) : ℝ) - v * 32767)) / 32767 := by ring
    rw [this]
    apply div_nonneg <;> linarith

/-- In exact arithmetic both branches of lines 172-175 pack `x - 0.5`. -/
theorem packVertex_eq (v : sp__Vertex ℝ) :
    packVertex v = if sp__to_snorm_16 (v.x - 0.5) ≠ 0
      then some ⟨sp__to_snorm_16 (v.x - 0.5), sp__to_snorm_16 v.y⟩ else none := by
  unfold packVertex
  by_cases h : v.x ≥ 1.0
  · simp only [if_pos h]
    have : v.x - 1.0 + 0.5 = v.x - 0.5 := by norm_num; ring
    rw [this]
  · simp only [if_neg h]
    have : v.x + -0.5 = v.x - 0.5 := by ring
    rw [this]

/-- The packed X is zero exactly when `x` is within `1 / 65534` of `0.5`. -/
theorem sp__to_snorm_16_eq_zero_iff (v : ℝ) : sp__to_snorm_16 v = 0 ↔ |v| < 1 / 65534 := by
  rw [sp__to_snorm_16_eq, roundf_eq_zero_iff, abs_lt, abs_lt]
  constructor
  · rintro ⟨h1, h2⟩
    have hv1 : v < 1 := by
      by_contra hge
      rw [not_lt] at hge
      rw [min_eq_right (le_max_of_le_left hge)] at h2
      norm_num at h2
    have hv2 : -1 < v := by
      by_contra hge
      rw [not_lt] at hge
      rw [max_eq_right hge] at h1
      norm_num at h1
    rw [max_eq_left hv2.le, min_eq_left hv1.le] at h1 h2
    constructor <;> linarith
  · rintro ⟨h1, h2⟩
    rw [max_eq_left (by linarith), min_eq_left (by linarith)]
    constructor <;> linarith

/-- The loop of `sp__pack_vertices` succeeds when every vertex packs, and then stores the
packed vertices. -/
theorem sp__pack_vertices_of_all (n : Nat) (V : Int → sp__Vertex ℝ) (out : Nat → sp__PackedVertex)
    (p : Nat → sp__PackedVertex) (h : ∀ i : Nat, i < n → packVertex (V i) = some (p i)) :
    ∃ out', sp__pack_vertices n V out = some out' ∧ (∀ i, i < n → out' i = p i)
      ∧ ∀ i, n ≤ i → out' i = out i := by
  induction n with
  | zero => exact ⟨out, rfl, fun i hi => absurd hi (Nat.not_lt_zero i), fun _ _ => rfl⟩
  | succ k ih =>
    obtain ⟨o, h1, h2, h3⟩ := ih (fun i hi => h i (Nat.lt_succ_of_lt hi))
    refine ⟨fun j => if j = k then p k else o j, ?_, ?_, ?_⟩
    · unfold sp__pack_vertices at h1 ⊢
      rw [forLoop_succ, h1]
      simp only [h k (Nat.lt_succ_self k), Option.map_some']
      rfl
    · intro i hi
      by_cases hik : i = k
      · simp [hik]
      · simp only [if_neg hik]
        exact h2 i (by omega)
    · intro i hi
      simp only [if_neg (show i ≠ k by omega)]
      exact h3 i (by omega)

end Packing

/-! ## The claims about slots, geometry and packing -/

section Claims

/-- C1, as amended: for every level `L` with `sp_get_vertex_count L ≤ 2 ^ 16` the call
`sp_create_geometry(L)` returns, writes every vertex slot `0 .. sp_get_vertex_count L - 1` and
every triangle slot `0 .. sp_get_triangle_count L - 1` exactly once, and writes no other slot;
the counts are `2 + 2 * 2 ^ L` and `2 ^ (L + 1)`. -/
theorem c1_every_slot_written_once {F : Type} [Field F] (sqrtf : F → F) (fuel L : Nat)
    (hL : sp_get_vertex_count L ≤ 2 ^ 16) (hfuel : L ≤ fuel + 1)
    (v0 : Int → sp__Vertex F) (t0 : Nat → sp__Triangle) :
    sp_get_vertex_count L = 2 + 2 * 2 ^ L ∧ sp_get_triangle_count L = 2 ^ (L + 1)
      ∧ ∃ m, sp_create_geometry sqrtf fuel L v0 t0 = some m
        ∧ (∀ slot : Int, (vertexWrites m.trace).count slot
            = if 0 ≤ slot ∧ slot < (sp_get_vertex_count L : Int) then 1 else 0)
        ∧ (∀ slot : Nat, (triangleWrites m.trace).count slot
            = if slot < sp_get_triangle_count L then 1 else 0) := by
  refine ⟨rfl, rfl, ?_⟩
  obtain ⟨m, hm, hv, ht, _⟩ := sp__create_geometry_spec sqrtf fuel L hfuel v0 t0
  refine ⟨m, hm, ?_, ?_⟩
  · intro slot
    rw [hv, map_mod_range _ hL]
    exact count_range_cast _ slot
  · intro slot
    rw [ht]
    exact count_range _ slot

/-- C1, witness at level 2. -/
theorem c1_every_slot_written_once_witness :
    sp_get_vertex_count 2 = 2 + 2 * 2 ^ 2 ∧ sp_get_triangle_count 2 = 2 ^ (2 + 1)
      ∧ ∃ m, sp_create_geometry Real.sqrt 1 2 (fun _ => ⟨0, 0⟩) (fun _ => ⟨0, 0, 0⟩) = some m
        ∧ (∀ slot : Int, (vertexWrites m.trace).count slot
            = if 0 ≤ slot ∧ slot < (sp_get_vertex_count 2 : Int) then 1 else 0)
        ∧ (∀ slot : Nat, (triangleWrites m.trace).count slot
            = if slot < sp_get_triangle_count 2 then 1 else 0) :=
  c1_every_slot_written_once Real.sqrt 1 2 (by decide) (by decide) _ _

/-- C1 fails as stated at level 15: `sp_get_vertex_count 15 = 65538`, but the 16-bit
`next_vertex_index` never takes the value 65536, so vertex slot 65536 is not written. -/
theorem c1_counterexample_level_15 :
    ∃ m, sp_create_geometry Real.sqrt 14 15 (fun _ => ⟨0, 0⟩) (fun _ => ⟨0, 0, 0⟩) = some m
      ∧ (65536 : Int) < (sp_get_vertex_count 15 : Int)
      ∧ (vertexWrites m.trace).count 65536 = 0 := by
  obtain ⟨m, hm, hv, _, _⟩ :=
    sp__create_geometry_spec Real.sqrt 14 15 (by decide) (fun _ => ⟨0, 0⟩) (fun _ => ⟨0, 0, 0⟩)
  refine ⟨m, hm, by norm_num [sp_get_vertex_count], ?_⟩
  rw [hv]
  refine List.count_eq_zero_of_not_mem (fun hmem => ?_)
  obtain ⟨k, _, hk⟩ := List.mem_map.1 hmem
  omega

/-- C2: for every level `L` with `sp_get_vertex_count L ≤ 2 ^ 16`, every index stored in a
triangle written by `sp_create_geometry(L)` is below `sp_get_vertex_count L` and is a vertex slot
that has been written; the middle index of slot `t ≥ 2` is the unwrapped counter value `t + 2`. -/
theorem c2_indices_valid {F : Type} [Field F] (sqrtf : F → F) (fuel L : Nat)
    (hL : sp_get_vertex_count L ≤ 2 ^ 16) (hfuel : L ≤ fuel + 1)
    (v0 : Int → sp__Vertex F) (t0 : Nat → sp__Triangle) :
    ∃ m, sp_create_geometry sqrtf fuel L v0 t0 = some m
      ∧ (∀ t k, t < sp_get_triangle_count L → k < 3 →
          (m.triangles t).i k < sp_get_vertex_count L
            ∧ (((m.triangles t).i k : Nat) : Int) ∈ vertexWrites m.trace)
      ∧ (∀ t, 2 ≤ t → t < sp_get_triangle_count L → (m.triangles t).i 1 = t + 2) := by
  obtain ⟨m, hm, hv, _, hmem⟩ := sp__create_geometry_spec sqrtf fuel L hfuel v0 t0
  have hI := hmem hL
  have e2 : sp_get_triangle_count L + 2 = sp_get_vertex_count L := by
    unfold sp_get_triangle_count sp_get_vertex_count
    ring
  have hlt : ∀ t k, t < sp_get_triangle_count L → k < 3 →
      (m.triangles t).i k < sp_get_vertex_count L := by
    intro t k ht hk
    rcases Nat.lt_or_ge t 2 with h2 | h2
    · have : t = 0 ∨ t = 1 := by omega
      rcases this with rfl | rfl
      · rw [hI.t_0]; interval_cases k <;> simp [sp__Triangle.i] <;> omega
      · rw [hI.t_1]; interval_cases k <;> simp [sp__Triangle.i] <;> omega
    · obtain ⟨b0, b1, b2⟩ := hI.bound t h2 ht
      interval_cases k
      · show (m.triangles t).i0 < _; omega
      · show (m.triangles t).i1 < _; omega
      · show (m.triangles t).i2 < _; omega
  refine ⟨m, hm, fun t k ht hk => ⟨hlt t k ht hk, ?_⟩, fun t h2 ht => (hI.bound t h2 ht).2.1⟩
  rw [hv, map_mod_range _ hL]
  exact List.mem_map.2 ⟨_, List.mem_range.2 (hlt t k ht hk), rfl⟩

/-- C2, witness at level 3. -/
theorem c2_indices_valid_witness :
    ∃ m, sp_create_geometry Real.sqrt 2 3 (fun _ => ⟨0, 0⟩) (fun _ => ⟨0, 0, 0⟩) = some m
      ∧ (∀ t k, t < sp_get_triangle_count 3 → k < 3 →
          (m.triangles t).i k < sp_get_vertex_count 3
            ∧ (((m.triangles t).i k : Nat) : Int) ∈ vertexWrites m.trace)
      ∧ (∀ t, 2 ≤ t → t < sp_get_triangle_count 3 → (m.triangles t).i 1 = t + 2) :=
  c2_indices_valid Real.sqrt 2 3 (by decide) (by decide) _ _

/-- C3, as amended: for levels `L ≤ M` with `sp_get_vertex_count M ≤ 2 ^ 16`, the first
`sp_get_vertex_count L` vertices and the first `sp_get_triangle_count L` triangles produced at
level `M` are those produced at level `L`, whatever the buffers held before the calls. -/
theorem c3_stable_under_refinement {F : Type} [Field F] (sqrtf : F → F) (fuelL fuelM L M : Nat)
    (hLM : L ≤ M) (hM : sp_get_vertex_count M ≤ 2 ^ 16)
    (hfuelL : L ≤ fuelL + 1) (hfuelM : M ≤ fuelM + 1)
    (v0 v0' : Int → sp__Vertex F) (t0 t0' : Nat → sp__Triangle) :
    ∃ mL mM, sp_create_geometry sqrtf fuelL L v0 t0 = some mL
      ∧ sp_create_geometry sqrtf fuelM M v0' t0' = some mM
      ∧ (∀ i : Nat, i < sp_get_vertex_count L → mL.vertices i = mM.vertices i)
      ∧ (∀ t : Nat, t < sp_get_triangle_count L → mL.triangles t = mM.triangles t) := by
  obtain ⟨mL, hmL, _, _, hIL⟩ := sp__create_geometry_spec sqrtf fuelL L hfuelL v0 t0
  obtain ⟨mM, hmM, _, _, hIM⟩ := sp__create_geometry_spec sqrtf fuelM M hfuelM v0' t0'
  have hpow : (2 : Nat) ^ L ≤ 2 ^ M := Nat.pow_le_pow_right (by norm_num) hLM
  have hcount : sp_get_triangle_count L ≤ sp_get_triangle_count M := by
    unfold sp_get_triangle_count
    exact Nat.pow_le_pow_right (by norm_num) (by omega)
  have hvL : sp_get_vertex_count L ≤ 2 ^ 16 := by
    unfold sp_get_vertex_count at hM ⊢
    omega
  have h1 := hIL hvL
  have h2 := hIM hM
  have hshape : sp_get_triangle_count L = 2 ∨ 4 ≤ sp_get_triangle_count L := by
    unfold sp_get_triangle_count
    rcases Nat.eq_zero_or_pos L with rfl | hpos
    · left; rfl
    · right
      have : (2 : Nat) ^ (1 + 1) ≤ 2 ^ (L + 1) := Nat.pow_le_pow_right (by norm_num) (by omega)
      simpa using this
  have hag := h1.agree h2 hcount hshape
  have e2 : sp_get_triangle_count L + 2 = sp_get_vertex_count L := by
    unfold sp_get_triangle_count sp_get_vertex_count
    ring
  refine ⟨mL, mM, hmL, hmM, ?_, fun t ht => (hag t ht).1⟩
  intro i hi
  rcases Nat.lt_or_ge i 2 with hlt | hge
  · have : i = 0 ∨ i = 1 := by omega
    rcases this with rfl | rfl
    · simpa using h1.v_0.trans h2.v_0.symm
    · simpa using h1.v_1.trans h2.v_1.symm
  · have := (hag (i - 2) (by omega)).2
    have e : i - 2 + 2 = i := by omega
    rwa [e] at this

/-- C3, witness at levels 1 and 3. -/
theorem c3_stable_under_refinement_witness :
    ∃ mL mM, sp_create_geometry Real.sqrt 0 1 (fun _ => ⟨0, 0⟩) (fun _ => ⟨0, 0, 0⟩) = some mL
      ∧ sp_create_geometry Real.sqrt 2 3 (fun _ => ⟨7, 7⟩) (fun _ => ⟨9, 9, 9⟩) = some mM
      ∧ (∀ i : Nat, i < sp_get_vertex_count 1 → mL.vertices i = mM.vertices i)
      ∧ (∀ t : Nat, t < sp_get_triangle_count 1 → mL.triangles t = mM.triangles t) :=
  c3_stable_under_refinement Real.sqrt 0 2 1 3 (by decide) (by decide) (by decide) (by decide)
    _ _ _ _

/-- C3 fails as stated at levels 0 and 15: at level 15 the 16-bit counter wraps and vertex
slot 1 is overwritten with a reflected vertex, so it is no longer the quad corner that level 0
leaves there. -/
theorem c3_counterexample_levels_0_15 :
    ∃ m0 m15, sp_create_geometry Real.sqrt 14 0 (fun _ => ⟨0, 0⟩) (fun _ => ⟨0, 0, 0⟩) = some m0
      ∧ sp_create_geometry Real.sqrt 14 15 (fun _ => ⟨0, 0⟩) (fun _ => ⟨0, 0, 0⟩) = some m15
      ∧ 1 < sp_get_vertex_count 0
      ∧ m0.vertices 1 ≠ m15.vertices 1 := by
  obtain ⟨m15, h15, _, hv1, _, _⟩ := sp__create_geometry_fifteen Real.sqrt 14 le_rfl
    (fun _ => (⟨0, 0⟩ : sp__Vertex ℝ)) (fun _ => ⟨0, 0, 0⟩)
  refine ⟨_, m15, sp__create_geometry_zero Real.sqrt 14 _ _, h15, by decide, ?_⟩
  rw [hv1]
  intro h
  have hx := congrArg sp__Vertex.x h
  simp only [quadBuffers, Buffers.writeVertex, Buffers.writeTriangle, mirror] at hx
  norm_num at hx

/-- C4: level 0 writes exactly the four quad corners and the two quad triangles; level 1 writes
exactly those followed by the cap vertices `(-0.5, 0)`, `(1.5, 0)` at indices 4, 5 and the cap
triangles `(0, 4, 1)`, `(2, 5, 3)` at slots 2, 3. -/
theorem c4_levels_0_and_1 (fuel : Nat) (v0 : Int → sp__Vertex ℝ) (t0 : Nat → sp__Triangle) :
    (∃ m, sp_create_geometry Real.sqrt fuel 0 v0 t0 = some m
      ∧ m.vertices 0 = ⟨0, -0.5⟩ ∧ m.vertices 1 = ⟨0, 0.5⟩
      ∧ m.vertices 2 = ⟨1, 0.5⟩ ∧ m.vertices 3 = ⟨1, -0.5⟩
      ∧ m.triangles 0 = ⟨0, 1, 2⟩ ∧ m.triangles 1 = ⟨2, 3, 0⟩
      ∧ vertexWrites m.trace = [0, 1, 2, 3] ∧ triangleWrites m.trace = [0, 1])
    ∧ (∃ m, sp_create_geometry Real.sqrt fuel 1 v0 t0 = some m
      ∧ m.vertices 0 = ⟨0, -0.5⟩ ∧ m.vertices 1 = ⟨0, 0.5⟩
      ∧ m.vertices 2 = ⟨1, 0.5⟩ ∧ m.vertices 3 = ⟨1, -0.5⟩
      ∧ m.vertices 4 = ⟨-0.5, 0⟩ ∧ m.vertices 5 = ⟨1.5, 0⟩
      ∧ m.triangles 0 = ⟨0, 1, 2⟩ ∧ m.triangles 1 = ⟨2, 3, 0⟩
      ∧ m.triangles 2 = ⟨0, 4, 1⟩ ∧ m.triangles 3 = ⟨2, 5, 3⟩
      ∧ vertexWrites m.trace = [0, 1, 2, 3, 4, 5] ∧ triangleWrites m.trace = [0, 1, 2, 3]) := by
  constructor
  · refine ⟨_, sp__create_geometry_zero Real.sqrt fuel v0 t0, ?_⟩
    simp [quadBuffers, Buffers.writeVertex, Buffers.writeTriangle, vertexWrites, triangleWrites]
    norm_num
  · refine ⟨_, sp__create_geometry_one Real.sqrt fuel v0 t0, ?_⟩
    simp [capBuffers, quadBuffers, Buffers.writeVertex, Buffers.writeTriangle, vertexWrites,
      triangleWrites]
    norm_num

theorem sp__create_geometry_real (fuel L : Nat) (hL : sp_get_vertex_count L ≤ 2 ^ 16)
    (hfuel : L ≤ fuel + 1) (v0 : Int → sp__Vertex ℝ) (t0 : Nat → sp__Triangle) :
    ∃ m, sp_create_geometry Real.sqrt fuel L v0 t0 = some m
      ∧ vertexWrites m.trace = (List.range (2 ^ (L + 1) + 2)).map (fun k : Nat => (k : Int))
      ∧ MemInv Real.sqrt v0 t0 (2 ^ (L + 1)) m.vertices m.triangles := by
  obtain ⟨m, hm, hv, _, hmem⟩ := sp__create_geometry_spec Real.sqrt fuel L hfuel v0 t0
  have e2 : sp_get_vertex_count L = 2 ^ (L + 1) + 2 := by
    unfold sp_get_vertex_count
    ring
  refine ⟨m, hm, ?_, hmem hL⟩
  rw [hv, map_mod_range _ hL, e2]

theorem sqrt_quarter (a : ℝ) (h : a = 1 / 4) : Real.sqrt a = 0.5 := by
  rw [h]
  have : (1 / 4 : ℝ) = 0.5 ^ 2 := by norm_num
  rw [this]
  exact Real.sqrt_sq (by norm_num)

/-- C5, as amended: in exact real arithmetic, for every level `L` with
`sp_get_vertex_count L ≤ 2 ^ 16`, vertices 0-3 are the fixed quad corners, every vertex of index
at least 4 lies at distance exactly 0.5 from `(0, 0)` (left cap) or from `(1, 0)` (right cap),
and every left-cap vertex from the subdivision rounds is `sp__subdivide_chord` of two endpoints
whose midpoint is not the zero vector, so the square root it divides by is not zero. -/
theorem c5_cap_vertices_on_circle (fuel L : Nat) (hL : sp_get_vertex_count L ≤ 2 ^ 16)
    (hfuel : L ≤ fuel + 1) (v0 : Int → sp__Vertex ℝ) (t0 : Nat → sp__Triangle) :
    ∃ m, sp_create_geometry Real.sqrt fuel L v0 t0 = some m
      ∧ m.vertices 0 = ⟨0, -0.5⟩ ∧ m.vertices 1 = ⟨0, 0.5⟩
      ∧ m.vertices 2 = ⟨1, 0.5⟩ ∧ m.vertices 3 = ⟨1, -0.5⟩
      ∧ (∀ i : Nat, 4 ≤ i → i < sp_get_vertex_count L →
          Real.sqrt (((m.vertices i).x - (if isRightVertex i then 1 else 0)) ^ 2
            + ((m.vertices i).y - 0) ^ 2) = 0.5)
      ∧ (∀ t : Nat, 4 ≤ t → t < sp_get_triangle_count L → isRightVertex (t + 2) = false →
          m.vertices ((t + 2 : Nat) : Int)
              = sp__subdivide_chord Real.sqrt (m.vertices ((m.triangles t).i0 : Nat))
                  (m.vertices ((m.triangles t).i2 : Nat))
            ∧ ((((m.vertices ((m.triangles t).i0 : Nat)).x
                  + (m.vertices ((m.triangles t).i2 : Nat)).x) * 0.5 ≠ 0)
                ∨ (((m.vertices ((m.triangles t).i0 : Nat)).y
                  + (m.vertices ((m.triangles t).i2 : Nat)).y) * 0.5 ≠ 0))
            ∧ Real.sqrt
                (((m.vertices ((m.triangles t).i0 : Nat)).x
                    + (m.vertices ((m.triangles t).i2 : Nat)).x) * 0.5
                  * (((m.vertices ((m.triangles t).i0 : Nat)).x
                    + (m.vertices ((m.triangles t).i2 : Nat)).x) * 0.5)
                + ((m.vertices ((m.triangles t).i0 : Nat)).y
                    + (m.vertices ((m.triangles t).i2 : Nat)).y) * 0.5
                  * (((m.vertices ((m.triangles t).i0 : Nat)).y
                    + (m.vertices ((m.triangles t).i2 : Nat)).y) * 0.5)) ≠ 0) := by
  obtain ⟨m, hm, _, h⟩ := sp__create_geometry_real fuel L hL hfuel v0 t0
  have e2 : sp_get_vertex_count L = 2 ^ (L + 1) + 2 := by
    unfold sp_get_vertex_count
    ring
  refine ⟨m, hm, ?_, ?_, ?_, ?_, ?_, ?_⟩
  · rw [h.v_0]; norm_num
  · rw [h.v_1]; norm_num
  · rw [h.v_2]; norm_num
  · rw [h.v_3]; norm_num
  · intro i h4 hi
    rcases h.vertex_on_cap i h4 (by omega) with ⟨hs, hc, _⟩ | ⟨hs, hc, _⟩
    · rw [hs]
      apply sqrt_quarter
      rw [← hc]
      simp only [Bool.false_eq_true, if_false]
      ring
    · rw [hs]
      apply sqrt_quarter
      rw [← hc]
      simp only [if_true]
      ring
  · intro t h4 ht hside
    have ht' : t < 2 ^ (L + 1) := ht
    obtain ⟨b, r, hb, hr, he⟩ := band_of_slot L t (by omega) ht'
    have hpow : (2 : Nat) ^ (b + 2) ≤ 2 ^ (L + 1) :=
      Nat.pow_le_pow_right (by norm_num) (by omega)
    obtain ⟨p1, p2, p3⟩ := pow_facts b
    have hroot := capRoot_band b r hr
    rw [← he] at hroot
    have hlt : r < 2 ^ b := by
      by_contra hge
      rw [if_neg hge] at hroot
      unfold isRightVertex at hside
      rw [if_neg (by omega), if_neg (by omega)] at hside
      have e : t + 2 - 2 = t := by omega
      rw [e, hroot] at hside
      simp at hside
    have hb1 : 1 ≤ b := by
      by_contra hb0
      have : b = 0 := by omega
      subst this
      norm_num at hr he
      omega
    have g := h.geom (by omega) b r hlt (by omega)
    rw [← he] at g
    have hmid := g.mid hb1
    obtain ⟨c, rfl⟩ : ∃ c, b = c + 1 := ⟨b - 1, by omega⟩
    have hleft := h.left c r hlt (by have := pow_facts c; omega)
    rw [← he] at hleft
    refine ⟨hleft, ?_, (Real.sqrt_pos.2 hmid).ne'⟩
    by_contra hcon
    push_neg at hcon
    rw [hcon.1, hcon.2] at hmid
    norm_num at hmid

/-- C5, witness at level 2. -/
theorem c5_cap_vertices_on_circle_witness :
    ∃ m, sp_create_geometry Real.sqrt 1 2 (fun _ => ⟨0, 0⟩) (fun _ => ⟨0, 0, 0⟩) = some m
      ∧ m.vertices 0 = ⟨0, -0.5⟩ ∧ m.vertices 1 = ⟨0, 0.5⟩
      ∧ m.vertices 2 = ⟨1, 0.5⟩ ∧ m.vertices 3 = ⟨1, -0.5⟩
      ∧ (∀ i : Nat, 4 ≤ i → i < sp_get_vertex_count 2 →
          Real.sqrt (((m.vertices i).x - (if isRightVertex i then 1 else 0)) ^ 2
            + ((m.vertices i).y - 0) ^ 2) = 0.5) := by
  obtain ⟨m, h1, h2, h3, h4, h5, h6, _⟩ :=
    c5_cap_vertices_on_circle 1 2 (by decide) (by decide) (fun _ => ⟨0, 0⟩) (fun _ => ⟨0, 0, 0⟩)
  exact ⟨m, h1, h2, h3, h4, h5, h6⟩

/-- C5 fails as stated at level 15: the counter wraps, vertex slot 1 is overwritten with the
reflection of what lies before the buffer, and is no longer the quad corner `(0, 0.5)`. -/
theorem c5_counterexample_level_15 :
    ∃ m, sp_create_geometry Real.sqrt 14 15 (fun _ => ⟨0, 0⟩) (fun _ => ⟨0, 0, 0⟩) = some m
      ∧ m.vertices 1 ≠ ⟨0, 0.5⟩ := by
  obtain ⟨m15, h15, _, hv1, _, _⟩ := sp__create_geometry_fifteen Real.sqrt 14 le_rfl
    (fun _ => (⟨0, 0⟩ : sp__Vertex ℝ)) (fun _ => ⟨0, 0, 0⟩)
  refine ⟨m15, h15, ?_⟩
  rw [hv1]
  intro h
  have hx := congrArg sp__Vertex.x h
  simp only [mirror] at hx
  norm_num at hx

/-- C6, as amended: for every level `L ≥ 2` with `sp_get_vertex_count L ≤ 2 ^ 16` and every
round `k` with `1 ≤ k ≤ L - 1`, with `b = 2 + 2 ^ (k + 1)`: the vertex writes number
`b .. b + 2 ^ k - 1` go to the left-cap indices `b .. b + 2 ^ k - 1`, the next `2 ^ k` writes go
to the right-cap indices `b + 2 ^ k .. b + 2 ^ (k + 1) - 1`, and for `j < 2 ^ k` the vertex at
`b + 2 ^ k + j` is exactly `(1 - x, -y)` for the vertex `(x, y)` at `b + j`. -/
theorem c6_mirror_symmetry (fuel L : Nat) (hL : sp_get_vertex_count L ≤ 2 ^ 16)
    (hfuel : L ≤ fuel + 1) (v0 : Int → sp__Vertex ℝ) (t0 : Nat → sp__Triangle) :
    ∃ m, sp_create_geometry Real.sqrt fuel L v0 t0 = some m
      ∧ ∀ k j : Nat, 1 ≤ k → k ≤ L - 1 → j < 2 ^ k →
          isRightVertex (2 + 2 ^ (k + 1) + j) = false
          ∧ isRightVertex (2 + 2 ^ (k + 1) + 2 ^ k + j) = true
          ∧ 2 + 2 ^ (k + 1) + 2 ^ k + j < sp_get_vertex_count L
          ∧ (vertexWrites m.trace)[2 + 2 ^ (k + 1) + j]? = some ((2 + 2 ^ (k + 1) + j : Nat) : Int)
          ∧ (vertexWrites m.trace)[2 + 2 ^ (k + 1) + 2 ^ k + j]?
              = some ((2 + 2 ^ (k + 1) + 2 ^ k + j : Nat) : Int)
          ∧ m.vertices ((2 + 2 ^ (k + 1) + 2 ^ k + j : Nat) : Int)
              = ⟨1 - (m.vertices ((2 + 2 ^ (k + 1) + j : Nat) : Int)).x,
                  -(m.vertices ((2 + 2 ^ (k + 1) + j : Nat) : Int)).y⟩ := by
  obtain ⟨m, hm, hv, h⟩ := sp__create_geometry_real fuel L hL hfuel v0 t0
  have e2 : sp_get_vertex_count L = 2 ^ (L + 1) + 2 := by
    unfold sp_get_vertex_count
    ring
  refine ⟨m, hm, ?_⟩
  intro k j hk1 hkL hj
  obtain ⟨c, rfl⟩ : ∃ c, k = c + 1 := ⟨k - 1, by omega⟩
  have hpow : (2 : Nat) ^ (c + 1 + 2) ≤ 2 ^ (L + 1) :=
    Nat.pow_le_pow_right (by norm_num) (by omega)
  obtain ⟨p1, p2, p3⟩ := pow_facts c
  obtain ⟨q1, q2, q3⟩ := pow_facts (c + 1)
  have hget : ∀ i : Nat, i < 2 ^ (L + 1) + 2 →
      (vertexWrites m.trace)[i]? = some (i : Int) := by
    intro i hi
    rw [hv, List.getElem?_map, List.getElem?_range hi]
    rfl
  have hr1 := capRoot_band (c + 1) j (by omega)
  have hr2 := capRoot_band (c + 1) (2 ^ (c + 1) + j) (by omega)
  rw [if_pos hj] at hr1
  rw [if_neg (by omega)] at hr2
  have hright := h.right c j hj (by omega)
  have el : 2 + 2 ^ (c + 1 + 1) + j = 2 ^ (c + 2) + j + 2 := by omega
  have er : 2 + 2 ^ (c + 1 + 1) + 2 ^ (c + 1) + j = 2 ^ (c + 2) + 2 ^ (c + 1) + j + 2 := by omega
  rw [el, er]
  refine ⟨?_, ?_, by omega, hget _ (by omega), hget _ (by omega), ?_⟩
  · unfold isRightVertex
    rw [if_neg (by omega), if_neg (by omega)]
    have e : 2 ^ (c + 2) + j + 2 - 2 = 2 ^ (c + 1 + 1) + j := by omega
    rw [e, hr1]
    rfl
  · unfold isRightVertex
    rw [if_neg (by omega), if_neg (by omega)]
    have e : 2 ^ (c + 2) + 2 ^ (c + 1) + j + 2 - 2 = 2 ^ (c + 1 + 1) + (2 ^ (c + 1) + j) := by
      omega
    rw [e, hr2]
    rfl
  · rw [hright]
    simp only [mirror]
    congr 1
    norm_num
    ring

/-- C6, witness at level 3, round 2. -/
theorem c6_mirror_symmetry_witness :
    ∃ m, sp_create_geometry Real.sqrt 2 3 (fun _ => ⟨0, 0⟩) (fun _ => ⟨0, 0, 0⟩) = some m
      ∧ ∀ j : Nat, j < 2 ^ 2 →
          m.vertices ((2 + 2 ^ (2 + 1) + 2 ^ 2 + j : Nat) : Int)
              = ⟨1 - (m.vertices ((2 + 2 ^ (2 + 1) + j : Nat) : Int)).x,
                  -(m.vertices ((2 + 2 ^ (2 + 1) + j : Nat) : Int)).y⟩ := by
  obtain ⟨m, h1, h2⟩ :=
    c6_mirror_symmetry 2 3 (by decide) (by decide) (fun _ => ⟨0, 0⟩) (fun _ => ⟨0, 0, 0⟩)
  exact ⟨m, h1, fun j hj => (h2 2 j (by decide) (by decide) hj).2.2.2.2.2⟩

/-- C6 fails as stated at level 15, round 14, `j = 16383`: the right-cap index
`b + 2 ^ k + j = 65537` is not written at all, because the 16-bit counter wrapped. -/
theorem c6_counterexample_level_15 :
    ∃ m, sp_create_geometry Real.sqrt 14 15 (fun _ => ⟨0, 0⟩) (fun _ => ⟨0, 0, 0⟩) = some m
      ∧ (1 ≤ 14 ∧ 14 ≤ 15 - 1 ∧ 16383 < 2 ^ 14)
      ∧ 2 + 2 ^ (14 + 1) + 2 ^ 14 + 16383 = 65537
      ∧ (65537 : Int) ∉ vertexWrites m.trace := by
  obtain ⟨m, hm, hv, _, _⟩ :=
    sp__create_geometry_spec Real.sqrt 14 15 (by decide) (fun _ => ⟨0, 0⟩) (fun _ => ⟨0, 0, 0⟩)
  refine ⟨m, hm, by norm_num, by norm_num, ?_⟩
  rw [hv]
  intro hmem
  obtain ⟨k, _, hk⟩ := List.mem_map.1 hmem
  omega

/-- C7, as amended: in exact real arithmetic, for every level `L` with
`sp_get_vertex_count L ≤ 2 ^ 16` and every triangle `(a, b, c)` produced, the signed area
`cross (v[b] - v[a]) (v[c] - v[a])` is non-zero and has the sign of that of the first quad
triangle `(0, 1, 2)`. -/
theorem c7_consistent_winding (fuel L : Nat) (hL : sp_get_vertex_count L ≤ 2 ^ 16)
    (hfuel : L ≤ fuel + 1) (v0 : Int → sp__Vertex ℝ) (t0 : Nat → sp__Triangle) :
    ∃ m, sp_create_geometry Real.sqrt fuel L v0 t0 = some m
      ∧ m.triangles 0 = ⟨0, 1, 2⟩
      ∧ ∀ t : Nat, t < sp_get_triangle_count L →
          signedArea (m.vertices ((m.triangles t).i0 : Nat)) (m.vertices ((m.triangles t).i1 : Nat))
              (m.vertices ((m.triangles t).i2 : Nat)) ≠ 0
          ∧ 0 < signedArea (m.vertices ((m.triangles t).i0 : Nat))
                  (m.vertices ((m.triangles t).i1 : Nat)) (m.vertices ((m.triangles t).i2 : Nat))
                * signedArea (m.vertices 0) (m.vertices 1) (m.vertices 2) := by
  obtain ⟨m, hm, _, h⟩ := sp__create_geometry_real fuel L hL hfuel v0 t0
  refine ⟨m, hm, h.t_0, ?_⟩
  intro t ht
  have h0 := h.area_neg 0 (by positivity)
  rw [h.t_0] at h0
  simp only [Nat.cast_ofNat, Nat.cast_zero, Nat.cast_one] at h0
  have h1 := h.area_neg t ht
  exact ⟨h1.ne, mul_pos_of_neg_of_neg h1 h0⟩

/-- C7, witness at level 2. -/
theorem c7_consistent_winding_witness :
    ∃ m, sp_create_geometry Real.sqrt 1 2 (fun _ => ⟨0, 0⟩) (fun _ => ⟨0, 0, 0⟩) = some m
      ∧ m.triangles 0 = ⟨0, 1, 2⟩
      ∧ ∀ t : Nat, t < sp_get_triangle_count 2 →
          signedArea (m.vertices ((m.triangles t).i0 : Nat)) (m.vertices ((m.triangles t).i1 : Nat))
              (m.vertices ((m.triangles t).i2 : Nat)) ≠ 0
          ∧ 0 < signedArea (m.vertices ((m.triangles t).i0 : Nat))
                  (m.vertices ((m.triangles t).i1 : Nat)) (m.vertices ((m.triangles t).i2 : Nat))
                * signedArea (m.vertices 0) (m.vertices 1) (m.vertices 2) :=
  c7_consistent_winding 1 2 (by decide) (by decide) _ _

/-- C7 fails as stated at level 15: the wrapped counter overwrites the vertex slots 0 and 1
with reflections of what lies before the buffer; when that is the same value twice, the first
quad triangle `(0, 1, 2)` is degenerate. -/
theorem c7_counterexample_level_15 :
    ∃ m, sp_create_geometry Real.sqrt 14 15 (fun _ => ⟨0, 0⟩) (fun _ => ⟨0, 0, 0⟩) = some m
      ∧ m.triangles 0 = ⟨0, 1, 2⟩
      ∧ signedArea (m.vertices 0) (m.vertices 1) (m.vertices 2) = 0 := by
  obtain ⟨m15, h15, hv0, hv1, _, ht0⟩ := sp__create_geometry_fifteen Real.sqrt 14 le_rfl
    (fun _ => (⟨0, 0⟩ : sp__Vertex ℝ)) (fun _ => ⟨0, 0, 0⟩)
  refine ⟨m15, h15, ht0, ?_⟩
  rw [hv0, hv1]
  unfold signedArea
  ring

/-- Every vertex lies on its own side of the pill: `x ∈ [-0.5, 0]` on the left,
`x ∈ [1, 1.5]` on the right, and `y ∈ [-0.5, 0.5]`. -/
theorem MemInv.vertex_side {v0 : Int → sp__Vertex ℝ} {t0 : Nat → sp__Triangle} {L : Nat}
    {V : Int → sp__Vertex ℝ} {T : Nat → sp__Triangle}
    (h : MemInv Real.sqrt v0 t0 (2 ^ (L + 1)) V T) (i : Nat) (hi : i < 2 ^ (L + 1) + 2) :
    -0.5 ≤ (V i).y ∧ (V i).y ≤ 0.5
      ∧ ((isRightVertex i = false ∧ -0.5 ≤ (V i).x ∧ (V i).x ≤ 0)
        ∨ (isRightVertex i = true ∧ 1 ≤ (V i).x ∧ (V i).x ≤ 1.5)) := by
  rcases Nat.lt_or_ge i 4 with h4 | h4
  · have : i = 0 ∨ i = 1 ∨ i = 2 ∨ i = 3 := by omega
    rcases this with rfl | rfl | rfl | rfl
    · have := h.v_0
      simp only [Nat.cast_zero, this]
      refine ⟨by norm_num, by norm_num, Or.inl ⟨by decide, by norm_num, by norm_num⟩⟩
    · have := h.v_1
      simp only [Nat.cast_one, this]
      refine ⟨by norm_num, by norm_num, Or.inl ⟨by decide, by norm_num, by norm_num⟩⟩
    · have := h.v_2
      simp only [Nat.cast_ofNat, this]
      refine ⟨by norm_num, by norm_num, Or.inr ⟨by decide, by norm_num, by norm_num⟩⟩
    · have := h.v_3
      simp only [Nat.cast_ofNat, this]
      refine ⟨by norm_num, by norm_num, Or.inr ⟨by decide, by norm_num, by norm_num⟩⟩
  · rcases h.vertex_on_cap i h4 hi with ⟨hs, hc, hx⟩ | ⟨hs, hc, hx⟩
    · generalize V (i : Int) = p at hc hx ⊢
      refine ⟨?_, ?_, Or.inl ⟨hs, ?_, hx⟩⟩
      · norm_num; nlinarith [mul_self_nonneg p.x]
      · norm_num; nlinarith [mul_self_nonneg p.x]
      · norm_num; nlinarith [mul_self_nonneg p.y]
    · generalize V (i : Int) = p at hc hx ⊢
      refine ⟨?_, ?_, Or.inr ⟨hs, hx, ?_⟩⟩
      · norm_num; nlinarith [mul_self_nonneg (p.x - 1)]
      · norm_num; nlinarith [mul_self_nonneg (p.x - 1)]
      · norm_num; nlinarith [mul_self_nonneg p.y]

theorem packVertex_left (v : sp__Vertex ℝ) (h1 : -0.5 ≤ v.x) (h2 : v.x ≤ 0) :
    ∃ p, packVertex v = some p ∧ p.x = sp__to_snorm_16 (v.x - 0.5) ∧ p.y = sp__to_snorm_16 v.y
      ∧ -32767 ≤ p.x ∧ p.x ≤ -16384 := by
  have hb : -32767 ≤ sp__to_snorm_16 (v.x - 0.5) ∧ sp__to_snorm_16 (v.x - 0.5) ≤ -16384 := by
    norm_num at h1
    rw [sp__to_snorm_16_eq, max_eq_left (by norm_num; linarith),
      min_eq_left (by norm_num; linarith)]
    apply roundf_between_neg <;> norm_num <;> linarith
  refine ⟨⟨sp__to_snorm_16 (v.x - 0.5), sp__to_snorm_16 v.y⟩, ?_, rfl, rfl, hb.1, hb.2⟩
  rw [packVertex_eq, if_pos (by omega)]

theorem packVertex_right (v : sp__Vertex ℝ) (h1 : 1 ≤ v.x) (h2 : v.x ≤ 1.5) :
    ∃ p, packVertex v = some p ∧ p.x = sp__to_snorm_16 (v.x - 0.5) ∧ p.y = sp__to_snorm_16 v.y
      ∧ 16384 ≤ p.x ∧ p.x ≤ 32767 := by
  have hb : 16384 ≤ sp__to_snorm_16 (v.x - 0.5) ∧ sp__to_snorm_16 (v.x - 0.5) ≤ 32767 := by
    norm_num at h2
    rw [sp__to_snorm_16_eq, max_eq_left (by norm_num; linarith),
      min_eq_left (by norm_num; linarith)]
    apply roundf_between_pos <;> norm_num <;> linarith
  refine ⟨⟨sp__to_snorm_16 (v.x - 0.5), sp__to_snorm_16 v.y⟩, ?_, rfl, rfl, hb.1, hb.2⟩
  rw [packVertex_eq, if_pos (by omega)]

/-- C8, as amended: the packed X of an input vertex `(x, y)` is zero, and the assertion
`xn != 0` fails, exactly when `|x - 0.5| < 1 / 65534`; in particular the assertion holds for
every vertex with `x ≤ 0` or `x ≥ 1`, as all vertices of the generator are. -/
theorem c8_packed_x_nonzero (v : sp__Vertex ℝ) :
    (packVertex v = none ↔ |v.x - 0.5| < 1 / 65534)
      ∧ (∀ p, packVertex v = some p → p.x ≠ 0)
      ∧ (v.x ≤ 0 ∨ 1 ≤ v.x → ∃ p, packVertex v = some p ∧ p.x ≠ 0) := by
  have key : packVertex v = none ↔ |v.x - 0.5| < 1 / 65534 := by
    rw [packVertex_eq, ← sp__to_snorm_16_eq_zero_iff]
    by_cases h : sp__to_snorm_16 (v.x - 0.5) = 0
    · simp [h]
    · simp [h]
  refine ⟨key, ?_, ?_⟩
  · intro p hp
    rw [packVertex_eq] at hp
    by_cases h : sp__to_snorm_16 (v.x - 0.5) = 0
    · simp [h] at hp
    · simp only [ne_eq, h, not_false_eq_true, if_true, Option.some.injEq] at hp
      rw [← hp]
      exact h
  · intro hx
    have hne : packVertex v ≠ none := by
      rw [ne_eq, key, not_lt]
      norm_num
      rcases hx with hx | hx
      · rw [abs_of_nonpos (by linarith)]; linarith
      · rw [abs_of_nonneg (by linarith)]; linarith
    obtain ⟨p, hp⟩ := Option.ne_none_iff_exists'.1 hne
    refine ⟨p, hp, ?_⟩
    rw [packVertex_eq] at hp
    by_cases h : sp__to_snorm_16 (v.x - 0.5) = 0
    · simp [h] at hp
    · simp only [ne_eq, h, not_false_eq_true, if_true, Option.some.injEq] at hp
      rw [← hp]
      exact h

/-- C8 fails as stated for the input vertex `(0.5, 0)`: `x < 1`, so `z = -0.5`, the packed X
is `to_snorm_16 (0.5 + -0.5) = 0`, and `sp_pack_vertices` stops at its assertion. -/
theorem c8_counterexample_half :
    sp__to_snorm_16 ((0.5 : ℝ) + -0.5) = 0
      ∧ sp_pack_vertices 1 (fun _ => (⟨0.5, 0⟩ : sp__Vertex ℝ)) (fun _ => ⟨0, 0⟩) = none := by
  have h0 : sp__to_snorm_16 ((0.5 : ℝ) - 0.5) = 0 := by
    rw [sp__to_snorm_16_eq_zero_iff]; norm_num
  constructor
  · have : (0.5 : ℝ) + -0.5 = 0.5 - 0.5 := by ring
    rw [this, h0]
  · have hp : packVertex (⟨0.5, 0⟩ : sp__Vertex ℝ) = none := by
      rw [packVertex_eq, if_neg (not_not.2 h0)]
    unfold sp_pack_vertices sp__pack_vertices
    rw [forLoop_succ, forLoop_zero]
    simp [hp]

/-- Packing the vertices of the generator: every assertion holds, and the packed X lies in the
range of the side of the vertex. -/
theorem MemInv.packed {v0 : Int → sp__Vertex ℝ} {t0 : Nat → sp__Triangle} {L : Nat}
    {V : Int → sp__Vertex ℝ} {T : Nat → sp__Triangle}
    (h : MemInv Real.sqrt v0 t0 (2 ^ (L + 1)) V T) (out : Nat → sp__PackedVertex) :
    ∃ packed, sp_pack_vertices (2 ^ (L + 1) + 2) V out = some packed
      ∧ ∀ i : Nat, i < 2 ^ (L + 1) + 2 →
          (packed i).x = sp__to_snorm_16 ((V i).x - 0.5)
          ∧ (packed i).y = sp__to_snorm_16 (V i).y
          ∧ (isRightVertex i = false → -32767 ≤ (packed i).x ∧ (packed i).x ≤ -16384)
          ∧ (isRightVertex i = true → 16384 ≤ (packed i).x ∧ (packed i).x ≤ 32767) := by
  have hall : ∀ i : Nat, i < 2 ^ (L + 1) + 2 →
      packVertex (V i)
          = some ⟨sp__to_snorm_16 ((V i).x - 0.5), sp__to_snorm_16 (V i).y⟩
        ∧ (isRightVertex i = false → -32767 ≤ sp__to_snorm_16 ((V i).x - 0.5)
            ∧ sp__to_snorm_16 ((V i).x - 0.5) ≤ -16384)
        ∧ (isRightVertex i = true → 16384 ≤ sp__to_snorm_16 ((V i).x - 0.5)
            ∧ sp__to_snorm_16 ((V i).x - 0.5) ≤ 32767) := by
    intro i hi
    obtain ⟨_, _, hside⟩ := h.vertex_side i hi
    rcases hside with ⟨hs, h1, h2⟩ | ⟨hs, h1, h2⟩
    · obtain ⟨p, hp, px, py, b1, b2⟩ := packVertex_left (V i) h1 h2
      refine ⟨?_, fun _ => ?_, fun hr => ?_⟩
      · rw [hp, ← px, ← py]
      · rw [← px]; exact ⟨b1, b2⟩
      · rw [hs] at hr; exact absurd hr (by decide)
    · obtain ⟨p, hp, px, py, b1, b2⟩ := packVertex_right (V i) h1 h2
      refine ⟨?_, fun hl => ?_, fun _ => ?_⟩
      · rw [hp, ← px, ← py]
      · rw [hs] at hl; exact absurd hl (by decide)
      · rw [← px]; exact ⟨b1, b2⟩
  obtain ⟨packed, hp, hq, _⟩ := sp__pack_vertices_of_all (2 ^ (L + 1) + 2) V out
    (fun i => ⟨sp__to_snorm_16 ((V i).x - 0.5), sp__to_snorm_16 (V i).y⟩)
    (fun i hi => (hall i hi).1)
  refine ⟨packed, hp, fun i hi => ?_⟩
  rw [hq i hi]
  exact ⟨rfl, rfl, (hall i hi).2.1, (hall i hi).2.2⟩

theorem isRightVertex_small :
    isRightVertex 0 = false ∧ isRightVertex 1 = false ∧ isRightVertex 2 = true
      ∧ isRightVertex 3 = true ∧ isRightVertex 4 = false ∧ isRightVertex 5 = true := by
  refine ⟨by decide, by decide, by decide, by decide, ?_, ?_⟩
  · unfold isRightVertex
    rw [if_neg (by norm_num), if_neg (by norm_num), capRoot_lt _ (by norm_num)]
    rfl
  · unfold isRightVertex
    rw [if_neg (by norm_num), if_neg (by norm_num), capRoot_lt _ (by norm_num)]
    rfl

/-- C9, as amended: in exact real arithmetic, for every level `L` with
`sp_get_vertex_count L ≤ 2 ^ 16` and every vertex produced: left-side vertices (indices 0, 1, 4
and all left-cap vertices) have `x ∈ [-0.5, 0]`, right-side vertices (indices 2, 3, 5 and all
right-cap vertices) have `x ∈ [1, 1.5]`, all have `y ∈ [-0.5, 0.5]`; `sp_pack_vertices` passes
every assertion and gives a left-side vertex a packed X in `[-32767, -16384]` and a right-side
vertex a packed X in `[16384, 32767]`. -/
theorem c9_sides_and_packed_ranges (fuel L : Nat) (hL : sp_get_vertex_count L ≤ 2 ^ 16)
    (hfuel : L ≤ fuel + 1) (v0 : Int → sp__Vertex ℝ) (t0 : Nat → sp__Triangle)
    (out : Nat → sp__PackedVertex) :
    ∃ m, sp_create_geometry Real.sqrt fuel L v0 t0 = some m
      ∧ (isRightVertex 0 = false ∧ isRightVertex 1 = false ∧ isRightVertex 2 = true
          ∧ isRightVertex 3 = true ∧ isRightVertex 4 = false ∧ isRightVertex 5 = true)
      ∧ (∀ i : Nat, i < sp_get_vertex_count L →
          -0.5 ≤ (m.vertices i).y ∧ (m.vertices i).y ≤ 0.5
          ∧ (isRightVertex i = false → -0.5 ≤ (m.vertices i).x ∧ (m.vertices i).x ≤ 0)
          ∧ (isRightVertex i = true → 1 ≤ (m.vertices i).x ∧ (m.vertices i).x ≤ 1.5))
      ∧ ∃ packed, sp_pack_vertices (sp_get_vertex_count L) m.vertices out = some packed
          ∧ ∀ i : Nat, i < sp_get_vertex_count L →
              (packed i).x ≠ 0
              ∧ (isRightVertex i = false → -32767 ≤ (packed i).x ∧ (packed i).x ≤ -16384)
              ∧ (isRightVertex i = true → 16384 ≤ (packed i).x ∧ (packed i).x ≤ 32767) := by
  obtain ⟨m, hm, _, h⟩ := sp__create_geometry_real fuel L hL hfuel v0 t0
  have e2 : sp_get_vertex_count L = 2 ^ (L + 1) + 2 := by
    unfold sp_get_vertex_count
    ring
  rw [e2]
  refine ⟨m, hm, isRightVertex_small, ?_, ?_⟩
  · intro i hi
    obtain ⟨y1, y2, hside⟩ := h.vertex_side i hi
    refine ⟨y1, y2, fun hl => ?_, fun hr => ?_⟩
    · rcases hside with ⟨_, h1, h2⟩ | ⟨hs, _, _⟩
      · exact ⟨h1, h2⟩
      · rw [hs] at hl; exact absurd hl (by decide)
    · rcases hside with ⟨hs, _, _⟩ | ⟨_, h1, h2⟩
      · rw [hs] at hr; exact absurd hr (by decide)
      · exact ⟨h1, h2⟩
  · obtain ⟨packed, hp, hq⟩ := h.packed out
    refine ⟨packed, hp, fun i hi => ?_⟩
    obtain ⟨_, _, hl, hr⟩ := hq i hi
    refine ⟨?_, hl, hr⟩
    cases hs : isRightVertex i
    · have := hl hs; omega
    · have := hr hs; omega

/-- C9, witness at level 2. -/
theorem c9_sides_and_packed_ranges_witness :
    ∃ m, sp_create_geometry Real.sqrt 1 2 (fun _ => ⟨0, 0⟩) (fun _ => ⟨0, 0, 0⟩) = some m
      ∧ ∃ packed, sp_pack_vertices (sp_get_vertex_count 2) m.vertices (fun _ => ⟨0, 0⟩)
            = some packed
          ∧ ∀ i : Nat, i < sp_get_vertex_count 2 →
              (packed i).x ≠ 0
              ∧ (isRightVertex i = false → -32767 ≤ (packed i).x ∧ (packed i).x ≤ -16384)
              ∧ (isRightVertex i = true → 16384 ≤ (packed i).x ∧ (packed i).x ≤ 32767) := by
  obtain ⟨m, h1, _, _, h2⟩ := c9_sides_and_packed_ranges 1 2 (by decide) (by decide)
    (fun _ => ⟨0, 0⟩) (fun _ => ⟨0, 0, 0⟩) (fun _ => ⟨0, 0⟩)
  exact ⟨m, h1, h2⟩

/-- C9 fails as stated at level 15: vertex 1 is a left-side vertex, but the wrapped counter
overwrites it with a reflected vertex whose `x` is 1. -/
theorem c9_counterexample_level_15 :
    ∃ m, sp_create_geometry Real.sqrt 14 15 (fun _ => ⟨0, 0⟩) (fun _ => ⟨0, 0, 0⟩) = some m
      ∧ 1 < sp_get_vertex_count 15 ∧ isRightVertex 1 = false ∧ ¬ (m.vertices 1).x ≤ 0 := by
  obtain ⟨m15, h15, _, hv1, _, _⟩ := sp__create_geometry_fifteen Real.sqrt 14 le_rfl
    (fun _ => (⟨0, 0⟩ : sp__Vertex ℝ)) (fun _ => ⟨0, 0, 0⟩)
  refine ⟨m15, h15, by decide, by decide, ?_⟩
  rw [hv1]
  simp only [mirror]
  norm_num

/-- C10, as amended: in exact real arithmetic, for every level `L` with
`sp_get_vertex_count L ≤ 2 ^ 16` and every vertex `(x, y)` produced, with packed result
`(xn, yn)`: the face decoded as right iff `xn > 0` is the side of the vertex, and
`x' = xn / 32767 - 0.5 + 1` (right) or `x' = xn / 32767 + 0.5` (left), `y' = yn / 32767`
satisfy `|x' - x| ≤ 1 / 32767` and `|y' - y| ≤ 1 / 32767`. -/
theorem c10_packing_round_trip (fuel L : Nat) (hL : sp_get_vertex_count L ≤ 2 ^ 16)
    (hfuel : L ≤ fuel + 1) (v0 : Int → sp__Vertex ℝ) (t0 : Nat → sp__Triangle)
    (out : Nat → sp__PackedVertex) :
    ∃ m, sp_create_geometry Real.sqrt fuel L v0 t0 = some m
      ∧ ∃ packed, sp_pack_vertices (sp_get_vertex_count L) m.vertices out = some packed
          ∧ ∀ i : Nat, i < sp_get_vertex_count L →
              (0 < (packed i).x ↔ isRightVertex i = true)
              ∧ |(if 0 < (packed i).x then ((packed i).x : ℝ) / 32767 - 0.5 + 1
                    else ((packed i).x : ℝ) / 32767 + 0.5) - (m.vertices i).x| ≤ 1 / 32767
              ∧ |((packed i).y : ℝ) / 32767 - (m.vertices i).y| ≤ 1 / 32767 := by
  obtain ⟨m, hm, _, h⟩ := sp__create_geometry_real fuel L hL hfuel v0 t0
  have e2 : sp_get_vertex_count L = 2 ^ (L + 1) + 2 := by
    unfold sp_get_vertex_count
    ring
  rw [e2]
  obtain ⟨packed, hp, hq⟩ := h.packed out
  refine ⟨m, hm, packed, hp, fun i hi => ?_⟩
  obtain ⟨px, py, hl, hr⟩ := hq i hi
  obtain ⟨y1, y2, hside⟩ := h.vertex_side i hi
  norm_num at y1 y2
  have hy := sp__to_snorm_16_near (m.vertices i).y (by linarith) (by linarith)
  rw [← py] at hy
  have hyb : |((packed i).y : ℝ) / 32767 - (m.vertices i).y| ≤ 1 / 32767 :=
    hy.trans (by norm_num)
  rcases hside with ⟨hs, h1, h2⟩ | ⟨hs, h1, h2⟩
  · have hb := hl hs
    norm_num at h1
    have hx := sp__to_snorm_16_near ((m.vertices i).x - 0.5) (by norm_num; linarith)
      (by norm_num; linarith)
    rw [← px] at hx
    refine ⟨⟨fun hpos => by omega, fun hr' => by rw [hs] at hr'; exact absurd hr' (by decide)⟩,
      ?_, hyb⟩
    rw [if_neg (by omega)]
    have e : ((packed i).x : ℝ) / 32767 + 0.5 - (m.vertices i).x
        = ((packed i).x : ℝ) / 32767 - ((m.vertices i).x - 0.5) := by ring
    rw [e]
    exact hx.trans (by norm_num)
  · have hb := hr hs
    norm_num at h2
    have hx := sp__to_snorm_16_near ((m.vertices i).x - 0.5) (by norm_num; linarith)
      (by norm_num; linarith)
    rw [← px] at hx
    refine ⟨⟨fun _ => hs, fun _ => by omega⟩, ?_, hyb⟩
    rw [if_pos (by omega)]
    have e : ((packed i).x : ℝ) / 32767 - 0.5 + 1 - (m.vertices i).x
        = ((packed i).x : ℝ) / 32767 - ((m.vertices i).x - 0.5) := by norm_num; ring
    rw [e]
    exact hx.trans (by norm_num)

/-- C10, witness at level 2. -/
theorem c10_packing_round_trip_witness :
    ∃ m, sp_create_geometry Real.sqrt 1 2 (fun _ => ⟨0, 0⟩) (fun _ => ⟨0, 0, 0⟩) = some m
      ∧ ∃ packed, sp_pack_vertices (sp_get_vertex_count 2) m.vertices (fun _ => ⟨0, 0⟩)
            = some packed
          ∧ ∀ i : Nat, i < sp_get_vertex_count 2 →
              (0 < (packed i).x ↔ isRightVertex i = true)
              ∧ |(if 0 < (packed i).x then ((packed i).x : ℝ) / 32767 - 0.5 + 1
                    else ((packed i).x : ℝ) / 32767 + 0.5) - (m.vertices i).x| ≤ 1 / 32767
              ∧ |((packed i).y : ℝ) / 32767 - (m.vertices i).y| ≤ 1 / 32767 :=
  c10_packing_round_trip 1 2 (by decide) (by decide) _ _ _

/-- C10 fails as stated at level 15: when the memory before the vertex buffer holds `(-4, 0)`,
the wrapped counter leaves `(5, 0)` in vertex slot 1; it packs to `xn = 32767` and decodes to
`x' = 1.5`. -/
theorem c10_counterexample_level_15 :
    ∃ m p, sp_create_geometry Real.sqrt 14 15 (fun _ => ⟨-4, 0⟩) (fun _ => ⟨0, 0, 0⟩) = some m
      ∧ 1 < sp_get_vertex_count 15
      ∧ packVertex (m.vertices 1) = some p
      ∧ ¬ |(if 0 < p.x then (p.x : ℝ) / 32767 - 0.5 + 1 else (p.x : ℝ) / 32767 + 0.5)
            - (m.vertices 1).x| ≤ 1 / 32767 := by
  obtain ⟨m15, h15, _, hv1, _, _⟩ := sp__create_geometry_fifteen Real.sqrt 14 le_rfl
    (fun _ => (⟨-4, 0⟩ : sp__Vertex ℝ)) (fun _ => ⟨0, 0, 0⟩)
  have hx : (mirror (⟨-4, 0⟩ : sp__Vertex ℝ)).x = 5 := by
    simp only [mirror]; norm_num
  have hs : sp__to_snorm_16 ((5 : ℝ) - 0.5) = 32767 := by
    rw [sp__to_snorm_16_eq, max_eq_left (by norm_num), min_eq_right (by norm_num)]
    have := roundf_between_pos (1 * 32767) 32767 32767 (by norm_num) (by norm_num)
      (by norm_num)
    omega
  refine ⟨m15, ⟨32767, sp__to_snorm_16 (mirror (⟨-4, 0⟩ : sp__Vertex ℝ)).y⟩, h15, by decide,
    ?_, ?_⟩
  · rw [hv1, packVertex_eq, hx, hs, if_pos (by norm_num)]
  · rw [hv1, hx]
    have e : (if 0 < (32767 : Int) then ((32767 : Int) : ℝ) / 32767 - 0.5 + 1
        else ((32767 : Int) : ℝ) / 32767 + 0.5) - 5 = -(7 / 2) := by norm_num
    show ¬ |(if 0 < (32767 : Int) then ((32767 : Int) : ℝ) / 32767 - 0.5 + 1
        else ((32767 : Int) : ℝ) / 32767 + 0.5) - 5| ≤ 1 / 32767
    rw [e, abs_neg, abs_of_pos (by norm_num)]
    norm_num

end Claims

/-! ## The claims about termination, wraparound, reads and re-projection -/

section Control

variable {F : Type} [Field F]

/-- With fewer passes allowed than rounds are left, the subdivision loop does not leave. -/
theorem subdivisionLoop_none {sqrtf : F → F} {v0 : Int → sp__Vertex F} {t0 : Nat → sp__Triangle}
    (L : Nat) : ∀ (fuel c : Nat) (s : State F), Locals c s → RunInv sqrtf v0 t0 (2 ^ (c + 2)) s →
      fuel + (c + 1) < L → subdivisionLoop sqrtf L fuel s = none := by
  intro fuel
  induction fuel with
  | zero =>
    intro c s _ _ _
    rfl
  | succ f ih =>
    intro c s hL hI hlt
    have hr := round_inv c s hL hI
    have ha := advance_inv c _ hr.1 hr.2
    rw [← ih (c + 1) _ ha.1 ha.2 (by omega)]
    conv_lhs => unfold subdivisionLoop
    simp only [hr.1.sub]
    rw [if_neg (by omega)]

/-- The generator returns exactly when at least `_subdivision_count - 1` passes of the
subdivision loop are allowed (none are needed for the levels 0 and 1). -/
theorem sp__create_geometry_isSome (sqrtf : F → F) (fuel L : Nat) (v0 : Int → sp__Vertex F)
    (t0 : Nat → sp__Triangle) :
    (sp__create_geometry sqrtf fuel L v0 t0).isSome = true ↔ L ≤ fuel + 1 := by
  constructor
  · intro h
    by_contra hlt
    have h2 : 2 ≤ L := by omega
    obtain ⟨h1, h3⟩ := loopEntry_inv sqrtf v0 t0
    have hn := subdivisionLoop_none L fuel 0 (loopEntry v0 t0) h1 h3 (by omega)
    rw [sp__create_geometry_loop sqrtf fuel L h2, hn] at h
    simp at h
  · intro h
    obtain ⟨m, hm, _⟩ := sp__create_geometry_spec sqrtf fuel L h v0 t0
    rw [hm]
    rfl

/-- Level 15, the last triangle: its middle index is the wrapped counter value 1, and the
vertex stored there is the reflection of what lies before the buffer. -/
theorem sp__create_geometry_fifteen_last (sqrtf : F → F) (fuel : Nat) (hfuel : 14 ≤ fuel)
    (v0 : Int → sp__Vertex F) (t0 : Nat → sp__Triangle) :
    ∃ m, sp__create_geometry sqrtf fuel 15 v0 t0 = some m
      ∧ m.vertices 1 = mirror (v0 (-16383)) ∧ (m.triangles 65535).i1 = 1 := by
  obtain ⟨sLast, g1, g2, g3⟩ :=
    sp__create_geometry_last sqrtf fuel 15 (by omega) (by omega) v0 t0
  have g1' : Locals 13 sLast := g1
  have g2' : RunInv sqrtf v0 t0 (2 ^ (13 + 2)) sLast := g2
  have h1 := leftLoop_inv 13 sLast g1' g2' (2 ^ (13 + 1)) le_rfl
  rw [← leftLoop_eq sqrtf 13 sLast g1'] at h1
  have h2 := rightLoop_inv 13 _ h1.1 h1.2 (2 * 8191) (by norm_num)
  have hsplit := rightLoop_last_two 13 _ h1.1 8191 (by norm_num)
  refine ⟨_, g3, ?_⟩
  rw [hsplit]
  generalize forLoop (2 * 8191) (fun i s1 => rightStep (i / 2) (i % 2) s1) (leftLoop sqrtf sLast)
    = s2 at h2
  obtain ⟨hl, hr⟩ := h2
  have hn : (2 : Nat) ^ (13 + 2) + 2 ^ (13 + 1) + 2 * 8191 = 65534 := by norm_num
  rw [hn] at hr
  have hm := hr.mem (by norm_num)
  have hnvi : s2.next_vertex_index = 0 := by rw [hr.nvi]; norm_num
  have htc : s2.triangle_count = 8192 := by rw [hl.tc]; norm_num
  have hnext : s2.next_triangles = 32768 := by rw [hl.next]; norm_num
  have f2 := hm.frameV (-16383) (by omega)
  have hnvi1 : (rightStep 8191 0 s2).next_vertex_index = 1 := by
    rw [rightStep_next_vertex_index, hnvi]; norm_num
  refine ⟨?_, ?_⟩
  · rw [rightStep_vertices, hnvi1, if_pos (by norm_num), rightStep_triangle_count,
      rightStep_vertices, hnvi, htc, if_neg (by norm_num)]
    have hsrc : (((1 : Nat) : Int)) - ((8192 : Nat) : Int) * 2 = -16383 := by norm_num
    rw [hsrc, f2]
  · have hslot : (32768 : Nat) + ((8192 + 8191) * 2 + 1) = 65535 := by norm_num
    rw [rightStep_triangles, rightStep_next_triangles, rightStep_triangle_count, hnext, htc,
      hslot, if_pos rfl, hnvi1]

/-- C18, as amended: every level `L` with `0 ≤ L ≤ 14` is within the 16-bit index limit:
`sp_get_vertex_count L ≤ 65536`, and the counter of `sp_create_geometry(L)` never wraps: the
vertex slots it addresses are `0, 1, ..., sp_get_vertex_count L - 1` in this order, and the
index it stores in triangle slot `t ≥ 2` is `t + 2`. -/
theorem c18_levels_within_16_bits {F : Type} [Field F] (sqrtf : F → F) (fuel L : Nat)
    (hL : L ≤ 14) (hfuel : L ≤ fuel + 1) (v0 : Int → sp__Vertex F) (t0 : Nat → sp__Triangle) :
    sp_get_vertex_count L ≤ 65536
      ∧ ∃ m, sp_create_geometry sqrtf fuel L v0 t0 = some m
          ∧ vertexWrites m.trace
              = (List.range (sp_get_vertex_count L)).map (fun k : Nat => (k : Int))
          ∧ ∀ t, 2 ≤ t → t < sp_get_triangle_count L → (m.triangles t).i1 = t + 2 := by
  have hpow : (2 : Nat) ^ L ≤ 2 ^ 14 := Nat.pow_le_pow_right (by norm_num) hL
  have hv : sp_get_vertex_count L ≤ 2 ^ 16 := by
    unfold sp_get_vertex_count
    omega
  obtain ⟨m, hm, hw, _, hmem⟩ := sp__create_geometry_spec sqrtf fuel L hfuel v0 t0
  refine ⟨hv, m, hm, ?_, fun t h2 ht => ((hmem hv).bound t h2 ht).2.1⟩
  rw [hw, map_mod_range _ hv]

/-- C18, witness at level 14. -/
theorem c18_levels_within_16_bits_witness :
    sp_get_vertex_count 14 ≤ 65536
      ∧ ∃ m, sp_create_geometry Real.sqrt 13 14 (fun _ => ⟨0, 0⟩) (fun _ => ⟨0, 0, 0⟩) = some m
          ∧ vertexWrites m.trace
              = (List.range (sp_get_vertex_count 14)).map (fun k : Nat => (k : Int))
          ∧ ∀ t, 2 ≤ t → t < sp_get_triangle_count 14 → (m.triangles t).i1 = t + 2 :=
  c18_levels_within_16_bits Real.sqrt 13 14 (by decide) (by decide) _ _

/-- C18 fails as stated at level 15: `sp_get_vertex_count 15 = 65538` exceeds 65536, and the
counter wraps: the last triangle, slot 65535, stores the index 1 instead of 65537. -/
theorem c18_counterexample_level_15 :
    sp_get_vertex_count 15 = 65538 ∧ ¬ sp_get_vertex_count 15 ≤ 65536
      ∧ ∃ m, sp_create_geometry Real.sqrt 14 15 (fun _ => ⟨0, 0⟩) (fun _ => ⟨0, 0, 0⟩) = some m
          ∧ 65535 < sp_get_triangle_count 15 ∧ (m.triangles 65535).i1 = 1 := by
  obtain ⟨m, hm, _, ht⟩ := sp__create_geometry_fifteen_last Real.sqrt 14 le_rfl
    (fun _ => (⟨0, 0⟩ : sp__Vertex ℝ)) (fun _ => ⟨0, 0, 0⟩)
  exact ⟨by decide, by decide, m, hm, by decide, ht⟩

theorem readsWritten_append (l1 l2 : List Access) : ∀ (vs : List Int) (ts : List Nat),
    readsWritten vs ts (l1 ++ l2)
      = (readsWritten vs ts l1
          && readsWritten ((vertexWrites l1).reverse ++ vs) ((triangleWrites l1).reverse ++ ts)
              l2) := by
  induction l1 with
  | nil =>
    intro vs ts
    simp [readsWritten, vertexWrites, triangleWrites]
  | cons a l ih =>
    intro vs ts
    cases a <;>
      simp [readsWritten, vertexWrites, triangleWrites, ih, Bool.and_assoc]

theorem mem_vertexWrites_of_lt {tr : List Access} {k : Nat}
    (hv : vertexWrites tr = (List.range k).map (fun i => ((i % 2 ^ 16 : Nat) : Int)))
    (i : Nat) (hi : i < k) (hk : k ≤ 2 ^ 16) : (i : Int) ∈ vertexWrites tr := by
  rw [hv]
  refine List.mem_map.2 ⟨i, List.mem_range.2 hi, ?_⟩
  rw [Nat.mod_eq_of_lt (by omega)]

/-- Without wraparound, a pass of the left innermost body reads only written slots. -/
theorem leftStep_reads {sqrtf : F → F} {v0 : Int → sp__Vertex F} {t0 : Nat → sp__Triangle}
    (c j : Nat) (s : State F) (hj : j < 2 ^ (c + 1))
    (hL : Locals c s) (hI : RunInv sqrtf v0 t0 (2 ^ (c + 2) + j) s)
    (hb : 2 ^ (c + 2) + j + 2 < 2 ^ 16) (hr : readsWritten [] [] s.mem.trace = true) :
    readsWritten [] [] (leftStep sqrtf (j / 2) (j % 2) s).mem.trace = true := by
  obtain ⟨p1, p2, p3⟩ := pow_facts c
  have hm := hI.mem (by omega)
  have hp := hm.bound ((2 ^ (c + 2) + j) / 2) (by omega) (by omega)
  have e1 : 2 ^ (c + 1) + j / 2 = (2 ^ (c + 2) + j) / 2 := by omega
  have hidx := idx_cases (s.mem.triangles ((2 ^ (c + 2) + j) / 2)) (j % 2) (by omega)
  have hlt : (s.mem.triangles ((2 ^ (c + 2) + j) / 2)).i (j % 2) < 2 ^ (c + 2) + j + 2
      ∧ (s.mem.triangles ((2 ^ (c + 2) + j) / 2)).i (j % 2 + 1) < 2 ^ (c + 2) + j + 2 := by
    rcases hidx with ⟨_, a1, a2⟩ | ⟨_, a1, a2⟩
    · rw [a1, a2]; omega
    · rw [a1, a2]; omega
  have m0 := mem_vertexWrites_of_lt hI.vw _ hlt.1 (by omega)
  have m1 := mem_vertexWrites_of_lt hI.vw _ hlt.2 (by omega)
  have mt : (2 ^ (c + 2) + j) / 2 ∈ triangleWrites s.mem.trace := by
    rw [hI.tw]; exact List.mem_range.2 (by omega)
  have htr : (leftStep sqrtf (j / 2) (j % 2) s).mem.trace
      = s.mem.trace ++ [Access.readTriangle ((2 ^ (c + 2) + j) / 2),
          Access.readTriangle ((2 ^ (c + 2) + j) / 2),
          Access.writeTriangle (s.next_triangles + (j / 2 * 2 + j % 2)),
          Access.readVertex
            ((s.mem.triangles ((2 ^ (c + 2) + j) / 2)).i (j % 2) : Nat),
          Access.readVertex
            ((s.mem.triangles ((2 ^ (c + 2) + j) / 2)).i (j % 2 + 1) : Nat),
          Access.writeVertex s.next_vertex_index] := by
    simp only [leftStep, Buffers.writeVertex, Buffers.writeTriangle, Buffers.note, hL.prev, e1,
      Nat.add_zero, List.append_assoc, List.singleton_append]
    rfl
  rw [htr, readsWritten_append, hr]
  simp only [readsWritten, List.append_nil, List.mem_reverse, mt, m0, m1, decide_True,
    Bool.and_self]

/-- Without wraparound, a pass of the right innermost body reads only written slots. -/
theorem rightStep_reads {sqrtf : F → F} {v0 : Int → sp__Vertex F} {t0 : Nat → sp__Triangle}
    (c j : Nat) (s : State F) (hj : j < 2 ^ (c + 1))
    (hL : Locals c s) (hI : RunInv sqrtf v0 t0 (2 ^ (c + 2) + 2 ^ (c + 1) + j) s)
    (hb : 2 ^ (c + 2) + 2 ^ (c + 1) + j + 2 < 2 ^ 16)
    (hr : readsWritten [] [] s.mem.trace = true) :
    readsWritten [] [] (rightStep (j / 2) (j % 2) s).mem.trace = true := by
  obtain ⟨p1, p2, p3⟩ := pow_facts c
  have e1 : 2 ^ (c + 1) + (2 ^ c + j / 2) = (2 ^ (c + 2) + 2 ^ (c + 1) + j) / 2 := by omega
  have hnvi : s.next_vertex_index = 2 ^ (c + 2) + 2 ^ (c + 1) + j + 2 := by
    rw [hI.nvi]; omega
  have hsrc : ((2 ^ (c + 2) + 2 ^ (c + 1) + j + 2 : Nat) : Int) - ((2 ^ c : Nat) : Int) * 2
      = ((2 ^ (c + 2) + j + 2 : Nat) : Int) := by
    push_cast
    ring
  have m0 := mem_vertexWrites_of_lt hI.vw (2 ^ (c + 2) + j + 2) (by omega) (by omega)
  have mt : (2 ^ (c + 2) + 2 ^ (c + 1) + j) / 2 ∈ triangleWrites s.mem.trace := by
    rw [hI.tw]; exact List.mem_range.2 (by omega)
  have htr : (rightStep (j / 2) (j % 2) s).mem.trace
      = s.mem.trace ++ [Access.readTriangle ((2 ^ (c + 2) + 2 ^ (c + 1) + j) / 2),
          Access.readTriangle ((2 ^ (c + 2) + 2 ^ (c + 1) + j) / 2),
          Access.writeTriangle (s.next_triangles + ((2 ^ c + j / 2) * 2 + j % 2)),
          Access.readVertex ((2 ^ (c + 2) + j + 2 : Nat) : Int),
          Access.writeVertex ((2 ^ (c + 2) + 2 ^ (c + 1) + j + 2 : Nat) : Int)] := by
    simp only [rightStep, Buffers.writeVertex, Buffers.writeTriangle, Buffers.note, hL.prev,
      hL.tc, e1, hnvi, hsrc, List.append_assoc, List.singleton_append]
    rfl
  rw [htr, readsWritten_append, hr]
  simp only [readsWritten, List.append_nil, List.mem_reverse, mt, m0, decide_True,
    Bool.and_self]

/-- Without wraparound, a subdivision round reads only written slots. -/
theorem round_reads {sqrtf : F → F} {v0 : Int → sp__Vertex F} {t0 : Nat → sp__Triangle}
    (c : Nat) (s : State F) (hL : Locals c s) (hI : RunInv sqrtf v0 t0 (2 ^ (c + 2)) s)
    (hb : 2 ^ (c + 3) + 2 ≤ 2 ^ 16) (hr : readsWritten [] [] s.mem.trace = true) :
    readsWritten [] [] (rightLoop (leftLoop sqrtf s)).mem.trace = true := by
  obtain ⟨p1, p2, p3⟩ := pow_facts c
  have p4 : 2 ^ (c + 3) = 2 * 2 ^ (c + 2) := by ring
  have h1 : Locals c (leftLoop sqrtf s)
      ∧ RunInv sqrtf v0 t0 (2 ^ (c + 2) + 2 ^ (c + 1)) (leftLoop sqrtf s)
      ∧ readsWritten [] [] (leftLoop sqrtf s).mem.trace = true := by
    rw [leftLoop_eq sqrtf c s hL]
    refine forLoop_invariant
      (fun i s1 => Locals c s1 ∧ RunInv sqrtf v0 t0 (2 ^ (c + 2) + i) s1
        ∧ readsWritten [] [] s1.mem.trace = true) _ (2 ^ (c + 1)) s ⟨hL, hI, hr⟩ ?_
    intro i hi s1 g
    have g1 := leftStep_inv c i s1 hi g.1 g.2.1
    exact ⟨g1.1, g1.2, leftStep_reads c i s1 hi g.1 g.2.1 (by omega) g.2.2⟩
  rw [rightLoop_eq c _ h1.1]
  have h2 : Locals c (forLoop (2 ^ (c + 1)) (fun i s1 => rightStep (i / 2) (i % 2) s1)
        (leftLoop sqrtf s))
      ∧ RunInv sqrtf v0 t0 (2 ^ (c + 2) + 2 ^ (c + 1) + 2 ^ (c + 1))
          (forLoop (2 ^ (c + 1)) (fun i s1 => rightStep (i / 2) (i % 2) s1) (leftLoop sqrtf s))
      ∧ readsWritten [] [] (forLoop (2 ^ (c + 1)) (fun i s1 => rightStep (i / 2) (i % 2) s1)
          (leftLoop sqrtf s)).mem.trace = true := by
    refine forLoop_invariant
      (fun i s1 => Locals c s1 ∧ RunInv sqrtf v0 t0 (2 ^ (c + 2) + 2 ^ (c + 1) + i) s1
        ∧ readsWritten [] [] s1.mem.trace = true) _ (2 ^ (c + 1)) _ h1 ?_
    intro i hi s1 g
    have g1 := rightStep_inv c i s1 hi g.1 g.2.1
    exact ⟨g1.1, g1.2, rightStep_reads c i s1 hi g.1 g.2.1 (by omega) g.2.2⟩
  exact h2.2.2

/-- Without wraparound, the subdivision loop reads only written slots. -/
theorem subdivisionLoop_reads {sqrtf : F → F} {v0 : Int → sp__Vertex F}
    {t0 : Nat → sp__Triangle} (L : Nat) (hb : 2 ^ (L + 1) + 2 ≤ 2 ^ 16) :
    ∀ (fuel c : Nat) (s : State F), Locals c s → RunInv sqrtf v0 t0 (2 ^ (c + 2)) s →
      readsWritten [] [] s.mem.trace = true → c + 2 ≤ L → L ≤ fuel + (c + 1) →
      ∃ s', subdivisionLoop sqrtf L fuel s = some s'
        ∧ readsWritten [] [] s'.mem.trace = true := by
  intro fuel
  induction fuel with
  | zero =>
    intro c s _ _ _ h1 h2
    omega
  | succ f ih =>
    intro c s hL hI hr h1 h2
    have hpow : (2 : Nat) ^ (c + 3) ≤ 2 ^ (L + 1) :=
      Nat.pow_le_pow_right (by norm_num) (by omega)
    have hround := round_inv c s hL hI
    have hreads := round_reads c s hL hI (by omega) hr
    by_cases hc : c + 2 = L
    · refine ⟨_, ?_, hreads⟩
      unfold subdivisionLoop
      simp only [hround.1.sub]
      rw [if_pos hc]
    · have ha := advance_inv c _ hround.1 hround.2
      obtain ⟨s', g1, g2⟩ := ih (c + 1) _ ha.1 ha.2 hreads (by omega) (by omega)
      refine ⟨s', ?_, g2⟩
      rw [← g1]
      conv_lhs => unfold subdivisionLoop
      simp only [hround.1.sub]
      rw [if_neg hc]

/-- Without wraparound, the generator reads only slots that it has written before. -/
theorem sp__create_geometry_reads (sqrtf : F → F) (fuel L : Nat)
    (hL : sp_get_vertex_count L ≤ 2 ^ 16) (hfuel : L ≤ fuel + 1)
    (v0 : Int → sp__Vertex F) (t0 : Nat → sp__Triangle) (m : Buffers F)
    (hm : sp__create_geometry sqrtf fuel L v0 t0 = some m) :
    readsWritten [] [] m.trace = true := by
  rcases Nat.lt_or_ge L 2 with hlt | hge
  · have : L = 0 ∨ L = 1 := by omega
    rcases this with rfl | rfl
    · rw [sp__create_geometry_zero] at hm
      rw [← Option.some.inj hm]
      rfl
    · rw [sp__create_geometry_one] at hm
      rw [← Option.some.inj hm]
      rfl
  · obtain ⟨h1, h2⟩ := loopEntry_inv sqrtf v0 t0
    have hb : 2 ^ (L + 1) + 2 ≤ 2 ^ 16 := by
      unfold sp_get_vertex_count at hL
      have : 2 ^ (L + 1) = 2 * 2 ^ L := by ring
      omega
    obtain ⟨s', g1, g2⟩ := subdivisionLoop_reads L hb fuel 0 (loopEntry v0 t0) h1 h2 rfl
      (by omega) (by omega)
    rw [sp__create_geometry_loop sqrtf fuel L hge, g1] at hm
    rw [← Option.some.inj hm]
    exact g2

/-- C19: for every level `L` with `sp_get_vertex_count L ≤ 2 ^ 16` (no wraparound) and every
triangle slot `t` with `2 ≤ t < sp_get_triangle_count L`, the triangle in slot `t` is
`(a, t + 2, b)` with `a, b < t + 2`, and `(a, b)` is the edge `(i[e], i[e + 1])` of an earlier
triangle: of quad triangle `t - 2` for the two cap triangles, and of slot `t / 2`, in the band
of the previous round, for `t ≥ 4`. Hence every vertex index from 4 on is the middle index of
exactly one triangle, and every read of the generator comes after a write to the same slot. -/
theorem c19_lockstep_apex {F : Type} [Field F] (sqrtf : F → F) (fuel L : Nat)
    (hL : sp_get_vertex_count L ≤ 2 ^ 16) (hfuel : L ≤ fuel + 1)
    (v0 : Int → sp__Vertex F) (t0 : Nat → sp__Triangle) :
    ∃ m, sp_create_geometry sqrtf fuel L v0 t0 = some m
      ∧ (∀ t, 2 ≤ t → t < sp_get_triangle_count L →
          (m.triangles t).i1 = t + 2 ∧ (m.triangles t).i0 < t + 2 ∧ (m.triangles t).i2 < t + 2
          ∧ (t < 4 → (m.triangles t).i0 = (m.triangles (t - 2)).i 0
              ∧ (m.triangles t).i2 = (m.triangles (t - 2)).i 1)
          ∧ (4 ≤ t → (m.triangles t).i0 = (m.triangles (t / 2)).i (t % 2)
              ∧ (m.triangles t).i2 = (m.triangles (t / 2)).i (t % 2 + 1)
              ∧ ∃ k, 2 ^ (k + 1) ≤ t ∧ t < 2 ^ (k + 2) ∧ 2 ^ k ≤ t / 2 ∧ t / 2 < 2 ^ (k + 1)))
      ∧ (∀ i t, 4 ≤ i → i < sp_get_vertex_count L → t < sp_get_triangle_count L →
          ((m.triangles t).i1 = i ↔ t = i - 2))
      ∧ readsWritten [] [] m.trace = true := by
  obtain ⟨m, hm, _, _, hmem⟩ := sp__create_geometry_spec sqrtf fuel L hfuel v0 t0
  have h := hmem hL
  refine ⟨m, hm, ?_, ?_, sp__create_geometry_reads sqrtf fuel L hL hfuel v0 t0 m hm⟩
  · intro t h2 ht
    obtain ⟨b0, b1, b2⟩ := h.bound t h2 ht
    refine ⟨b1, b0, b2, ?_, ?_⟩
    · intro h4
      have hn : 4 ≤ sp_get_triangle_count L := by
        unfold sp_get_triangle_count at ht ⊢
        rcases Nat.eq_zero_or_pos L with rfl | hpos
        · norm_num at ht; omega
        · have : (2 : Nat) ^ (1 + 1) ≤ 2 ^ (L + 1) :=
            Nat.pow_le_pow_right (by norm_num) (by omega)
          simpa using this
      obtain ⟨_, _, c2, c3⟩ := h.caps hn
      have : t = 2 ∨ t = 3 := by omega
      rcases this with rfl | rfl
      · rw [c2, h.t_0]; exact ⟨rfl, rfl⟩
      · rw [c3, h.t_1]; exact ⟨rfl, rfl⟩
    · intro h4
      have ht' := h.tri t h4 ht
      refine ⟨by rw [ht'], by rw [ht'], ?_⟩
      obtain ⟨c, r, hr, he⟩ := band_exists t h4
      obtain ⟨p1, p2, p3⟩ := pow_facts c
      have p4 : 2 ^ (c + 1 + 2) = 2 * 2 ^ (c + 2) := by ring
      exact ⟨c + 1, by omega, by omega, by omega, by omega⟩
  · intro i t h4 hi ht
    rcases Nat.lt_or_ge t 2 with hlt | hge
    · have : t = 0 ∨ t = 1 := by omega
      rcases this with rfl | rfl
      · rw [h.t_0]
        show 1 = i ↔ 0 = i - 2
        omega
      · rw [h.t_1]
        show 3 = i ↔ 1 = i - 2
        omega
    · rw [(h.bound t hge ht).2.1]
      omega

/-- C19, witness at level 3. -/
theorem c19_lockstep_apex_witness :
    ∃ m, sp_create_geometry Real.sqrt 2 3 (fun _ => ⟨0, 0⟩) (fun _ => ⟨0, 0, 0⟩) = some m
      ∧ (∀ t, 2 ≤ t → t < sp_get_triangle_count 3 →
          (m.triangles t).i1 = t + 2 ∧ (m.triangles t).i0 < t + 2 ∧ (m.triangles t).i2 < t + 2)
      ∧ readsWritten [] [] m.trace = true := by
  obtain ⟨m, h1, h2, _, h3⟩ := c19_lockstep_apex Real.sqrt 2 3 (by decide) (by decide)
    (fun _ => (⟨0, 0⟩ : sp__Vertex ℝ)) (fun _ => ⟨0, 0, 0⟩)
  exact ⟨m, h1, fun t a b => ⟨(h2 t a b).1, (h2 t a b).2.1, (h2 t a b).2.2.1⟩, h3⟩

/-- The result of `sp__subdivide_chord` has norm `1 / 2` whenever the midpoint is not zero. -/
theorem sp__subdivide_chord_norm (a w : sp__Vertex ℝ)
    (hD : 0 < (a.x + w.x) * 0.5 * ((a.x + w.x) * 0.5) + (a.y + w.y) * 0.5 * ((a.y + w.y) * 0.5)) :
    (sp__subdivide_chord Real.sqrt a w).x * (sp__subdivide_chord Real.sqrt a w).x
      + (sp__subdivide_chord Real.sqrt a w).y * (sp__subdivide_chord Real.sqrt a w).y
      = 1 / 4 := by
  rw [sp__subdivide_chord_x, sp__subdivide_chord_y]
  have hr := Real.sqrt_pos.2 hD
  have hr2 := Real.mul_self_sqrt (le_of_lt hD)
  generalize Real.sqrt ((a.x + w.x) * 0.5 * ((a.x + w.x) * 0.5)
      + (a.y + w.y) * 0.5 * ((a.y + w.y) * 0.5)) = r at hr hr2 ⊢
  have hne : r ≠ 0 := hr.ne'
  have e : 0.5 / r * ((a.x + w.x) * 0.5) * (0.5 / r * ((a.x + w.x) * 0.5))
      + 0.5 / r * ((a.y + w.y) * 0.5) * (0.5 / r * ((a.y + w.y) * 0.5))
      = 0.25 * ((a.x + w.x) * 0.5 * ((a.x + w.x) * 0.5)
          + (a.y + w.y) * 0.5 * ((a.y + w.y) * 0.5)) / (r * r) := by
    field_simp
    ring
  rw [e, ← hr2]
  field_simp
  norm_num

/-- Re-projecting about the origin is what `sp__subdivide_chord` computes. -/
theorem subdivideAboutCentre_origin (a w : sp__Vertex ℝ) :
    subdivideAboutCentre Real.sqrt ⟨0, 0⟩ a w = sp__subdivide_chord Real.sqrt a w := by
  unfold subdivideAboutCentre sp__subdivide_chord
  have hx : (a.x + w.x) / 2 - 0 = (a.x + w.x) * 0.5 := by norm_num; ring
  have hy : (a.y + w.y) / 2 - 0 = (a.y + w.y) * 0.5 := by norm_num; ring
  simp only [hx, hy]
  congr 1 <;> ring

/-- Re-projecting the reflected endpoints about `(1, 0)` gives the reflected vertex. -/
theorem subdivideAboutCentre_mirror (a w : sp__Vertex ℝ) :
    subdivideAboutCentre Real.sqrt ⟨1, 0⟩ (mirror a) (mirror w)
      = mirror (sp__subdivide_chord Real.sqrt a w) := by
  unfold subdivideAboutCentre sp__subdivide_chord mirror
  have hx : (-a.x + 1.0 + (-w.x + 1.0)) / 2 - 1 = -((a.x + w.x) * 0.5) := by norm_num; ring
  have hy : (-a.y + -w.y) / 2 - 0 = -((a.y + w.y) * 0.5) := by norm_num; ring
  simp only [hx, hy, neg_mul_neg]
  congr 1
  · norm_num; ring
  · norm_num; ring

/-- A re-projected point is within `1 / 2` of the centre. -/
theorem subdivideAboutCentre_near (c a w : sp__Vertex ℝ) :
    ((subdivideAboutCentre Real.sqrt c a w).x - c.x) ^ 2
      + ((subdivideAboutCentre Real.sqrt c a w).y - c.y) ^ 2 ≤ 1 / 4 := by
  unfold subdivideAboutCentre
  simp only
  generalize (a.x + w.x) / 2 - c.x = dx
  generalize (a.y + w.y) / 2 - c.y = dy
  have hD : 0 ≤ dx * dx + dy * dy := add_nonneg (mul_self_nonneg dx) (mul_self_nonneg dy)
  have hr2 := Real.mul_self_sqrt hD
  generalize Real.sqrt (dx * dx + dy * dy) = r at hr2
  by_cases hr : r = 0
  · subst hr
    norm_num
  · have e : (c.x + 0.5 * dx / r - c.x) ^ 2 + (c.y + 0.5 * dy / r - c.y) ^ 2
        = 0.25 * (dx * dx + dy * dy) / (r * r) := by
      field_simp
      ring
    rw [e, ← hr2]
    have : (0.25 : ℝ) * (r * r) / (r * r) = 1 / 4 := by
      field_simp
      norm_num
    rw [this]

/-- C16, as amended: in exact real arithmetic, for every level `L ≥ 2` with
`sp_get_vertex_count L ≤ 2 ^ 16` and every triangle `(i0, n, i1)` written in a subdivision
round (slot `t ≥ 4`, `n = t + 2`): in the right cap the mirrored vertex `v[n]` is the midpoint
of `v[i0]`, `v[i1]` re-projected onto the circle of radius 0.5 about `(1, 0)`, and in the left
cap `v[n]` is that midpoint re-projected about `(0, 0)`; so the output is that of a generator
that subdivides both caps independently about their own centres. -/
theorem c16_mirror_is_independent_subdivision (fuel L : Nat)
    (hL : sp_get_vertex_count L ≤ 2 ^ 16) (hfuel : L ≤ fuel + 1)
    (v0 : Int → sp__Vertex ℝ) (t0 : Nat → sp__Triangle) :
    ∃ m, sp_create_geometry Real.sqrt fuel L v0 t0 = some m
      ∧ ∀ t : Nat, 4 ≤ t → t < sp_get_triangle_count L →
          (m.triangles t).i1 = t + 2
          ∧ (isRightVertex (t + 2) = true →
              m.vertices ((t + 2 : Nat) : Int)
                = subdivideAboutCentre Real.sqrt ⟨1, 0⟩ (m.vertices ((m.triangles t).i0 : Nat))
                    (m.vertices ((m.triangles t).i2 : Nat)))
          ∧ (isRightVertex (t + 2) = false →
              m.vertices ((t + 2 : Nat) : Int)
                = subdivideAboutCentre Real.sqrt ⟨0, 0⟩ (m.vertices ((m.triangles t).i0 : Nat))
                    (m.vertices ((m.triangles t).i2 : Nat))) := by
  obtain ⟨m, hm, _, h⟩ := sp__create_geometry_real fuel L hL hfuel v0 t0
  refine ⟨m, hm, ?_⟩
  intro t h4 ht
  have ht' : t < 2 ^ (L + 1) := ht
  obtain ⟨b, r, hb, hr, he⟩ := band_of_slot L t (by omega) ht'
  have hpow : (2 : Nat) ^ (b + 2) ≤ 2 ^ (L + 1) :=
    Nat.pow_le_pow_right (by norm_num) (by omega)
  obtain ⟨p1, p2, p3⟩ := pow_facts b
  have hb1 : 1 ≤ b := by
    by_contra hb0
    have : b = 0 := by omega
    subst this
    norm_num at hr he
    omega
  obtain ⟨c, rfl⟩ : ∃ c, b = c + 1 := ⟨b - 1, by omega⟩
  obtain ⟨q1, q2, q3⟩ := pow_facts c
  have hroot := capRoot_band (c + 1) r hr
  rw [← he] at hroot
  have hside : isRightVertex (t + 2) = (capRoot t == 3) := by
    unfold isRightVertex
    rw [if_neg (by omega), if_neg (by omega)]
    have e : t + 2 - 2 = t := by omega
    rw [e]
  refine ⟨(h.bound t (by omega) ht').2.1, ?_, ?_⟩
  · intro hright
    have hge : 2 ^ (c + 1) ≤ r := by
      by_contra hlt
      rw [if_pos (by omega)] at hroot
      rw [hside, hroot] at hright
      exact absurd hright (by decide)
    have e1 : 2 ^ (c + 1 + 1) + r = 2 ^ (c + 1 + 1) + 2 ^ (c + 1) + (r - 2 ^ (c + 1)) := by
      omega
    have g := h.geom (by omega) (c + 1) (r - 2 ^ (c + 1)) (by omega) (by omega)
    rw [← e1, ← he] at g
    have hleft := h.left c (r - 2 ^ (c + 1)) (by omega) (by omega)
    have e2 : 2 ^ (c + 2) + (r - 2 ^ (c + 1)) = 2 ^ (c + 1 + 1) + (r - 2 ^ (c + 1)) := by
      omega
    rw [e2] at hleft
    rw [g.m1, g.m0, g.m2, hleft, subdivideAboutCentre_mirror]
  · intro hleftside
    have hlt : r < 2 ^ (c + 1) := by
      by_contra hge
      rw [if_neg hge] at hroot
      rw [hside, hroot] at hleftside
      exact absurd hleftside (by decide)
    have hleft := h.left c r hlt (by omega)
    have e2 : 2 ^ (c + 2) + r = t := by omega
    rw [e2] at hleft
    rw [hleft, subdivideAboutCentre_origin]

/-- C16, witness at level 3. -/
theorem c16_mirror_is_independent_subdivision_witness :
    ∃ m, sp_create_geometry Real.sqrt 2 3 (fun _ => ⟨0, 0⟩) (fun _ => ⟨0, 0, 0⟩) = some m
      ∧ ∀ t : Nat, 4 ≤ t → t < sp_get_triangle_count 3 →
          (m.triangles t).i1 = t + 2
          ∧ (isRightVertex (t + 2) = true →
              m.vertices ((t + 2 : Nat) : Int)
                = subdivideAboutCentre Real.sqrt ⟨1, 0⟩ (m.vertices ((m.triangles t).i0 : Nat))
                    (m.vertices ((m.triangles t).i2 : Nat)))
          ∧ (isRightVertex (t + 2) = false →
              m.vertices ((t + 2 : Nat) : Int)
                = subdivideAboutCentre Real.sqrt ⟨0, 0⟩ (m.vertices ((m.triangles t).i0 : Nat))
                    (m.vertices ((m.triangles t).i2 : Nat))) :=
  c16_mirror_is_independent_subdivision 2 3 (by decide) (by decide) _ _

/-- C16 fails as stated at level 15: the last right-cap triangle, slot 65535, has the wrapped
middle index 1, and when the memory before the vertex buffer holds `(-4, 0)` the vertex stored
there is `(5, 0)`, at distance 4 from `(1, 0)`, while a re-projected midpoint is within 0.5. -/
theorem c16_counterexample_level_15 :
    ∃ m, sp_create_geometry Real.sqrt 14 15 (fun _ => ⟨-4, 0⟩) (fun _ => ⟨0, 0, 0⟩) = some m
      ∧ 65535 = 2 ^ 15 + 2 ^ 14 + 16383 ∧ 65535 < sp_get_triangle_count 15
      ∧ m.vertices (((m.triangles 65535).i1 : Nat) : Int)
          ≠ subdivideAboutCentre Real.sqrt ⟨1, 0⟩ (m.vertices ((m.triangles 65535).i0 : Nat))
              (m.vertices ((m.triangles 65535).i2 : Nat)) := by
  obtain ⟨m, hm, hv, ht⟩ := sp__create_geometry_fifteen_last Real.sqrt 14 le_rfl
    (fun _ => (⟨-4, 0⟩ : sp__Vertex ℝ)) (fun _ => ⟨0, 0, 0⟩)
  refine ⟨m, hm, by norm_num, by decide, ?_⟩
  rw [ht]
  intro heq
  have hnear := subdivideAboutCentre_near ⟨1, 0⟩ (m.vertices ((m.triangles 65535).i0 : Nat))
    (m.vertices ((m.triangles 65535).i2 : Nat))
  rw [← heq] at hnear
  have hv' : m.vertices ((1 : Nat) : Int) = mirror ⟨-4, 0⟩ := by
    simpa using hv
  rw [hv'] at hnear
  simp only [mirror] at hnear
  norm_num at hnear

/-- C17, as amended: in exact real arithmetic, for any two endpoints whose midpoint is not the
zero vector, on the left cap circle or anywhere else, the result of `sp__subdivide_chord` lies
at distance 0.5 from `(0, 0)`; this includes endpoints on the right cap circle, whose midpoint
is never zero. -/
theorem c17_subdivide_chord_about_origin (a w : sp__Vertex ℝ)
    (hmid : (a.x + w.x) * 0.5 ≠ 0 ∨ (a.y + w.y) * 0.5 ≠ 0) :
    Real.sqrt (((sp__subdivide_chord Real.sqrt a w).x - 0) ^ 2
        + ((sp__subdivide_chord Real.sqrt a w).y - 0) ^ 2) = 0.5
      ∧ ((a.x - 1) ^ 2 + (a.y - 0) ^ 2 = 0.5 ^ 2 → (w.x - 1) ^ 2 + (w.y - 0) ^ 2 = 0.5 ^ 2 →
          (a.x + w.x) * 0.5 ≠ 0) := by
  constructor
  · have hD : 0 < (a.x + w.x) * 0.5 * ((a.x + w.x) * 0.5)
        + (a.y + w.y) * 0.5 * ((a.y + w.y) * 0.5) := by
      rcases hmid with h | h
      · have := mul_self_pos.2 h
        have := mul_self_nonneg ((a.y + w.y) * 0.5)
        linarith
      · have := mul_self_pos.2 h
        have := mul_self_nonneg ((a.x + w.x) * 0.5)
        linarith
    apply sqrt_quarter
    rw [← sp__subdivide_chord_norm a w hD]
    ring
  · intro ha hw
    have h1 : 1 / 2 ≤ a.x := by nlinarith [sq_nonneg (a.y - 0)]
    have h2 : 1 / 2 ≤ w.x := by nlinarith [sq_nonneg (w.y - 0)]
    have : 0 < (a.x + w.x) * 0.5 := by norm_num; linarith
    exact this.ne'

/-- C17, witness for the quad corner `(0, -0.5)` and the left cap apex `(-0.5, 0)`. -/
theorem c17_subdivide_chord_about_origin_witness :
    Real.sqrt (((sp__subdivide_chord Real.sqrt ⟨0, -0.5⟩ ⟨-0.5, 0⟩).x - 0) ^ 2
        + ((sp__subdivide_chord Real.sqrt ⟨0, -0.5⟩ ⟨-0.5, 0⟩).y - 0) ^ 2) = 0.5 :=
  (c17_subdivide_chord_about_origin ⟨0, -0.5⟩ ⟨-0.5, 0⟩ (Or.inl (by norm_num))).1

/-- C17 fails as stated for the right cap: both endpoints `(1, 0.5)` lie on the circle of
radius 0.5 about `(1, 0)`, but `sp__subdivide_chord` normalises about the origin and its result
is not at distance 0.5 from `(1, 0)`. -/
theorem c17_counterexample_right_cap :
    ((1 : ℝ) - 1) ^ 2 + ((0.5 : ℝ) - 0) ^ 2 = 0.5 ^ 2
      ∧ Real.sqrt (((sp__subdivide_chord Real.sqrt ⟨1, 0.5⟩ ⟨1, 0.5⟩).x - 1) ^ 2
          + ((sp__subdivide_chord Real.sqrt ⟨1, 0.5⟩ ⟨1, 0.5⟩).y - 0) ^ 2) ≠ 0.5 := by
  refine ⟨by norm_num, ?_⟩
  intro h
  have hD : (0 : ℝ) < ((1 : ℝ) + 1) * 0.5 * (((1 : ℝ) + 1) * 0.5)
      + ((0.5 : ℝ) + 0.5) * 0.5 * (((0.5 : ℝ) + 0.5) * 0.5) := by norm_num
  have hn := sp__subdivide_chord_norm ⟨1, 0.5⟩ ⟨1, 0.5⟩ hD
  have hx := sp__subdivide_chord_x ⟨1, 0.5⟩ ⟨1, 0.5⟩
  have hy := sp__subdivide_chord_y ⟨1, 0.5⟩ ⟨1, 0.5⟩
  generalize sp__subdivide_chord Real.sqrt ⟨1, 0.5⟩ ⟨1, 0.5⟩ = p at h hn hx hy
  simp only at hx hy
  generalize Real.sqrt (((1 : ℝ) + 1) * 0.5 * (((1 : ℝ) + 1) * 0.5)
      + ((0.5 : ℝ) + 0.5) * 0.5 * (((0.5 : ℝ) + 0.5) * 0.5)) = r at hx hy
  have hyx : p.y = p.x * (1 / 2) := by
    rw [hx, hy]; norm_num
  have hsq : (p.x - 1) ^ 2 + (p.y - 0) ^ 2 = 1 / 4 := by
    have h0 : 0 ≤ (p.x - 1) ^ 2 + (p.y - 0) ^ 2 := by positivity
    have := Real.sq_sqrt h0
    rw [h] at this
    rw [← this]; norm_num
  have hpx : p.x = 1 / 2 := by nlinarith
  rw [hyx, hpx] at hn
  norm_num at hn

/-- The subdivision loop in closed form: from round `c + 1` it executes the round body
(lines 117-147) `L - 1 - c` times, with the loop step (lines 151-157) between two rounds. -/
theorem subdivisionLoop_iterate {sqrtf : F → F} {v0 : Int → sp__Vertex F}
    {t0 : Nat → sp__Triangle} (L : Nat) : ∀ (fuel c : Nat) (s : State F), Locals c s →
      RunInv sqrtf v0 t0 (2 ^ (c + 2)) s → c + 2 ≤ L → L ≤ fuel + (c + 1) →
      subdivisionLoop sqrtf L fuel s
        = some (rightLoop (leftLoop sqrtf
            ((fun s1 => advance (rightLoop (leftLoop sqrtf s1)))^[L - 2 - c] s)))
        ∧ Locals (L - 2) ((fun s1 => advance (rightLoop (leftLoop sqrtf s1)))^[L - 2 - c] s) := by
  intro fuel
  induction fuel with
  | zero =>
    intro c s _ _ h1 h2
    omega
  | succ f ih =>
    intro c s hL hI h1 h2
    have hr := round_inv c s hL hI
    by_cases hc : c + 2 = L
    · have e : L - 2 - c = 0 := by omega
      have e2 : L - 2 = c := by omega
      rw [e, e2]
      refine ⟨?_, hL⟩
      conv_lhs => unfold subdivisionLoop
      simp only [hr.1.sub, Function.iterate_zero, id_eq]
      rw [if_pos hc]
    · have ha := advance_inv c _ hr.1 hr.2
      obtain ⟨g1, g2⟩ := ih (c + 1) _ ha.1 ha.2 (by omega) (by omega)
      have e : L - 2 - c = (L - 2 - (c + 1)) + 1 := by omega
      rw [e, Function.iterate_succ_apply]
      refine ⟨?_, g2⟩
      rw [← g1]
      conv_lhs => unfold subdivisionLoop
      simp only [hr.1.sub]
      rw [if_neg hc]

/-- A slot read in a trace whose reads all come after a write was written in the trace (or
before it). -/
theorem readsWritten_mem : ∀ (l : List Access) (vs : List Int) (ts : List Nat),
    readsWritten vs ts l = true →
      (∀ i, Access.readVertex i ∈ l → i ∈ vs ∨ i ∈ vertexWrites l)
        ∧ (∀ t, Access.readTriangle t ∈ l → t ∈ ts ∨ t ∈ triangleWrites l) := by
  intro l
  induction l with
  | nil =>
    intro vs ts _
    simp
  | cons a l ih =>
    intro vs ts h
    cases a with
    | readVertex j =>
      simp only [readsWritten, Bool.and_eq_true, decide_eq_true_eq] at h
      obtain ⟨g1, g2⟩ := ih vs ts h.2
      refine ⟨fun i hi => ?_, fun t ht => ?_⟩
      · simp only [List.mem_cons, Access.readVertex.injEq] at hi
        rcases hi with rfl | hi
        · exact Or.inl h.1
        · exact g1 i hi
      · simp only [List.mem_cons, reduceCtorEq, false_or] at ht
        exact g2 t ht
    | readTriangle j =>
      simp only [readsWritten, Bool.and_eq_true, decide_eq_true_eq] at h
      obtain ⟨g1, g2⟩ := ih vs ts h.2
      refine ⟨fun i hi => ?_, fun t ht => ?_⟩
      · simp only [List.mem_cons, reduceCtorEq, false_or] at hi
        exact g1 i hi
      · simp only [List.mem_cons, Access.readTriangle.injEq] at ht
        rcases ht with rfl | ht
        · exact Or.inl h.1
        · exact g2 t ht
    | writeVertex j =>
      simp only [readsWritten] at h
      obtain ⟨g1, g2⟩ := ih (j :: vs) ts h
      refine ⟨fun i hi => ?_, fun t ht => ?_⟩
      · simp only [List.mem_cons, reduceCtorEq, false_or] at hi
        rcases g1 i hi with g | g
        · rcases List.mem_cons.1 g with g | g
          · exact Or.inr (by simp [vertexWrites, g])
          · exact Or.inl g
        · exact Or.inr (by simp [vertexWrites, g])
      · simp only [List.mem_cons, reduceCtorEq, false_or] at ht
        exact g2 t ht
    | writeTriangle j =>
      simp only [readsWritten] at h
      obtain ⟨g1, g2⟩ := ih vs (j :: ts) h
      refine ⟨fun i hi => ?_, fun t ht => ?_⟩
      · simp only [List.mem_cons, reduceCtorEq, false_or] at hi
        exact g1 i hi
      · simp only [List.mem_cons, reduceCtorEq, false_or] at ht
        rcases g2 t ht with g | g
        · rcases List.mem_cons.1 g with g | g
          · exact Or.inr (by simp [triangleWrites, g])
          · exact Or.inl g
        · exact Or.inr (by simp [triangleWrites, g])

theorem mem_vertexWrites (i : Int) : ∀ l : List Access,
    Access.writeVertex i ∈ l → i ∈ vertexWrites l := by
  intro l
  induction l with
  | nil => simp
  | cons a l ih =>
    intro h
    cases a <;> simp_all [vertexWrites]
    tauto

theorem mem_triangleWrites (t : Nat) : ∀ l : List Access,
    Access.writeTriangle t ∈ l → t ∈ triangleWrites l := by
  intro l
  induction l with
  | nil => simp
  | cons a l ih =>
    intro h
    cases a <;> simp_all [triangleWrites]
    tauto

/-- Without wraparound every access of the generator lies inside the two buffers of
`sp_get_vertex_count L` vertices and `sp_get_triangle_count L` triangles. -/
theorem sp__create_geometry_inBounds (sqrtf : F → F) (fuel L : Nat)
    (hL : sp_get_vertex_count L ≤ 2 ^ 16) (v0 : Int → sp__Vertex F) (t0 : Nat → sp__Triangle)
    (m : Buffers F) (hm : sp__create_geometry sqrtf fuel L v0 t0 = some m) :
    m.trace.all (accessInBounds (sp_get_vertex_count L) (sp_get_triangle_count L)) = true := by
  have hfuel : L ≤ fuel + 1 := by
    rw [← sp__create_geometry_isSome sqrtf fuel L v0 t0, hm]
    rfl
  obtain ⟨m', hm', hv, ht, _⟩ := sp__create_geometry_spec sqrtf fuel L hfuel v0 t0
  rw [hm] at hm'
  obtain rfl := Option.some.inj hm'
  have hr := readsWritten_mem _ [] [] (sp__create_geometry_reads sqrtf fuel L hL hfuel v0 t0 m hm)
  have hvb : ∀ i : Int, i ∈ vertexWrites m.trace → 0 ≤ i ∧ i < (sp_get_vertex_count L : Nat) := by
    intro i hi
    rw [hv] at hi
    obtain ⟨k, hk, rfl⟩ := List.mem_map.1 hi
    have hk := List.mem_range.1 hk
    have : k % 2 ^ 16 ≤ k := Nat.mod_le _ _
    exact ⟨Int.natCast_nonneg _, by exact_mod_cast lt_of_le_of_lt this hk⟩
  have htb : ∀ t : Nat, t ∈ triangleWrites m.trace → t < sp_get_triangle_count L := by
    intro t h
    rw [ht] at h
    exact List.mem_range.1 h
  rw [List.all_eq_true]
  intro a ha
  cases a with
  | readVertex i =>
    rcases hr.1 i ha with h | h
    · simp at h
    · simpa [accessInBounds] using hvb i h
  | writeVertex i =>
    simpa [accessInBounds] using hvb i (mem_vertexWrites i _ ha)
  | readTriangle t =>
    rcases hr.2 t ha with h | h
    · simp at h
    · simpa [accessInBounds] using htb t h
  | writeTriangle t =>
    simpa [accessInBounds] using htb t (mem_triangleWrites t _ ha)

theorem rightStep_trace (triangle edge : Nat) (s : State F) :
    (rightStep triangle edge s).mem.trace
      = s.mem.trace
        ++ [Access.readTriangle (s.prev_triangles + (s.triangle_count + triangle)),
          Access.readTriangle (s.prev_triangles + (s.triangle_count + triangle)),
          Access.writeTriangle (s.next_triangles + ((s.triangle_count + triangle) * 2 + edge)),
          Access.readVertex ((s.next_vertex_index : Int) - (s.triangle_count : Int) * 2),
          Access.writeVertex s.next_vertex_index] := by
  simp [rightStep, Buffers.note, Buffers.writeVertex, Buffers.writeTriangle]

/-- Level 15: after the counter has wrapped to 0, the right half-circle reads the vertex at
index `0 - 8192 * 2 = -16384`, before the start of the buffer. -/
theorem sp__create_geometry_fifteen_read (sqrtf : F → F) (fuel : Nat) (hfuel : 14 ≤ fuel)
    (v0 : Int → sp__Vertex F) (t0 : Nat → sp__Triangle) :
    ∃ m, sp__create_geometry sqrtf fuel 15 v0 t0 = some m
      ∧ Access.readVertex (-16384) ∈ m.trace := by
  obtain ⟨sLast, g1, g2, g3⟩ :=
    sp__create_geometry_last sqrtf fuel 15 (by omega) (by omega) v0 t0
  have g1' : Locals 13 sLast := g1
  have g2' : RunInv sqrtf v0 t0 (2 ^ (13 + 2)) sLast := g2
  have h1 := leftLoop_inv 13 sLast g1' g2' (2 ^ (13 + 1)) le_rfl
  rw [← leftLoop_eq sqrtf 13 sLast g1'] at h1
  have h2 := rightLoop_inv 13 _ h1.1 h1.2 (2 * 8191) (by norm_num)
  have hsplit := rightLoop_last_two 13 _ h1.1 8191 (by norm_num)
  refine ⟨_, g3, ?_⟩
  rw [hsplit]
  generalize forLoop (2 * 8191) (fun i s1 => rightStep (i / 2) (i % 2) s1) (leftLoop sqrtf sLast)
    = s2 at h2
  obtain ⟨hl, hr⟩ := h2
  have hn : (2 : Nat) ^ (13 + 2) + 2 ^ (13 + 1) + 2 * 8191 = 65534 := by norm_num
  rw [hn] at hr
  have hnvi : s2.next_vertex_index = 0 := by rw [hr.nvi]; norm_num
  have htc : s2.triangle_count = 8192 := by rw [hl.tc]; norm_num
  have hsrc : (((0 : Nat) : Int)) - ((8192 : Nat) : Int) * 2 = -16384 := by norm_num
  rw [rightStep_trace, rightStep_trace 8191 0 s2, hnvi, htc, hsrc]
  simp only [List.mem_append, List.mem_cons]
  exact Or.inl (Or.inr (Or.inr (Or.inr (Or.inr (Or.inl trivial)))))

/-- C15, as amended: for every level `L` with `sp_get_vertex_count L ≤ 2 ^ 16` (`L ≤ 14`)
`sp_create_geometry` terminates, and every access it makes lies inside the two buffers. For the
levels 0 and 1 it returns with no pass of the subdivision loop allowed, with the buffers of
line 95 and of line 106: the loop is never entered. For `L ≥ 2` it returns exactly when at least
`L - 1` passes are allowed, and what it returns is the result of `L - 1` executions of the round
(lines 117-147) with the `L - 2` loop steps (lines 151-157) between them; the loop variable
`subdivision` starts at 1 and is `L - 1` in the last round, where the `break` is taken. The
rounds leave `sp_get_triangle_count L` triangles written. -/
theorem c15_terminates_after_rounds_within_16_bits {F : Type} [Field F] (sqrtf : F → F)
    (fuel L : Nat) (hL : sp_get_vertex_count L ≤ 2 ^ 16) (v0 : Int → sp__Vertex F)
    (t0 : Nat → sp__Triangle) :
    (L = 0 → sp_create_geometry sqrtf 0 L v0 t0 = some (quadBuffers v0 t0))
      ∧ (L = 1 → sp_create_geometry sqrtf 0 L v0 t0 = some (capBuffers v0 t0))
      ∧ (2 ≤ L →
          ((sp_create_geometry sqrtf fuel L v0 t0).isSome = true ↔ L - 1 ≤ fuel)
            ∧ (loopEntry v0 t0).subdivision = 1
            ∧ ((fun s => advance (rightLoop (leftLoop sqrtf s)))^[L - 2]
                (loopEntry v0 t0)).subdivision = L - 1
            ∧ (L - 1 ≤ fuel → sp_create_geometry sqrtf fuel L v0 t0
                = some (rightLoop (leftLoop sqrtf
                    ((fun s => advance (rightLoop (leftLoop sqrtf s)))^[L - 2]
                      (loopEntry v0 t0)))).mem))
      ∧ ∀ m, sp_create_geometry sqrtf fuel L v0 t0 = some m →
          m.trace.all (accessInBounds (sp_get_vertex_count L) (sp_get_triangle_count L)) = true
            ∧ triangleWrites m.trace = List.range (sp_get_triangle_count L) := by
  refine ⟨?_, ?_, fun h2 => ?_, fun m hm => ?_⟩
  · rintro rfl
    rfl
  · rintro rfl
    rfl
  · obtain ⟨h1, h3⟩ := loopEntry_inv sqrtf v0 t0
    refine ⟨?_, rfl, ?_, fun hf => ?_⟩
    · rw [show sp_create_geometry sqrtf fuel L v0 t0 = sp__create_geometry sqrtf fuel L v0 t0
        from rfl, sp__create_geometry_isSome]
      omega
    · have g := (subdivisionLoop_iterate L (L - 1) 0 (loopEntry v0 t0) h1 h3 (by omega)
        (by omega)).2
      rw [Nat.sub_zero] at g
      rw [g.sub]
      omega
    · have g := (subdivisionLoop_iterate L fuel 0 (loopEntry v0 t0) h1 h3 (by omega)
        (by omega)).1
      rw [Nat.sub_zero] at g
      rw [show sp_create_geometry sqrtf fuel L v0 t0 = sp__create_geometry sqrtf fuel L v0 t0
        from rfl, sp__create_geometry_loop sqrtf fuel L h2, g]
      rfl
  · have hm' : sp__create_geometry sqrtf fuel L v0 t0 = some m := hm
    refine ⟨sp__create_geometry_inBounds sqrtf fuel L hL v0 t0 m hm', ?_⟩
    have hfuel : L ≤ fuel + 1 := by
      rw [← sp__create_geometry_isSome sqrtf fuel L v0 t0, hm']
      rfl
    obtain ⟨m1, hm1, _, ht, _⟩ := sp__create_geometry_spec sqrtf fuel L hfuel v0 t0
    rw [hm'] at hm1
    obtain rfl := Option.some.inj hm1
    exact ht

/-- C15, witness at level 3 with two passes allowed. -/
theorem c15_terminates_after_rounds_within_16_bits_witness :
    sp_get_vertex_count 3 ≤ 2 ^ 16
      ∧ (3 = 0 → sp_create_geometry Real.sqrt 0 3 (fun _ => ⟨0, 0⟩) (fun _ => ⟨0, 0, 0⟩)
          = some (quadBuffers (fun _ => ⟨0, 0⟩) (fun _ => ⟨0, 0, 0⟩)))
      ∧ (3 = 1 → sp_create_geometry Real.sqrt 0 3 (fun _ => ⟨0, 0⟩) (fun _ => ⟨0, 0, 0⟩)
          = some (capBuffers (fun _ => ⟨0, 0⟩) (fun _ => ⟨0, 0, 0⟩)))
      ∧ (2 ≤ 3 →
          ((sp_create_geometry Real.sqrt 2 3 (fun _ => ⟨0, 0⟩) (fun _ => ⟨0, 0, 0⟩)).isSome = true
              ↔ 3 - 1 ≤ 2)
            ∧ (loopEntry (fun _ => (⟨0, 0⟩ : sp__Vertex ℝ)) (fun _ => ⟨0, 0, 0⟩)).subdivision = 1
            ∧ ((fun s => advance (rightLoop (leftLoop Real.sqrt s)))^[3 - 2]
                (loopEntry (fun _ => ⟨0, 0⟩) (fun _ => ⟨0, 0, 0⟩))).subdivision = 3 - 1
            ∧ (3 - 1 ≤ 2 →
                sp_create_geometry Real.sqrt 2 3 (fun _ => ⟨0, 0⟩) (fun _ => ⟨0, 0, 0⟩)
                = some (rightLoop (leftLoop Real.sqrt
                    ((fun s => advance (rightLoop (leftLoop Real.sqrt s)))^[3 - 2]
                      (loopEntry (fun _ => ⟨0, 0⟩) (fun _ => ⟨0, 0, 0⟩))))).mem))
      ∧ ∀ m, sp_create_geometry Real.sqrt 2 3 (fun _ => ⟨0, 0⟩) (fun _ => ⟨0, 0, 0⟩) = some m →
          m.trace.all (accessInBounds (sp_get_vertex_count 3) (sp_get_triangle_count 3)) = true
            ∧ triangleWrites m.trace = List.range (sp_get_triangle_count 3) :=
  ⟨by decide, c15_terminates_after_rounds_within_16_bits Real.sqrt 2 3 (by decide) _ _⟩

/-- C15 fails as stated at level 15: the call makes its 14 rounds, but in the last one the
right half-circle reads the vertex at index `-16384`, before the start of the buffer, so not
every access lies inside the buffers and the behaviour of the C function is undefined. -/
theorem c15_counterexample_level_15 :
    ¬ sp_get_vertex_count 15 ≤ 2 ^ 16
      ∧ ∃ m, sp_create_geometry Real.sqrt 14 15 (fun _ => ⟨0, 0⟩) (fun _ => ⟨0, 0, 0⟩) = some m
          ∧ Access.readVertex (-16384) ∈ m.trace
          ∧ m.trace.all (accessInBounds (sp_get_vertex_count 15) (sp_get_triangle_count 15))
              = false := by
  obtain ⟨m, hm, hr⟩ := sp__create_geometry_fifteen_read Real.sqrt 14 le_rfl
    (fun _ => (⟨0, 0⟩ : sp__Vertex ℝ)) (fun _ => ⟨0, 0, 0⟩)
  refine ⟨by decide, m, hm, hr, ?_⟩
  rw [Bool.eq_false_iff]
  intro hall
  have := List.all_eq_true.1 hall _ hr
  simp [accessInBounds] at this

end Control

/-! ## The claims about the optimum subdivision count -/

section OptimumClaims

/-- In exact real arithmetic the function computes `⌈log2 (N / 3)⌉` with
`N = π / acos (1 - eps / R)`. -/
theorem sp_get_optimum_subdivision_count_eq (R eps : ℝ) :
    sp_get_optimum_subdivision_count Real.pi Real.arccos Real.log R eps
      = ⌈Real.logb 2 (Real.pi / Real.arccos (1 - eps / R) / 3)⌉ := by
  unfold sp_get_optimum_subdivision_count
  simp only [Real.log_div_log]
  norm_num

theorem two_rpow_intCast (z : ℤ) : (2 : ℝ) ^ (z : ℝ) = (2 : ℝ) ^ z :=
  Real.rpow_intCast 2 z

/-- The number of polygon edges `N` is positive. -/
theorem edges_pos (R eps : ℝ) (hR : 0 < R) (heps : 0 < eps) :
    0 < Real.pi / Real.arccos (1 - eps / R) := by
  have : 0 < Real.arccos (1 - eps / R) := by
    rw [Real.arccos_pos]
    have := div_pos heps hR
    linarith
  exact div_pos Real.pi_pos this

/-- An integer is at least `⌈log2 (N / 3)⌉` exactly when `N ≤ 3 * 2 ^ z`. -/
theorem ceil_logb_le_iff (N : ℝ) (hN : 0 < N) (z : ℤ) :
    ⌈Real.logb 2 (N / 3)⌉ ≤ z ↔ N ≤ 3 * (2 : ℝ) ^ z := by
  rw [Int.ceil_le, Real.logb_le_iff_le_rpow (by norm_num) (by positivity), two_rpow_intCast,
    div_le_iff₀ (by norm_num : (0 : ℝ) < 3)]
  constructor <;> intro h <;> linarith

/-- C12: in exact real arithmetic, for every radius `R > 0` and tolerance `0 < eps ≤ 2 R`, the
function returns `⌈log2 (N / 3)⌉` with `N = π / acos (1 - eps / R)`, and this is the smallest
integer `z` with `3 * 2 ^ z ≥ N`. -/
theorem c12_optimum_is_least_level (R eps : ℝ) (hR : 0 < R) (heps : 0 < eps)
    (_heps2 : eps ≤ 2 * R) :
    sp_get_optimum_subdivision_count Real.pi Real.arccos Real.log R eps
        = ⌈Real.logb 2 (Real.pi / Real.arccos (1 - eps / R) / 3)⌉
      ∧ Real.pi / Real.arccos (1 - eps / R)
          ≤ 3 * (2 : ℝ) ^ sp_get_optimum_subdivision_count Real.pi Real.arccos Real.log R eps
      ∧ ∀ z : ℤ, Real.pi / Real.arccos (1 - eps / R) ≤ 3 * (2 : ℝ) ^ z →
          sp_get_optimum_subdivision_count Real.pi Real.arccos Real.log R eps ≤ z := by
  have hN := edges_pos R eps hR heps
  rw [sp_get_optimum_subdivision_count_eq]
  exact ⟨rfl, (ceil_logb_le_iff _ hN _).1 le_rfl, fun z hz => (ceil_logb_le_iff _ hN z).2 hz⟩

/-- C12, witness at `R = 1`, `eps = 1`. -/
theorem c12_optimum_is_least_level_witness :
    sp_get_optimum_subdivision_count Real.pi Real.arccos Real.log 1 1
        = ⌈Real.logb 2 (Real.pi / Real.arccos (1 - 1 / 1) / 3)⌉
      ∧ Real.pi / Real.arccos (1 - 1 / 1)
          ≤ 3 * (2 : ℝ) ^ sp_get_optimum_subdivision_count Real.pi Real.arccos Real.log 1 1
      ∧ ∀ z : ℤ, Real.pi / Real.arccos (1 - 1 / 1) ≤ 3 * (2 : ℝ) ^ z →
          sp_get_optimum_subdivision_count Real.pi Real.arccos Real.log 1 1 ≤ z :=
  c12_optimum_is_least_level 1 1 (by norm_num) (by norm_num) (by norm_num)

/-- C13: in exact real arithmetic, for a fixed radius `R > 0` and tolerances
`0 < eps1 ≤ eps2 ≤ 2 R`, the count for `eps1` is at least the count for `eps2`. -/
theorem c13_optimum_monotone (R eps1 eps2 : ℝ) (hR : 0 < R) (h1 : 0 < eps1)
    (h12 : eps1 ≤ eps2) (h2 : eps2 ≤ 2 * R) :
    sp_get_optimum_subdivision_count Real.pi Real.arccos Real.log R eps2
      ≤ sp_get_optimum_subdivision_count Real.pi Real.arccos Real.log R eps1 := by
  rw [sp_get_optimum_subdivision_count_eq, sp_get_optimum_subdivision_count_eq]
  have hN1 := edges_pos R eps1 hR h1
  have hN2 := edges_pos R eps2 hR (lt_of_lt_of_le h1 h12)
  have hq1 : eps1 / R ≤ eps2 / R := div_le_div_of_nonneg_right h12 hR.le
  have hq2 : eps2 / R ≤ 2 := by
    rw [div_le_iff₀ hR]; linarith
  have hq0 : 0 < eps1 / R := div_pos h1 hR
  have hanti := Real.strictAntiOn_arccos.antitoneOn
    (show 1 - eps2 / R ∈ Set.Icc (-1 : ℝ) 1 from ⟨by linarith, by linarith⟩)
    (show 1 - eps1 / R ∈ Set.Icc (-1 : ℝ) 1 from ⟨by linarith, by linarith⟩)
    (by linarith)
  have ha1 : 0 < Real.arccos (1 - eps1 / R) := by
    rw [Real.arccos_pos]; linarith
  have hN : Real.pi / Real.arccos (1 - eps2 / R) ≤ Real.pi / Real.arccos (1 - eps1 / R) :=
    div_le_div_of_nonneg_left Real.pi_pos.le ha1 hanti
  apply Int.ceil_le_ceil
  rw [Real.logb_le_logb (by norm_num) (by positivity) (by positivity)]
  exact div_le_div_of_nonneg_right hN (by norm_num)

/-- C13, witness at `R = 1`, `eps1 = 1 / 2`, `eps2 = 1`. -/
theorem c13_optimum_monotone_witness :
    sp_get_optimum_subdivision_count Real.pi Real.arccos Real.log 1 1
      ≤ sp_get_optimum_subdivision_count Real.pi Real.arccos Real.log 1 (1 / 2) :=
  c13_optimum_monotone 1 (1 / 2) 1 (by norm_num) (by norm_num) (by norm_num) (by norm_num)

theorem arccos_one_half : Real.arccos (1 / 2) = Real.pi / 3 := by
  rw [← Real.cos_pi_div_three]
  exact Real.arccos_cos (by positivity) (by linarith [Real.pi_pos])

theorem arccos_sqrt_three_half : Real.arccos (√3 / 2) = Real.pi / 6 := by
  rw [← Real.cos_pi_div_six]
  exact Real.arccos_cos (by positivity) (by linarith [Real.pi_pos])

/-- For `eps / R = 1 / 5` the number of edges `N` lies in `(3, 6]`. -/
theorem edges_one_fifth :
    3 < Real.pi / Real.arccos (1 - 1 / 5 / 1) ∧ Real.pi / Real.arccos (1 - 1 / 5 / 1) ≤ 6 := by
  have e : (1 : ℝ) - 1 / 5 / 1 = 4 / 5 := by norm_num
  rw [e]
  have hs1 : (4 : ℝ) / 5 ≤ √3 / 2 := by
    have : (8 : ℝ) / 5 ≤ √3 := Real.le_sqrt_of_sq_le (by norm_num)
    linarith
  have hs2 : √3 / 2 ≤ (1 : ℝ) := by
    have : √3 ≤ 2 := by
      rw [Real.sqrt_le_iff]; norm_num
    linarith
  have hlt : Real.arccos (4 / 5) < Real.pi / 3 := by
    rw [← arccos_one_half]
    exact Real.strictAntiOn_arccos ⟨by norm_num, by norm_num⟩ ⟨by norm_num, by norm_num⟩
      (by norm_num)
  have hge : Real.pi / 6 ≤ Real.arccos (4 / 5) := by
    rw [← arccos_sqrt_three_half]
    exact Real.strictAntiOn_arccos.antitoneOn ⟨by norm_num, by norm_num⟩
      ⟨by linarith, hs2⟩ hs1
  have hpos : 0 < Real.arccos (4 / 5) := by
    rw [Real.arccos_pos]; norm_num
  constructor
  · rw [lt_div_iff₀ hpos]; linarith
  · rw [div_le_iff₀ hpos]; linarith

/-- C11: the tolerance guarantee fails for `R = 1`, `eps = 1 / 5`. The function returns
level 1, because `3 * 2 ^ 1 ≥ N` for `N = π / acos (4 / 5) ≈ 4.88`; but the level-1 cap outline
has only 4 chords for a full circle, and the midpoint of the boundary chord `(0, 4)` of cap
triangle `(0, 4, 1)` lies at distance `√(1 / 8) ≈ 0.354` from the cap centre, below
`0.5 * (1 - eps / R) = 0.4`. -/
theorem c11_tolerance_exceeded :
    sp_get_optimum_subdivision_count Real.pi Real.arccos Real.log 1 (1 / 5) = 1
      ∧ ∃ m, sp_create_geometry Real.sqrt 0 1 (fun _ => ⟨0, 0⟩) (fun _ => ⟨0, 0, 0⟩) = some m
          ∧ m.triangles 2 = ⟨0, 4, 1⟩
          ∧ Real.sqrt ((((m.vertices 0).x + (m.vertices 4).x) / 2 - 0) ^ 2
              + (((m.vertices 0).y + (m.vertices 4).y) / 2 - 0) ^ 2)
            < 0.5 * (1 - 1 / 5 / 1) := by
  constructor
  · rw [sp_get_optimum_subdivision_count_eq, Int.ceil_eq_iff]
    obtain ⟨h3, h6⟩ := edges_one_fifth
    have hpos : (0 : ℝ) < Real.pi / Real.arccos (1 - 1 / 5 / 1) / 3 := by positivity
    constructor
    · have : (0 : ℝ) < Real.logb 2 (Real.pi / Real.arccos (1 - 1 / 5 / 1) / 3) := by
        apply Real.logb_pos (by norm_num)
        rw [lt_div_iff₀ (by norm_num)]; linarith
      simpa using this
    · rw [Real.logb_le_iff_le_rpow (by norm_num) hpos, two_rpow_intCast]
      norm_num
      rw [div_le_iff₀ (by norm_num)]; linarith
  · refine ⟨_, sp__create_geometry_one Real.sqrt 0 _ _, ?_, ?_⟩
    · simp [capBuffers, quadBuffers, Buffers.writeVertex, Buffers.writeTriangle]
    · have hv0 : (capBuffers (fun _ => (⟨0, 0⟩ : sp__Vertex ℝ)) (fun _ => ⟨0, 0, 0⟩)).vertices 0
          = ⟨0.0, -0.5⟩ := by
        simp [capBuffers, quadBuffers, Buffers.writeVertex, Buffers.writeTriangle]
      have hv4 : (capBuffers (fun _ => (⟨0, 0⟩ : sp__Vertex ℝ)) (fun _ => ⟨0, 0, 0⟩)).vertices 4
          = ⟨-0.5, 0.0⟩ := by
        simp [capBuffers, quadBuffers, Buffers.writeVertex, Buffers.writeTriangle]
      rw [hv0, hv4]
      have harg : (((0.0 : ℝ) + -0.5) / 2 - 0) ^ 2 + (((-0.5 : ℝ) + 0.0) / 2 - 0) ^ 2 = 1 / 8 := by
        norm_num
      show Real.sqrt ((((0.0 : ℝ) + -0.5) / 2 - 0) ^ 2 + (((-0.5 : ℝ) + 0.0) / 2 - 0) ^ 2)
        < 0.5 * (1 - 1 / 5 / 1)
      rw [harg, Real.sqrt_lt' (by norm_num)]
      norm_num

/-- C14: the returned value is not always a valid level. For `R = 1`, `eps = 2` (within
`0 < eps ≤ 2 R`): `acos (-1) = π`, `N = 1`, `log2 (1 / 3) ≈ -1.58`, and the function
returns `-1`, which violates the assertion `_subdivision_count >= 0` of the other functions. -/
theorem c14_optimum_negative :
    (0 : ℝ) < 1 ∧ (0 : ℝ) < 2 ∧ (2 : ℝ) ≤ 2 * 1
      ∧ sp_get_optimum_subdivision_count Real.pi Real.arccos Real.log 1 2 = -1 := by
  refine ⟨by norm_num, by norm_num, by norm_num, ?_⟩
  rw [sp_get_optimum_subdivision_count_eq, Int.ceil_eq_iff]
  have e : (1 : ℝ) - 2 / 1 = -1 := by norm_num
  rw [e, Real.arccos_neg_one, div_self Real.pi_pos.ne']
  constructor
  · rw [Real.lt_logb_iff_rpow_lt (by norm_num) (by norm_num)]
    have : (((-1 : ℤ) : ℝ) - 1) = ((-2 : ℤ) : ℝ) := by norm_num
    rw [this, two_rpow_intCast]
    norm_num
  · rw [Real.logb_le_iff_le_rpow (by norm_num) (by norm_num), two_rpow_intCast]
    norm_num

end OptimumClaims

end SubdividedPill
